import Mathlib

/-!
# gosdk: chunk buffer pools and per-blobber upload pipeline

A shallow embedding of the two `DownloadBuffer` implementations of
`zboxcore/zboxutil/download_buffer.go` and, further down, of the upload and
commit steps of `zboxcore/sdk/chunked_upload_blobber.go`.

* Go `int` is the 64-bit two's-complement integer: every arithmetic result is
  passed through `wrapInt`.  `uint32` values are naturals below `2^32`.
* A byte slice is modelled by its header (window into the backing array); the
  bytes themselves are written only by the callers that were lent a window.
* Run-time panics are explicit `Fault` values.
* Blocking is modelled sequentially: an operation that cannot proceed observes
  the context at successive instants `t, t+1, ...` while nobody else touches the
  pool; when the observation window (`fuel`) ends it is reported as `waiting`.
* The mutex `mu` of a pool is the field `mu` (`true`: held).  One caller runs at
  a time, so between calls it is held only after a panic inside a critical
  section that has no deferred `Unlock`; a call that then reaches `Lock()`
  never gets past it.
* `make` fails above what the runtime allocates; these limits are a parameter
  (`Runtime`).
-/

namespace Gosdk

/-- Two's-complement wrap-around of a Go `int` (64 bit). -/
def wrapInt (x : Int) : Int :=
  (x + 9223372036854775808) % 18446744073709551616 - 9223372036854775808

/-- Run-time panics the pool code can raise. -/
inductive Fault
  | divideByZero
  | negativeShift
  | sliceBounds
  | nilMapWrite
  | makeSliceLen
  | makeChanSize
  | sendOnClosed
  | closeOfClosed
  deriving DecidableEq, Repr

/-- Header of a Go `[]byte`: `isNil` marks the nil slice, `off` is the index of
its first element in the backing array, `len` and `cap` as in Go. -/
structure Slice where
  isNil : Bool
  off : Int
  len : Int
  cap : Int
  deriving DecidableEq, Repr

/-- The nil slice. -/
def Slice.nilSlice : Slice := ⟨true, 0, 0, 0⟩

/-- Result of an operation that may panic. -/
inductive Res (α : Type)
  | ok (a : α)
  | panic (f : Fault)
  deriving DecidableEq, Repr

/-- What the Go runtime the program runs on allocates: `make([]byte, n)` returns
for `0 ≤ n ≤ maxSliceLen` and fails above it (`makeslice: len out of range`),
and `make(chan int, n)` returns for `0 ≤ n ≤ maxChanSize` and fails above it
(`makechan: size out of range`). -/
structure Runtime where
  maxSliceLen : Int
  maxChanSize : Int
  deriving DecidableEq, Repr

/-- Limits as on linux/amd64 with enough memory: an allocation has at most `2^48`
bytes, and a channel of `int` takes 8 bytes for each element after its header
(96 bytes here). -/
def Runtime.amd64 : Runtime := ⟨281474976710656, 35184372088820⟩

/-- Go `make([]byte, n)`: panics on a negative length and on a length above the
limit of the runtime. -/
def makeBytes (rt : Runtime) (n : Int) : Res Slice :=
  if n < 0 ∨ rt.maxSliceLen < n then .panic .makeSliceLen else .ok ⟨false, 0, n, n⟩

/-- Go slice expression `s[lo:hi]`. -/
def Slice.slice (s : Slice) (lo hi : Int) : Res Slice :=
  if 0 ≤ lo ∧ lo ≤ hi ∧ hi ≤ s.cap then .ok ⟨s.isNil, s.off + lo, hi - lo, s.cap - lo⟩
  else .panic .sliceBounds

/-- A buffered Go `chan int`. -/
structure Chan where
  queue : List Int
  cap : Int
  closed : Bool
  deriving DecidableEq, Repr

/-- Go `make(chan int, n)`: panics on a negative capacity and on a capacity above
the limit of the runtime. -/
def makeChan (rt : Runtime) (n : Int) : Res Chan :=
  if n < 0 ∨ rt.maxChanSize < n then .panic .makeChanSize else .ok ⟨[], n, false⟩

/-- Outcome of a statement that returns no value. -/
inductive Exit
  | done
  | blocked
  | fault (f : Fault)
  deriving DecidableEq, Repr

/-- Go `ch <- v` when nobody receives concurrently. -/
def Chan.send (c : Chan) (v : Int) : Exit × Chan :=
  if c.closed then (.fault .sendOnClosed, c)
  else if (c.queue.length : Int) < c.cap then (.done, { c with queue := c.queue ++ [v] })
  else (.blocked, c)

/-- A receive `<-ch` can proceed. -/
def Chan.recvReady (c : Chan) : Bool := c.closed || !c.queue.isEmpty

/-- Go `<-ch` when it can proceed: the oldest queued value, or the zero value of
a closed and drained channel. -/
def Chan.recv (c : Chan) : Int × Chan :=
  match c.queue with
  | [] => (0, c)
  | v :: rest => (v, { c with queue := rest })

/-- Go `m[k]` with the comma-ok form, on the entries of a map. -/
def mapGet (m : List (Int × Int)) (k : Int) : Option Int :=
  (m.find? (fun p => p.1 == k)).map Prod.snd

/-- Go `m[k] = v`. -/
def mapSet (m : List (Int × Int)) (k v : Int) : List (Int × Int) :=
  if m.any (fun p => p.1 == k) then m.map (fun p => if p.1 == k then (k, v) else p)
  else m ++ [(k, v)]

/-- Go `delete(m, k)`. -/
def mapDelete (m : List (Int × Int)) (k : Int) : List (Int × Int) :=
  m.filter (fun p => !(p.1 == k))

/-- What a `RequestChunk` call is observed to do. -/
inductive Outcome
  | buffer (b : Slice)
  | cancelled
  | waiting
  | fault (f : Fault)
  deriving DecidableEq, Repr

/-- A `context.Context`: whether `ctx.Done()` is closed at each instant. -/
abbrev Ctx := Nat → Bool

/-- A context that is never cancelled. -/
def Ctx.background : Ctx := fun _ => false

/-- A context that is cancelled before the call. -/
def Ctx.cancelledCtx : Ctx := fun _ => true

/-! ## Queue-based pool -/

/-- The struct `DownloadBufferWithChan`; `mu = true` says that the mutex is
held, `mp = none` is the nil map. -/
structure DownloadBufferWithChan where
  buf : Slice
  length : Int
  reqSize : Int
  ch : Chan
  mu : Bool
  mp : Option (List (Int × Int))
  deriving DecidableEq, Repr

/-- The loop `for i := 0; i < size; i++ { db.ch <- i }`, `n` iterations from `i`. -/
def fillChan : Nat → Int → Chan → Exit × Chan
  | 0, _, c => (.done, c)
  | n + 1, i, c =>
    match c.send i with
    | (.done, c1) => fillChan n (wrapInt (i + 1)) c1
    | other => other

/-- Go `NewDownloadBufferWithChan`. -/
def NewDownloadBufferWithChan (rt : Runtime) (size numBlocks effectiveBlockSize : Int) :
    Res DownloadBufferWithChan :=
  let numBlocks := wrapInt (numBlocks + 1)
  match makeBytes rt (wrapInt (wrapInt (size * numBlocks) * effectiveBlockSize)) with
  | .panic f => .panic f
  | .ok buf =>
    match makeChan rt size with
    | .panic f => .panic f
    | .ok ch =>
      match fillChan size.toNat 0 ch with
      | (.done, ch1) =>
        .ok { buf := buf, length := size, reqSize := wrapInt (effectiveBlockSize * numBlocks),
              ch := ch1, mu := false, mp := some [] }
      | (.blocked, _) => .panic .makeChanSize
      | (.fault f, _) => .panic f

namespace DownloadBufferWithChan

/-- Go `(*DownloadBufferWithChan).ReleaseChunk`.  With the mutex held the call
stays in `r.mu.Lock()`; otherwise the mutex is free again when the channel send
is reached. -/
def ReleaseChunk (r : DownloadBufferWithChan) (num : Int) : Exit × DownloadBufferWithChan :=
  if r.mu then (.blocked, r)
  else
    match r.mp with
    | none => (.done, r)
    | some m =>
      match mapGet m num with
      | none => (.done, r)
      | some ind =>
        let r1 := { r with mp := some (mapDelete m num) }
        let (e, ch1) := r1.ch.send ind
        (e, { r1 with ch := ch1 })

/-- The `case ind := <-r.ch` arm of `RequestChunk`.  With the mutex held the call
stays in `r.mu.Lock()` after the receive.  The write to a nil map panics between
`Lock()` and `Unlock()`, and nothing is deferred: the mutex stays held.  The
slice expression comes after `Unlock()`. -/
def grant (r : DownloadBufferWithChan) (num : Int) : Outcome × DownloadBufferWithChan :=
  let (ind, ch1) := r.ch.recv
  let r1 := { r with ch := ch1 }
  if r1.mu then (.waiting, r1)
  else
    match r1.mp with
    | none => (.fault .nilMapWrite, { r1 with mu := true })
    | some m =>
      let r2 := { r1 with mp := some (mapSet m num ind) }
      match r2.buf.slice (wrapInt (ind * r2.reqSize)) (wrapInt (wrapInt (ind + 1) * r2.reqSize)) with
      | .ok b => (.buffer b, r2)
      | .panic f => (.fault f, r2)

/-- The `select` of `RequestChunk` observed from instant `t` for `fuel` instants;
`pick` is the arm the runtime chooses when both are ready (`true`: `ctx.Done()`). -/
def selectFrom (r : DownloadBufferWithChan) (ctx : Ctx) (pick : Bool) (num : Int) :
    Nat → Nat → Outcome × DownloadBufferWithChan
  | 0, _ => (.waiting, r)
  | fuel + 1, t =>
    if ctx t && (pick || !r.ch.recvReady) then (.cancelled, r)
    else if r.ch.recvReady then r.grant num
    else selectFrom r ctx pick num fuel (t + 1)

/-- Go `(*DownloadBufferWithChan).RequestChunk`. -/
def RequestChunk (r : DownloadBufferWithChan) (ctx : Ctx) (pick : Bool) (num : Int)
    (fuel : Nat) : Outcome × DownloadBufferWithChan :=
  r.selectFrom ctx pick num fuel 0

/-- Go `close(ch)`. -/
def closeChan (c : Chan) : Res Chan :=
  if c.closed then .panic .closeOfClosed else .ok { c with closed := true }

/-- Go `(*DownloadBufferWithChan).ClearBuffer`; it does not take the mutex.  The
loop that deletes every key before the field is set to nil is not visible
afterwards: the struct holds the only reference to the map. -/
def ClearBuffer (r : DownloadBufferWithChan) : Exit × DownloadBufferWithChan :=
  let r1 := { r with buf := Slice.nilSlice }
  match closeChan r1.ch with
  | .panic f => (.fault f, r1)
  | .ok ch1 => (.done, { r1 with ch := ch1, mp := none })

end DownloadBufferWithChan

/-! ## Bitmask pool -/

/-- Go `x << n` on `uint32` for a non-negative count. -/
def shl32 (x : Nat) (n : Int) : Nat :=
  if 32 ≤ n then 0 else (x <<< n.toNat) % 4294967296

/-- Go `^x` on `uint32`. -/
def not32 (x : Nat) : Nat := 4294967295 - x % 4294967296

/-- The struct `DownloadBufferWithMask`; `mu = true` says that the mutex is
held. -/
structure DownloadBufferWithMask where
  buf : Slice
  length : Int
  reqSize : Int
  numBlocks : Int
  mask : Nat
  mu : Bool
  deriving DecidableEq, Repr

/-- Go `NewDownloadBufferWithMask`; the field `numBlocks` keeps its zero value. -/
def NewDownloadBufferWithMask (rt : Runtime) (size numBlocks effectiveBlockSize : Int) :
    Res DownloadBufferWithMask :=
  let numBlocks := wrapInt (numBlocks + 1)
  match makeBytes rt (wrapInt (wrapInt (size * numBlocks) * effectiveBlockSize)) with
  | .panic f => .panic f
  | .ok buf =>
    if size < 0 then .panic .negativeShift
    else
      .ok { buf := buf, length := size, reqSize := wrapInt (effectiveBlockSize * numBlocks),
            numBlocks := 0, mask := (shl32 1 size + 4294967295) % 4294967296, mu := false }

namespace DownloadBufferWithMask

/-- Go `(*DownloadBufferWithMask).SetNumBlocks`. -/
def SetNumBlocks (r : DownloadBufferWithMask) (numBlocks : Int) : DownloadBufferWithMask :=
  { r with numBlocks := numBlocks }

/-- The two statements `num = num / r.numBlocks; num = num % r.length`. -/
def slotOf (r : DownloadBufferWithMask) (num : Int) : Res Int :=
  if r.numBlocks = 0 then .panic .divideByZero
  else
    let num := wrapInt (Int.tdiv num r.numBlocks)
    if r.length = 0 then .panic .divideByZero
    else .ok (Int.tmod num r.length)

/-- The `for` loop of `RequestChunk` on the reduced `num`, observed from instant
`t` for `fuel` iterations.  With the mutex held the call stays in
`r.mu.Lock()`.  The shift `1 << num` panics on a negative `num` between `Lock()`
and `Unlock()`, and nothing is deferred: the mutex stays held.  The slice
expression comes after `Unlock()`. -/
def pollFrom (r : DownloadBufferWithMask) (ctx : Ctx) (num : Int) :
    Nat → Nat → Outcome × DownloadBufferWithMask
  | 0, _ => (.waiting, r)
  | fuel + 1, t =>
    if ctx t then (.cancelled, r)
    else if r.mu then (.waiting, r)
    else if num < 0 then (.fault .negativeShift, { r with mu := true })
    else if r.mask &&& shl32 1 num = 0 then pollFrom r ctx num fuel (t + 1)
    else
      let r1 := { r with mask := r.mask &&& not32 (shl32 1 num) }
      match r1.buf.slice (wrapInt (num * r1.reqSize)) (wrapInt (wrapInt (num + 1) * r1.reqSize)) with
      | .ok b => (.buffer b, r1)
      | .panic f => (.fault f, r1)

/-- Go `(*DownloadBufferWithMask).RequestChunk`. -/
def RequestChunk (r : DownloadBufferWithMask) (ctx : Ctx) (num : Int) (fuel : Nat) :
    Outcome × DownloadBufferWithMask :=
  match r.slotOf num with
  | .panic f => (.fault f, r)
  | .ok slot => r.pollFrom ctx slot fuel 0

/-- Go `(*DownloadBufferWithMask).ReleaseChunk`.  With the mutex held the call
stays in `r.mu.Lock()`; the deferred `Unlock()` runs also when the shift
panics. -/
def ReleaseChunk (r : DownloadBufferWithMask) (num : Int) : Exit × DownloadBufferWithMask :=
  match r.slotOf num with
  | .panic f => (.fault f, r)
  | .ok slot =>
    if r.mu then (.blocked, r)
    else if slot < 0 then (.fault .negativeShift, r)
    else (.done, { r with mask := r.mask ||| shl32 1 slot })

/-- Go `(*DownloadBufferWithMask).ClearBuffer`. -/
def ClearBuffer (r : DownloadBufferWithMask) : DownloadBufferWithMask :=
  { r with buf := Slice.nilSlice }

end DownloadBufferWithMask

/-- The arguments of a constructor are non-negative and none of the products it
computes overflows the 64-bit `int`. -/
def NoOverflow (size numBlocks effectiveBlockSize : Int) : Prop :=
  0 ≤ size ∧ 0 ≤ numBlocks ∧ 0 ≤ effectiveBlockSize ∧
  size < 9223372036854775808 ∧ numBlocks + 1 < 9223372036854775808 ∧
  size * (numBlocks + 1) < 9223372036854775808 ∧
  effectiveBlockSize * (numBlocks + 1) < 9223372036854775808 ∧
  size * (numBlocks + 1) * effectiveBlockSize < 9223372036854775808

instance (a b c : Int) : Decidable (NoOverflow a b c) := by
  unfold NoOverflow; infer_instance

/-- The consecutive integers `i, i+1, ..., i+n-1`. -/
def upFrom (i : Int) : Nat → List Int
  | 0 => []
  | n + 1 => i :: upFrom (i + 1) n

/-- The window of the backing array that belongs to slot `ind`. -/
def slotWindow (total reqSize ind : Int) : Slice :=
  ⟨false, ind * reqSize, reqSize, total - ind * reqSize⟩

/-- Successive `RequestChunk` calls, one per key, under a never-cancelled context. -/
def DownloadBufferWithChan.requestEach (r : DownloadBufferWithChan) (pick : Bool) (fuel : Nat) :
    List Int → List Outcome × DownloadBufferWithChan
  | [] => ([], r)
  | k :: ks =>
    let (o, r1) := r.RequestChunk Ctx.background pick k fuel
    let (os, r2) := r1.requestEach pick fuel ks
    (o :: os, r2)

/-- A pool in regular use: backing array of `total` bytes, open channel, mutex
free. -/
def chanPool (total size reqSize : Int) (q : List Int) (m : List (Int × Int)) :
    DownloadBufferWithChan :=
  { buf := ⟨false, 0, total, total⟩, length := size, reqSize := reqSize,
    ch := ⟨q, size, false⟩, mu := false, mp := some m }

/-- A bitmask pool in regular use: backing array of `total` bytes, mutex free. -/
def maskPool (total size reqSize numBlocks : Int) (mask : Nat) : DownloadBufferWithMask :=
  { buf := ⟨false, 0, total, total⟩, length := size, reqSize := reqSize,
    numBlocks := numBlocks, mask := mask, mu := false }

/-- The byte count and the capacity asked of `make` are within the limits of the
runtime. -/
def Allocatable (rt : Runtime) (size numBlocks effectiveBlockSize : Int) : Prop :=
  size * (numBlocks + 1) * effectiveBlockSize ≤ rt.maxSliceLen ∧ size ≤ rt.maxChanSize

instance (rt : Runtime) (a b c : Int) : Decidable (Allocatable rt a b c) := by
  unfold Allocatable; infer_instance

/-- The slot the bitmask pool assigns to key `num`: `(num / numBlocks) % length`
with Go's truncated division and remainder. -/
def slotIndex (numBlocks length num : Int) : Int :=
  Int.tmod (Int.tdiv num numBlocks) length

/-- One call made on a queue-based pool. -/
inductive ChanCall
  | request (ctx : Ctx) (pick : Bool) (num : Int) (fuel : Nat)
  | release (num : Int)

/-- The pool after one call. -/
def DownloadBufferWithChan.perform (r : DownloadBufferWithChan) : ChanCall → DownloadBufferWithChan
  | .request ctx pick num fuel => (r.RequestChunk ctx pick num fuel).2
  | .release num => (r.ReleaseChunk num).2

/-- The pool after a sequence of calls. -/
def DownloadBufferWithChan.runCalls (r : DownloadBufferWithChan) (cs : List ChanCall) :
    DownloadBufferWithChan :=
  cs.foldl DownloadBufferWithChan.perform r

/-- The slot indices recorded as held in the map. -/
def DownloadBufferWithChan.heldSlots (r : DownloadBufferWithChan) : List Int :=
  match r.mp with
  | none => []
  | some m => m.map Prod.snd

/-- The keys recorded in the map. -/
def DownloadBufferWithChan.heldKeys (r : DownloadBufferWithChan) : List Int :=
  match r.mp with
  | none => []
  | some m => m.map Prod.fst

/-- Invariant of the queue-based pool between calls: the channel is open, keys
are unique, and the free and the held slot indices are pairwise distinct
elements of `[0, size)`. -/
def ChanInv (size : Int) (r : DownloadBufferWithChan) : Prop :=
  r.ch.closed = false ∧ r.heldKeys.Nodup ∧ (r.ch.queue ++ r.heldSlots).Nodup ∧
    ∀ x ∈ r.ch.queue ++ r.heldSlots, 0 ≤ x ∧ x < size

/-- One call of a client that uses a pool through the `DownloadBuffer` interface. -/
inductive Call
  | request (num : Int)
  | release (num : Int)
  deriving DecidableEq, Repr

/-- A buffer was returned. -/
def Outcome.isBuffer : Outcome → Bool
  | .buffer _ => true
  | _ => false

/-- What the `RequestChunk` calls of a sequence return on the queue-based pool,
under a context that is never cancelled. -/
def DownloadBufferWithChan.outcomes (r : DownloadBufferWithChan) (pick : Bool) (fuel : Nat) :
    List Call → List Outcome
  | [] => []
  | .request k :: cs =>
    (r.RequestChunk Ctx.background pick k fuel).1 ::
      DownloadBufferWithChan.outcomes (r.RequestChunk Ctx.background pick k fuel).2 pick fuel cs
  | .release k :: cs => DownloadBufferWithChan.outcomes (r.ReleaseChunk k).2 pick fuel cs

/-- What the `RequestChunk` calls of a sequence return on the bitmask pool,
under a context that is never cancelled. -/
def DownloadBufferWithMask.outcomes (r : DownloadBufferWithMask) (fuel : Nat) :
    List Call → List Outcome
  | [] => []
  | .request k :: cs =>
    (r.RequestChunk Ctx.background k fuel).1 ::
      DownloadBufferWithMask.outcomes (r.RequestChunk Ctx.background k fuel).2 fuel cs
  | .release k :: cs => DownloadBufferWithMask.outcomes (r.ReleaseChunk k).2 fuel cs

/-- What the caller of a `RequestChunk` saw: a buffer was granted (`some true`),
the call kept waiting (`some false`), or neither. -/
def Outcome.granted : Outcome → Option Bool
  | .buffer _ => some true
  | .waiting => some false
  | _ => none

/-- The keys held after a `RequestChunk` for `k` made while the keys `held` are
out, on pools with `cap` slots: the call is granted, and `k` becomes held, when
fewer than `cap` keys are held; otherwise the caller gives up waiting and holds
nothing. -/
def heldAfterRequest (cap : Nat) (held : List Int) (k : Int) : List Int :=
  if held.length < cap then held ++ [k] else held

/-- The keys are non-negative Go ints, a key is released only while held and is
not requested again while held; `held` lists the keys held before the calls. -/
def wellFormed (cap : Nat) : List Int → List Call → Bool
  | _, [] => true
  | held, .request k :: cs =>
    decide (0 ≤ k) && decide (k < 9223372036854775808) && !held.contains k &&
      wellFormed cap (heldAfterRequest cap held k) cs
  | held, .release k :: cs =>
    held.contains k && wellFormed cap (held.filter (fun h => h != k)) cs

/-- No key is requested, while a slot is free, when a held key maps to the same
bitmask slot. -/
def collisionFree (numBlocks length : Int) (cap : Nat) : List Int → List Call → Bool
  | _, [] => true
  | held, .request k :: cs =>
    (!decide (held.length < cap) ||
      held.all (fun h => slotIndex numBlocks length h != slotIndex numBlocks length k)) &&
      collisionFree numBlocks length cap (heldAfterRequest cap held k) cs
  | held, .release k :: cs =>
    collisionFree numBlocks length cap (held.filter (fun h => h != k)) cs

/-- For each `RequestChunk` of the sequence, whether fewer than `cap` keys are
held when it is made. -/
def slotFree (cap : Nat) : List Int → List Call → List Bool
  | _, [] => []
  | held, .request k :: cs =>
    decide (held.length < cap) :: slotFree cap (heldAfterRequest cap held k) cs
  | held, .release k :: cs => slotFree cap (held.filter (fun h => h != k)) cs

/-- The two pools side by side while the keys `held` are out: queue `q` and map
`m` of the queue-based pool, `mask` of the bitmask pool. -/
structure PairInv (size n : Int) (held q : List Int) (m : List (Int × Int)) (mask : Nat) :
    Prop where
  keys : m.map Prod.fst = held
  count : q.length + held.length = size.toNat
  qrange : ∀ x ∈ q, 0 ≤ x ∧ x < size
  mrange : ∀ p ∈ m, 0 ≤ p.2 ∧ p.2 < size
  hrange : ∀ h ∈ held, 0 ≤ h ∧ h < 9223372036854775808
  heldNodup : held.Nodup
  slotsNodup : (held.map (slotIndex n size)).Nodup
  bits : ∀ j : Nat, j < size.toNat →
    (mask.testBit j = true ↔ ∀ h ∈ held, slotIndex n size h ≠ (j : Int))

/-- The slot a call obtained: for a `RequestChunk` that returned a buffer, the
slot recorded for its key by `r.mp[num] = ind`. -/
def DownloadBufferWithChan.grantedBy (r : DownloadBufferWithChan) : ChanCall → List Int
  | .request ctx pick num fuel =>
    match r.RequestChunk ctx pick num fuel with
    | (.buffer _, r1) =>
      match r1.mp with
      | some m => (mapGet m num).toList
      | none => []
    | _ => []
  | .release _ => []

/-- The slot a call gave back: for a `ReleaseChunk` of a held key that completed,
the slot `r.mp[num]` it sent to the channel. -/
def DownloadBufferWithChan.releasedBy (r : DownloadBufferWithChan) : ChanCall → List Int
  | .request _ _ _ _ => []
  | .release num =>
    match (r.ReleaseChunk num).1, r.mp with
    | .done, some m => (mapGet m num).toList
    | _, _ => []

/-- The slots granted by a sequence of calls, in the order of the grants. -/
def DownloadBufferWithChan.grants (r : DownloadBufferWithChan) : List ChanCall → List Int
  | [] => []
  | c :: cs => r.grantedBy c ++ DownloadBufferWithChan.grants (r.perform c) cs

/-- The slots released by a sequence of calls, in the order of the releases. -/
def DownloadBufferWithChan.releases (r : DownloadBufferWithChan) : List ChanCall → List Int
  | [] => []
  | c :: cs => r.releasedBy c ++ DownloadBufferWithChan.releases (r.perform c) cs

/-! ## Per-blobber upload pipeline (`zboxcore/sdk/chunked_upload_blobber.go`)

Strings are Lean strings, byte slices are lists of naturals, an `error` is
`Option String` (`none` is `nil`).  Effects on the outside (requests handed to
the HTTP client, `wg.Done()`, `su.Done()`, the file lock) are recorded in the
`World`.  Collaborators whose code is not among the sources are the fields of
`Deps` (pure functions) and of the environment records (what the network, the
clock and the lock answer during one call). -/

/-- One lowercase hexadecimal digit, as written by Go `hex.EncodeToString`. -/
def hexDigit (n : Nat) : Char :=
  if n < 10 then Char.ofNat (48 + n) else Char.ofNat (87 + n)

/-- The characters of Go `hex.EncodeToString`: two digits per byte, high nibble first. -/
def hexChars : List Nat → List Char
  | [] => []
  | b :: bs => hexDigit (b / 16 % 16) :: hexDigit (b % 16) :: hexChars bs

/-- Go `hex.EncodeToString`. -/
def hexEncodeToString (bs : List Nat) : String := String.mk (hexChars bs)

/-- The fields of `su.fileMeta` read by the pipeline. -/
structure FileMeta where
  RemoteName : String
  RemotePath : String
  ActualHash : String
  ActualSize : Int
  ActualThumbnailHash : String
  ActualThumbnailSize : Int
  MimeType : String
  Attributes : String
  deriving DecidableEq, Repr

/-- The fields of the upload session `*ChunkedUpload` read by the pipeline.
`fileEncscheme = none` is the nil interface, `some key` a scheme whose
`GetEncryptedKey()` returns `key`; `done` counts the calls of `su.Done()`. -/
structure ChunkedUpload where
  ConnectionID : String
  fileMeta : FileMeta
  chunkSize : Int
  shardUploadedSize : Int
  encryptOnUpload : Bool
  fileEncscheme : Option String
  allocationID : String
  allocationTx : String
  httpMethod : String
  done : Nat
  deriving DecidableEq, Repr

/-- The fields of `fileref.FileRef` written by the pipeline; `Hash` is the
record's identity hash. -/
structure FileRef where
  Hash : String
  Path : String
  Size : Int
  ChunkSize : Int
  ActualFileHash : String
  ActualFileSize : Int
  EncryptedKey : String
  MerkleRoot : String
  ContentHash : String
  ThumbnailSize : Int
  ThumbnailHash : String
  ActualThumbnailSize : Int
  ActualThumbnailHash : String
  deriving DecidableEq, Repr

/-- The struct `UploadFormData` (JSON value of the form field `uploadMeta`). -/
structure UploadFormData where
  ConnectionID : String
  Filename : String
  Path : String
  ActualHash : String
  ActualSize : Int
  ActualThumbHash : String
  ActualThumbSize : Int
  MimeType : String
  Attributes : String
  IsFinal : Bool
  ChunkSize : Int
  ChunkIndex : Int
  UploadOffset : Int
  ChunkHash : String
  ContentHash : String
  MerkleRoot : String
  ThumbnailContentHash : String
  EncryptedKey : String
  deriving DecidableEq, Repr

/-- The hashers of `sb.progress`: what has been fed to `ChallengeHasher.Write`
and to `ContentHasher.AddLeaf`, in call order. -/
structure UploadBlobberStatus where
  challengeWrites : List (List Nat × Int)
  contentLeaves : List (String × Int)
  deriving DecidableEq, Repr

/-- A pending structural change (`allocationchange.AllocationChange`):
`GetAffectedPath()`, `GetSize()` and the data `ProcessChange` works from. -/
structure AllocationChange where
  AffectedPath : String
  Size : Int
  payload : String
  deriving DecidableEq, Repr

/-- A directory-tree snapshot (`fileref.Ref`): its hash and its content. -/
structure Ref where
  Hash : String
  content : List String
  deriving DecidableEq, Repr

/-- The struct `marker.WriteMarker`. -/
structure WriteMarker where
  AllocationRoot : String
  PreviousAllocationRoot : String
  AllocationID : String
  Size : Int
  BlobberID : String
  Timestamp : Int
  ClientID : String
  Signature : String
  deriving DecidableEq, Repr

/-- The struct `CommitResult`. -/
structure CommitResult where
  Success : Bool
  ErrorMessage : String
  deriving DecidableEq, Repr

/-- Go `ErrorCommitResult`. -/
def ErrorCommitResult (errMsg : String) : CommitResult := ⟨false, errMsg⟩

/-- The struct `ChunkedUploadBobbler`; `Baseurl` and `ID` are those of
`sb.blobber`, `locked` is the state of `sb.flock`. -/
structure ChunkedUploadBobbler where
  Baseurl : String
  ID : String
  fileRef : FileRef
  progress : UploadBlobberStatus
  commitChanges : List AllocationChange
  commitResult : Option CommitResult
  locked : Bool
  deriving DecidableEq, Repr

/-- The struct `uploadResult` decoded from the blobber's answer. -/
structure UploadResult where
  Filename : String
  Hash : String
  deriving DecidableEq, Repr

/-- The decoded `ReferencePathResult`: the latest write marker and what
`GetDirTree(allocationID)` returns for it. -/
structure ReferencePathResult where
  LatestWM : Option WriteMarker
  dirTree : Option Ref
  dirTreeErr : Option String
  deriving DecidableEq, Repr

/-- What the HTTP client hands to a callback: a transport error, or a response
with its status code and the result of reading its body. -/
inductive HttpReply
  | transportError (err : String)
  | response (status : Int) (readErr : Option String) (body : String)
  deriving DecidableEq, Repr

/-- An upload request handed to the HTTP client. -/
structure UploadRequest where
  url : String
  tx : String
  method : String
  connectionID : String
  uploadFile : List Nat
  thumbnailFile : Option (List Nat)
  uploadMeta : UploadFormData
  deriving DecidableEq, Repr

/-- A commit request handed to the HTTP client. -/
structure CommitRequest where
  url : String
  tx : String
  connectionID : String
  writeMarker : WriteMarker
  deriving DecidableEq, Repr

/-- Collaborators outside the sources, as pure functions: SHA-1,
`(*FileRef).CalculateHash`, `getChallengeHash` and `getContentHash` of the
hashers, the JSON decoders, `encryption.Hash`, `(*Ref).CalculateHash`,
`AllocationChange.ProcessChange` and `(*WriteMarker).Sign`. -/
structure Deps where
  sha1 : List Nat → List Nat
  calculateHash : FileRef → FileRef
  challengeHash : List (List Nat × Int) → String
  contentHash : List (String × Int) → String
  unmarshalUpload : String → Except String UploadResult
  unmarshalRefPath : String → Except String ReferencePathResult
  hash : String → String
  refCalculateHash : Ref → Ref
  processChange : AllocationChange → Ref → Ref × Option String
  sign : WriteMarker → Except String String

/-- Everything a call of the pipeline can change: the blobber client, the
session, the requests handed to the HTTP client (upload, reference path,
commit), the changes handed to `ProcessChange`, and the numbers of calls of
`sb.fileRef.CalculateHash()`, `wm.Sign()`, `wg.Done()` and `flock.Unlock()`. -/
structure World where
  sb : ChunkedUploadBobbler
  su : ChunkedUpload
  uploads : List UploadRequest
  refPathRequests : List (List String)
  commits : List CommitRequest
  processed : List AllocationChange
  hashCalls : Nat
  signCalls : Nat
  wgDone : Nat
  unlocks : Nat
  deriving DecidableEq, Repr

/-- Modelled from the spec: `zboxutil.HttpDo` (its code is not among the sources)
performs the request within its bounded time, hands the response or the
transport error to the callback and returns the callback's error; when the
context ends first it returns the context's error. -/
def HttpDo (ctxErr : Option String) (callbackErr : Option String) : Option String :=
  match ctxErr with
  | some e => some e
  | none => callbackErr

/-- How a call of the pipeline ends: it returns (with its `error`, `none` for
`nil` or for a function without result), or it panics on a nil dereference. -/
inductive Ending
  | returned (err : Option String)
  | panicked
  deriving DecidableEq, Repr

/-- What the outside answers during one `processUpload`: the results of the two
`CreateFormFile` calls, the HTTP exchange, and the error of the session context
if it ended during the exchange. -/
structure UploadEnv where
  createFormFileErr : Option String
  createThumbnailFileErr : Option String
  reply : HttpReply
  ctxErr : Option String
  deriving DecidableEq, Repr

/-- Go `(*ChunkedUploadBobbler).processHash`. -/
def processHash (p : UploadBlobberStatus) (fileBytes : List Nat) (chunkHash : String)
    (chunkIndex : Int) : UploadBlobberStatus :=
  { challengeWrites := p.challengeWrites ++ [(fileBytes, chunkIndex)],
    contentLeaves := p.contentLeaves ++ [(chunkHash, chunkIndex)] }

/-- The composite literal `UploadFormData{...}` of `processUpload`; the fields it
does not name have their zero value. -/
def newFormData (su : ChunkedUpload) (chunkIndex : Int) (isFinal : Bool) : UploadFormData :=
  { ConnectionID := su.ConnectionID,
    Filename := su.fileMeta.RemoteName,
    Path := su.fileMeta.RemotePath,
    ActualHash := "",
    ActualSize := su.fileMeta.ActualSize,
    ActualThumbHash := su.fileMeta.ActualThumbnailHash,
    ActualThumbSize := su.fileMeta.ActualThumbnailSize,
    MimeType := su.fileMeta.MimeType,
    Attributes := su.fileMeta.Attributes,
    IsFinal := isFinal,
    ChunkSize := su.chunkSize,
    ChunkIndex := chunkIndex,
    UploadOffset := wrapInt (su.chunkSize * chunkIndex),
    ChunkHash := "",
    ContentHash := "",
    MerkleRoot := "",
    ThumbnailContentHash := "",
    EncryptedKey := "" }

/-- The statements of `processUpload` from the chunk hash to the end of
`if isFinal { ... }`: the form data after them and the hashers after
`processHash`. -/
def hashStage (deps : Deps) (su : ChunkedUpload) (p : UploadBlobberStatus) (chunkIndex : Int)
    (fileBytes : List Nat) (isFinal : Bool) : UploadFormData × UploadBlobberStatus :=
  let chunkHash := hexEncodeToString (deps.sha1 fileBytes)
  let formData := { newFormData su chunkIndex isFinal with
    ChunkHash := chunkHash, ContentHash := chunkHash }
  let p1 := processHash p fileBytes chunkHash chunkIndex
  if isFinal then
    ({ formData with
        MerkleRoot := deps.challengeHash p1.challengeWrites,
        ContentHash := deps.contentHash p1.contentLeaves,
        ActualHash := su.fileMeta.ActualHash,
        ActualSize := su.fileMeta.ActualSize }, p1)
  else (formData, p1)

/-- The block `if thumbnailSize > 0 { ... }`; `none` when `CreateFormFile` for the
thumbnail fails and `processUpload` returns. -/
def thumbnailStage (deps : Deps) (env : UploadEnv) (su : ChunkedUpload)
    (formData : UploadFormData) (thumbnailBytes : List Nat) : Option UploadFormData :=
  if thumbnailBytes.length > 0 then
    match env.createThumbnailFileErr with
    | some _ => none
    | none =>
      some { formData with
        ActualThumbSize := su.fileMeta.ActualThumbnailSize,
        ThumbnailContentHash := hexEncodeToString (deps.sha1 thumbnailBytes) }
  else some formData

/-- The block `if su.encryptOnUpload { ... }`; `none` when `GetEncryptedKey` is
called on a nil scheme. -/
def encryptStage (su : ChunkedUpload) (formData : UploadFormData) (fileRef : FileRef) :
    Option (UploadFormData × FileRef) :=
  if su.encryptOnUpload then
    match su.fileEncscheme with
    | none => none
    | some key => some ({ formData with EncryptedKey := key }, { fileRef with EncryptedKey := key })
  else some (formData, fileRef)

/-- The callback handed to `HttpDo` in `processUpload`: its error and whether it
called `su.Done()`. -/
def uploadCallback (deps : Deps) (baseurl : String) (formData : UploadFormData) :
    HttpReply → Option String × Bool
  | .transportError err => (some err, false)
  | .response status readErr body =>
    match readErr with
    | some err => (some err, false)
    | none =>
      if status ≠ 200 then (readErr, false)
      else
        match deps.unmarshalUpload body with
        | .error err => (some err, false)
        | .ok r =>
          if r.Filename ≠ formData.Filename ∨ r.Hash ≠ formData.ChunkHash then
            (some (baseurl ++ " Unexpected upload response data " ++ formData.Filename ++ " " ++
              formData.ChunkHash ++ " " ++ body), false)
          else (none, true)

/-- The block `if err == nil { ... }` after the request: the file reference after
it and the number of calls of `CalculateHash` in it. -/
def fixFileRef (deps : Deps) (su : ChunkedUpload) (formData : UploadFormData)
    (thumbnailBytes : List Nat) (isFinal : Bool) (fileRef : FileRef) : FileRef × Nat :=
  let fr1 :=
    if thumbnailBytes.length > 0 then
      { fileRef with
        ThumbnailSize := thumbnailBytes.length,
        ThumbnailHash := formData.ThumbnailContentHash,
        ActualThumbnailSize := su.fileMeta.ActualThumbnailSize,
        ActualThumbnailHash := su.fileMeta.ActualThumbnailHash }
    else fileRef
  if isFinal then
    (deps.calculateHash { fr1 with
      MerkleRoot := formData.MerkleRoot,
      ContentHash := formData.ContentHash,
      ChunkSize := su.chunkSize,
      Size := su.shardUploadedSize,
      Path := formData.Path,
      ActualFileHash := formData.ActualHash,
      ActualFileSize := formData.ActualSize,
      EncryptedKey := formData.EncryptedKey }, 1)
  else (fr1, 0)

/-- The body of `processUpload` for `len(fileBytes) == 0`. -/
def emptyChunk (deps : Deps) (w : World) (isFinal : Bool) : Ending × World :=
  if isFinal then
    let fr1 := { w.sb.fileRef with
      ChunkSize := w.su.chunkSize,
      Size := w.su.shardUploadedSize,
      Path := w.su.fileMeta.RemotePath,
      ActualFileHash := w.su.fileMeta.ActualHash,
      ActualFileSize := w.su.fileMeta.ActualSize }
    match w.su.fileEncscheme with
    | none => (.panicked, { w with sb := { w.sb with fileRef := fr1 } })
    | some key =>
      (.returned none,
        { w with sb := { w.sb with fileRef := deps.calculateHash { fr1 with EncryptedKey := key } },
                 hashCalls := w.hashCalls + 1 })
  else (.returned none, w)

/-- The body of `processUpload` for a non-empty chunk.  Writing the form fields,
encoding the form data and building the request (`NewUploadRequestWithMethod`,
whose error the code discards) are taken to succeed. -/
def sendChunk (deps : Deps) (env : UploadEnv) (w : World) (chunkIndex : Int)
    (fileBytes thumbnailBytes : List Nat) (isFinal : Bool) : Ending × World :=
  match env.createFormFileErr with
  | some _ => (.returned none, w)
  | none =>
    let (formData1, p1) := hashStage deps w.su w.sb.progress chunkIndex fileBytes isFinal
    let w1 := { w with sb := { w.sb with progress := p1 } }
    match thumbnailStage deps env w.su formData1 thumbnailBytes with
    | none => (.returned none, w1)
    | some formData2 =>
      match encryptStage w.su formData2 w1.sb.fileRef with
      | none => (.panicked, w1)
      | some (formData, fr) =>
        let request : UploadRequest :=
          { url := w.sb.Baseurl, tx := w.su.allocationTx, method := w.su.httpMethod,
            connectionID := w.su.ConnectionID, uploadFile := fileBytes,
            thumbnailFile := if thumbnailBytes.length > 0 then some thumbnailBytes else none,
            uploadMeta := formData }
        let (cbErr, done) := uploadCallback deps w.sb.Baseurl formData env.reply
        let su1 := if done then { w.su with done := w.su.done + 1 } else w.su
        let err := HttpDo env.ctxErr cbErr
        let (fr1, calls) :=
          match err with
          | none => fixFileRef deps w.su formData thumbnailBytes isFinal fr
          | some _ => (fr, 0)
        (.returned none,
          { w1 with sb := { w1.sb with fileRef := fr1 }, su := su1,
                    uploads := w.uploads ++ [request], hashCalls := w.hashCalls + calls })

/-- Go `(*ChunkedUploadBobbler).processUpload`; the deferred `wg.Done()` runs on
every way out. -/
def processUpload (deps : Deps) (env : UploadEnv) (w : World) (chunkIndex : Int)
    (fileBytes thumbnailBytes : List Nat) (isFinal : Bool) : Ending × World :=
  let (e, w1) :=
    if fileBytes.length = 0 then emptyChunk deps w isFinal
    else sendChunk deps env w chunkIndex fileBytes thumbnailBytes isFinal
  (e, { w1 with wgDone := w1.wgDone + 1 })

/-- What the outside answers during one `processCommit`: `flock.Lock()`,
`NewReferencePathRequest`, the reference-path exchange, the clock
(`common.Now()`), `client.GetClientID()`, `json.Marshal` of the marker,
`NewCommitRequest` and the commit exchange. -/
structure CommitEnv where
  lockErr : Option String
  refPathRequestErr : Option String
  refPathReply : HttpReply
  refPathCtxErr : Option String
  now : Int
  clientID : String
  marshalErr : Option String
  commitRequestErr : Option String
  commitReply : HttpReply
  commitCtxErr : Option String
  deriving DecidableEq, Repr

/-- What `processWriteMarker` returns, or that it panicked. -/
structure MarkerResult where
  rootRef : Option Ref
  latestWM : Option WriteMarker
  size : Int
  err : Option String
  panicked : Bool
  deriving DecidableEq, Repr

/-- The callback handed to `HttpDo` in `processWriteMarker`: its error and the
decoded `lR` (the zero value unless decoding succeeded). -/
def refPathCallback (deps : Deps) : HttpReply → Option String × ReferencePathResult
  | .transportError err => (some err, ⟨none, none, none⟩)
  | .response status readErr body =>
    match readErr with
    | some err => (some err, ⟨none, none, none⟩)
    | none =>
      if status ≠ 200 then
        (some ("Reference path error response: Status: " ++ toString status ++ " - " ++ body ++
          " "), ⟨none, none, none⟩)
      else
        match deps.unmarshalRefPath body with
        | .error err => (some err, ⟨none, none, none⟩)
        | .ok lR => (none, lR)

/-- The loop `for _, change := range sb.commitChanges { ... }` of
`processWriteMarker` from a given root and size: the root, the size and the
error after it, and the changes handed to `ProcessChange`, in call order. -/
def applyChanges (deps : Deps) :
    List AllocationChange → Ref → Int → Ref × Int × Option String × List AllocationChange
  | [], root, size => (root, size, none, [])
  | c :: cs, root, size =>
    match deps.processChange c root with
    | (root1, some err) => (root1, size, some err, [c])
    | (root1, none) =>
      let (root2, size2, err, log) := applyChanges deps cs root1 (wrapInt (size + c.Size))
      (root2, size2, err, c :: log)

/-- Go `(*ChunkedUploadBobbler).processWriteMarker`.  `rootRef.CalculateHash()`
on a nil root panics, and so does `ProcessChange` handed a nil root (the change
list is not empty there). -/
def processWriteMarker (deps : Deps) (env : CommitEnv) (w : World) : MarkerResult × World :=
  let paths := w.sb.commitChanges.map AllocationChange.AffectedPath
  if env.refPathRequestErr ≠ none ∨ paths.length = 0 then
    (⟨none, none, 0, env.refPathRequestErr, false⟩, w)
  else
    let w1 := { w with refPathRequests := w.refPathRequests ++ [paths] }
    let (cbErr, lR) := refPathCallback deps env.refPathReply
    match HttpDo env.refPathCtxErr cbErr with
    | some err =>
      (⟨none, none, 0, some err, false⟩,
        { w1 with sb := { w1.sb with commitResult := some (ErrorCommitResult err) } })
    | none =>
      let checked : Option (Option Ref) :=
        match lR.LatestWM with
        | none => some lR.dirTree
        | some _ =>
          match lR.dirTree with
          | none => none
          | some root => some (some (deps.refCalculateHash root))
      match checked with
      | none => (⟨none, none, 0, none, true⟩, w1)
      | some rootRef =>
        match lR.dirTreeErr with
        | some err =>
          (⟨none, none, 0, some err, false⟩,
            { w1 with sb := { w1.sb with commitResult := some (ErrorCommitResult err) } })
        | none =>
          match rootRef with
          | none => (⟨none, none, 0, none, true⟩, w1)
          | some root =>
            let (root1, size, err, log) := applyChanges deps w1.sb.commitChanges root 0
            let w2 := { w1 with processed := w1.processed ++ log }
            match err with
            | some e =>
              (⟨none, none, 0, some e, false⟩,
                { w2 with sb := { w2.sb with commitResult := some (ErrorCommitResult e) } })
            | none => (⟨some root1, lR.LatestWM, size, none, false⟩, w2)

/-- The callback handed to `HttpDo` in `processCommit`; `thrown.New(code, msg)`
is the error `code: msg`. -/
def commitCallback : HttpReply → Option String
  | .transportError err => some err
  | .response status readErr body =>
    match readErr with
    | some err => some err
    | none => if status ≠ 200 then some ("commit_error: " ++ body) else none

/-- The statements of `processCommit` between the deferred `flock.Unlock()` and
its return. -/
def commitLocked (deps : Deps) (env : CommitEnv) (w : World) : Ending × World :=
  let (r, w1) := processWriteMarker deps env w
  if r.panicked then (.panicked, w1)
  else
    match r.err with
    | some err => (.returned (some err), w1)
    | none =>
      match r.rootRef with
      | none => (.panicked, w1)
      | some rootRef =>
        let timestamp := env.now
        let wm : WriteMarker :=
          { AllocationRoot := deps.hash (rootRef.Hash ++ ":" ++ toString timestamp),
            PreviousAllocationRoot :=
              match r.latestWM with
              | some latest => latest.AllocationRoot
              | none => "",
            AllocationID := w1.su.allocationID,
            Size := r.size,
            BlobberID := w1.sb.ID,
            Timestamp := timestamp,
            ClientID := env.clientID,
            Signature := "" }
        let w2 := { w1 with signCalls := w1.signCalls + 1 }
        match deps.sign wm with
        | .error err => (.returned (some err), w2)
        | .ok signature =>
          let wm1 := { wm with Signature := signature }
          match env.marshalErr with
          | some err => (.returned (some err), w2)
          | none =>
            match env.commitRequestErr with
            | some err => (.returned (some err), w2)
            | none =>
              let request : CommitRequest :=
                { url := w2.sb.Baseurl, tx := w2.su.allocationTx,
                  connectionID := w2.su.ConnectionID, writeMarker := wm1 }
              let w3 := { w2 with commits := w2.commits ++ [request] }
              match HttpDo env.commitCtxErr (commitCallback env.commitReply) with
              | none => (.returned none, { w3 with su := { w3.su with done := w3.su.done + 1 } })
              | some _ => (.returned none, w3)

/-- Go `(*ChunkedUploadBobbler).processCommit`; the deferred `wg.Done()` runs on
every way out, the deferred `flock.Unlock()` on every way out after the lock
was taken. -/
def processCommit (deps : Deps) (env : CommitEnv) (w : World) : Ending × World :=
  match env.lockErr with
  | some err => (.returned (some err), { w with wgDone := w.wgDone + 1 })
  | none =>
    let w0 := { w with sb := { w.sb with locked := true } }
    let (e, w1) := commitLocked deps env w0
    (e, { w1 with sb := { w1.sb with locked := false }, unlocks := w1.unlocks + 1,
                  wgDone := w1.wgDone + 1 })

/-- Stand-ins for the collaborators, to run the pipeline on concrete inputs: a
two-byte digest, an identity hash made of path and size, hashes that count
what was fed, a decoder that reads the body as the echoed checksum of
`file.txt`, and changes that fail when their payload is `bad`. -/
def demoDeps : Deps :=
  { sha1 := fun bs => [bs.length % 256, bs.sum % 256],
    calculateHash := fun fr => { fr with Hash := "id:" ++ fr.Path ++ ":" ++ toString fr.Size },
    challengeHash := fun ws => "challenge/" ++ toString ws.length,
    contentHash := fun ls => "content/" ++ toString ls.length,
    unmarshalUpload := fun body => .ok ⟨"file.txt", body⟩,
    unmarshalRefPath := fun body =>
      .ok ⟨none, some ⟨"root:" ++ body, []⟩, none⟩,
    hash := fun s => "H(" ++ s ++ ")",
    refCalculateHash := fun r => { r with Hash := "calc:" ++ r.Hash },
    processChange := fun c r =>
      if c.payload = "bad" then (r, some ("cannot apply " ++ c.AffectedPath))
      else ({ r with content := r.content ++ [c.AffectedPath] }, none),
    sign := fun wm => .ok ("sig:" ++ wm.AllocationRoot) }

/-- A file reference with every field at its zero value. -/
def emptyFileRef : FileRef := ⟨"", "", 0, 0, "", 0, "", "", "", 0, "", 0, ""⟩

/-- A session for `/dir/file.txt` with 64 KiB chunks; `encrypt` switches
client-side encryption on, with the scheme's key `KEY`. -/
def demoSession (encrypt : Bool) : ChunkedUpload :=
  { ConnectionID := "conn",
    fileMeta := ⟨"file.txt", "/dir/file.txt", "actualhash", 141312, "", 0, "text/plain", ""⟩,
    chunkSize := 65536,
    shardUploadedSize := 141312,
    encryptOnUpload := encrypt,
    fileEncscheme := if encrypt then some "KEY" else none,
    allocationID := "alloc",
    allocationTx := "tx",
    httpMethod := "POST",
    done := 0 }

/-- A world in which nothing has happened yet on blobber `b1`. -/
def demoWorld (encrypt : Bool) (changes : List AllocationChange) : World :=
  { sb := ⟨"http://b1", "b1", emptyFileRef, ⟨[], []⟩, changes, none, false⟩,
    su := demoSession encrypt,
    uploads := [], refPathRequests := [], commits := [], processed := [],
    hashCalls := 0, signCalls := 0, wgDone := 0, unlocks := 0 }

/-- An exchange in which the blobber answers `status` with `body`. -/
def demoUpload (status : Int) (body : String) : UploadEnv :=
  ⟨none, none, .response status none body, none⟩

/-- A commit in which locking, the reference-path fetch and signing succeed and
the blobber answers the commit request with `status` and `body`. -/
def demoCommit (status : Int) (body : String) : CommitEnv :=
  { lockErr := none, refPathRequestErr := none,
    refPathReply := .response 200 none "snap", refPathCtxErr := none,
    now := 1700000000, clientID := "client",
    marshalErr := none, commitRequestErr := none,
    commitReply := .response status none body, commitCtxErr := none }

/-- One call of `processUpload`: its arguments and what the outside answers. -/
structure ChunkCall where
  env : UploadEnv
  chunkIndex : Int
  fileBytes : List Nat
  thumbnailBytes : List Nat
  isFinal : Bool
  deriving DecidableEq, Repr

/-- The world after `processUpload` has been called for each chunk in turn. -/
def uploadAll (deps : Deps) : List ChunkCall → World → World
  | [], w => w
  | c :: cs, w =>
    uploadAll deps cs (processUpload deps c.env w c.chunkIndex c.fileBytes c.thumbnailBytes c.isFinal).2

/-- What a sequence of chunks, given by index and raw bytes, adds to the hashers:
for each non-empty chunk its raw bytes and the hex SHA-1 of its raw bytes, both
at its index. -/
def fedBy (deps : Deps) : List (Int × List Nat) → UploadBlobberStatus → UploadBlobberStatus
  | [], p => p
  | (i, bytes) :: cs, p =>
    fedBy deps cs
      (if bytes.length = 0 then p else processHash p bytes (hexEncodeToString (deps.sha1 bytes)) i)

/-- The sixteen lowercase hexadecimal digits. -/
def lowerHexDigits : List Char := "0123456789abcdef".data

/-- The snapshot after the changes have been applied one after the other, in list
order. -/
def applyAll (deps : Deps) (changes : List AllocationChange) (root : Ref) : Ref :=
  changes.foldl (fun r c => (deps.processChange c r).1) root

/-- The sum of `GetSize()` over the changes. -/
def sizeSum (changes : List AllocationChange) : Int :=
  (changes.map AllocationChange.Size).sum

/-- The root the apply loop of `processWriteMarker` starts from: the decoded
directory tree, after `CalculateHash` when a latest write marker exists. -/
def startRoot (deps : Deps) (lR : ReferencePathResult) (root0 : Ref) : Ref :=
  match lR.LatestWM with
  | none => root0
  | some _ => deps.refCalculateHash root0

/-! ## Hex encoding of hashes (`util/secure_value.go`) -/

/-- Go `strings.ToUpper` on one character of an ASCII string. -/
def toUpperAscii (c : Char) : Char :=
  if 97 ≤ c.toNat ∧ c.toNat ≤ 122 then Char.ofNat (c.toNat - 32) else c

/-- Go `ToHex`: `strings.ToUpper(hex.EncodeToString(buf))`. -/
def ToHex (buf : List Nat) : String := String.mk ((hexChars buf).map toUpperAscii)

/-- The value of a hexadecimal digit in Go's `encoding/hex` (both cases are
accepted), `none` for every other character. -/
def fromHexChar (c : Char) : Option Nat :=
  if 48 ≤ c.toNat ∧ c.toNat ≤ 57 then some (c.toNat - 48)
  else if 97 ≤ c.toNat ∧ c.toNat ≤ 102 then some (c.toNat - 87)
  else if 65 ≤ c.toNat ∧ c.toNat ≤ 70 then some (c.toNat - 55)
  else none

/-- Go `hex.DecodeString` on the characters of a string, `none` when it reports
an error (invalid character or odd length); a byte is `(a << 4) | b` for the
values `a`, `b` of its two digits. -/
def hexDecode : List Char → Option (List Nat)
  | [] => some []
  | [_] => none
  | p :: q :: rest =>
    match fromHexChar p, fromHexChar q with
    | some a, some b => (hexDecode rest).map (fun bs => (a * 16 + b) :: bs)
    | _, _ => none

/-- Go `HashStringToBytes`; `none` is the nil slice returned on a decoding error. -/
def HashStringToBytes (hash : String) : Option (List Nat) := hexDecode hash.data

/-- The sixteen upper-case hexadecimal digits. -/
def upperHexDigits : List Char := "0123456789ABCDEF".data

/-- The characters `encoding/hex` accepts as digits. -/
def hexDigitChars : List Char := "0123456789abcdefABCDEF".data

/-! ## Transaction status polling (`zcnbridge/bridge.go`) -/

/-- What a run of `ConfirmTransactionStatus` did: the status it returned, the
number of calls of `GetTransactionStatus` and the number of sleeps. -/
structure ConfirmRun where
  res : Int
  checks : Nat
  sleeps : Nat
  deriving DecidableEq, Repr

/-- The loop `for i := 0; i < times; i++ { ... }` of `ConfirmTransactionStatus` with
`rem` iterations left, `i` checks made and the current `res`; `status k` is the
answer of the `k`-th call of `GetTransactionStatus` (counted from 0). -/
def confirmLoop (status : Nat → Int) : Nat → Nat → Int → Nat → ConfirmRun
  | 0, i, res, sleeps => ⟨res, i, sleeps⟩
  | rem + 1, i, _, sleeps =>
    if status i = 1 then ⟨status i, i + 1, sleeps⟩
    else confirmLoop status rem (i + 1) (status i) (sleeps + 1)

/-- Go `ConfirmTransactionStatus`. -/
def ConfirmTransactionStatus (status : Nat → Int) (times : Int) : ConfirmRun :=
  confirmLoop status times.toNat 0 0 0

/-! ## Smart-contract transactions (`zboxcore/sdk/sdk.go`) -/

/-- An `error` value around `smartContractTxnValueFee`: the code and the message
of `errors.New(code, msg)`; the errors of the collaborators are carried the same
way. -/
structure TxnError where
  Code : String
  Msg : String
  deriving DecidableEq, Repr

/-- Go `transaction.SmartContractTxnData`; `InputArgs` is an `interface{}` in Go,
here a value of type `α`. -/
structure SmartContractTxnData (α : Type) where
  Name : String
  InputArgs : α

/-- The fields of Go `transaction.Transaction` that `smartContractTxnValueFee`
reads or writes. -/
structure Transaction where
  Hash : String
  ClientID : String
  ToClientID : String
  TransactionData : String
  Value : Int
  TransactionFee : Int
  TransactionType : Int
  TransactionNonce : Int
  TransactionOutput : String
  Status : Int
  deriving DecidableEq, Repr

/-- Go `STORAGE_SCADDRESS`. -/
def STORAGE_SCADDRESS : String :=
  "6dba10422e368813802877a85039d3985d96760ed844092319743fb3a76712d7"

/-- What the packages outside `sdk.go` answer during one call of
`smartContractTxnValueFee`: `marshal` is `json.Marshal`, `clientNonce`,
`clientID`, `clientPublicKey` the current client, `chainID` the chain,
`newTransactionEntity` is `transaction.NewTransactionEntity`, `nextNonce` is
`transaction.Cache.GetNextNonce`, `computeHashAndSign` is
`txn.ComputeHashAndSign(client.Sign)` (it gives the transaction as it is left,
or an error), `maxTxnQuery` is `blockchain.GetMaxTxnQuery()` (the same at every
test of the loop), `verify k hash` is the answer of call number `k` (counted
from 0) of `transaction.VerifyTransaction(hash, sharders)`; the last three are
the constants of package `transaction`. -/
structure TxnEnv (α : Type) where
  marshal : SmartContractTxnData α → Except TxnError String
  clientNonce : Int
  clientID : String
  chainID : String
  clientPublicKey : String
  newTransactionEntity : String → String → String → Int → Transaction
  nextNonce : String → Int
  computeHashAndSign : Transaction → Except TxnError Transaction
  maxTxnQuery : Int
  verify : Nat → String → Option Transaction × Option TxnError
  TxnTypeSmartContract : Int
  TxnFail : Int
  TxnChargeableError : Int

/-- What a call of `smartContractTxnValueFee` returned and did: the four
results, the transactions handed to `SendTransactionSync`, the number of calls
of `VerifyTransaction`, the number of calls of `sys.Sleep`, and the client IDs
handed to `transaction.Cache.Evict`. -/
structure TxnRun where
  hash : String
  out : String
  nonce : Int
  err : Option TxnError
  sent : List Transaction
  polls : Nat
  sleeps : Nat
  evicts : List String
  deriving DecidableEq, Repr

/-- The variables `t` and `err` after the poll loop, with the calls of
`VerifyTransaction` and of `sys.Sleep` made so far. -/
structure PollRun where
  t : Option Transaction
  err : Option TxnError
  polls : Nat
  sleeps : Nat
  deriving DecidableEq, Repr

/-- The loop `for retries < blockchain.GetMaxTxnQuery() { ... }` with `rem`
tests of the condition still true (the maximum minus `retries`), the current
`retries`, `t`, `err` and the sleeps so far; `verify k` is the answer of call
number `k` of `VerifyTransaction`. -/
def pollLoop (verify : Nat → Option Transaction × Option TxnError) :
    Nat → Nat → Option Transaction → Option TxnError → Nat → PollRun
  | 0, retries, t, err, sleeps => ⟨t, err, retries, sleeps⟩
  | rem + 1, retries, _, _, sleeps =>
    match verify retries with
    | (t, none) => ⟨t, none, retries + 1, sleeps⟩
    | (t, some e) => pollLoop verify rem (retries + 1) t (some e) (sleeps + 1)

/-- The named result `nonce` after `nonce = client.GetClient().Nonce` and
`if nonce != 0 { nonce++ }`. -/
def txnNonce {α : Type} (env : TxnEnv α) : Int :=
  if env.clientNonce ≠ 0 then wrapInt (env.clientNonce + 1) else env.clientNonce

/-- The transaction `txn` of `smartContractTxnValueFee` just before
`ComputeHashAndSign`. -/
def unsignedTxn {α : Type} (env : TxnEnv α) (requestBytes : String) (value fee : Int) :
    Transaction :=
  let txn := env.newTransactionEntity env.clientID env.chainID env.clientPublicKey
    (txnNonce env)
  let txn := { txn with
    TransactionData := requestBytes
    ToClientID := STORAGE_SCADDRESS
    Value := value
    TransactionFee := fee
    TransactionType := env.TxnTypeSmartContract }
  if txn.TransactionNonce = 0 then
    { txn with TransactionNonce := env.nextNonce txn.ClientID }
  else txn

/-- The end of `smartContractTxnValueFee`, from `if err != nil` after the poll
loop on; `nonce` is the named result and `txn` the signed transaction. -/
def afterPolls {α : Type} (env : TxnEnv α) (nonce : Int) (txn : Transaction) (p : PollRun) :
    TxnRun :=
  match p.err with
  | some e => ⟨"", "", nonce, some e, [txn], p.polls, p.sleeps, [txn.ClientID]⟩
  | none =>
    match p.t with
    | none =>
      ⟨"", "", 0,
        some ⟨"transaction_validation_failed", "Failed to get the transaction confirmation"⟩,
        [txn], p.polls, p.sleeps, []⟩
    | some t =>
      if t.Status = env.TxnFail then
        ⟨t.Hash, t.TransactionOutput, 0, some ⟨"", t.TransactionOutput⟩,
          [txn], p.polls, p.sleeps, []⟩
      else if t.Status = env.TxnChargeableError then
        ⟨t.Hash, t.TransactionOutput, t.TransactionNonce, some ⟨"", t.TransactionOutput⟩,
          [txn], p.polls, p.sleeps, []⟩
      else
        ⟨t.Hash, t.TransactionOutput, t.TransactionNonce, none,
          [txn], p.polls, p.sleeps, []⟩

/-- Go `smartContractTxnValueFee`. The results are named, so a bare `return`
gives back their current values: `hash` and `out` are still empty there. The
first sleep is the one before the loop. -/
def smartContractTxnValueFee {α : Type} (env : TxnEnv α) (sn : SmartContractTxnData α)
    (value fee : Int) : TxnRun :=
  match env.marshal sn with
  | .error e => ⟨"", "", 0, some e, [], 0, 0, []⟩
  | .ok requestBytes =>
    match env.computeHashAndSign (unsignedTxn env requestBytes value fee) with
    | .error e => ⟨"", "", txnNonce env, some e, [], 0, 0, []⟩
    | .ok txn =>
      afterPolls env (txnNonce env) txn
        (pollLoop (fun k => env.verify k txn.Hash) env.maxTxnQuery.toNat 0 none none 1)

/-- Go `smartContractTxnValue`. -/
def smartContractTxnValue {α : Type} (env : TxnEnv α) (sn : SmartContractTxnData α)
    (value : Int) : TxnRun :=
  smartContractTxnValueFee env sn value 0

/-- A transaction as a sharder would give it back, with the given status. -/
def demoTxn (status : Int) : Transaction :=
  ⟨"h1", "client1", STORAGE_SCADDRESS, "data", 0, 0, 1000, 7, "out1", status⟩

/-- Concrete answers for closed evaluations: the client has nonce 0, the cache
hands out nonce 5, signing gives hash `h1`, the maximum is `M`, and poll `k`
gives `answers k`. The status constants are 1000 (type), 3 (fail) and 2
(chargeable error). -/
def demoTxnEnv (α : Type) (M : Int)
    (answers : Nat → Option Transaction × Option TxnError) : TxnEnv α where
  marshal := fun sn => .ok sn.Name
  clientNonce := 0
  clientID := "client1"
  chainID := "chain"
  clientPublicKey := "pk1"
  newTransactionEntity := fun c _ _ n => ⟨"", c, "", "", 0, 0, 0, n, "", 0⟩
  nextNonce := fun _ => 5
  computeHashAndSign := fun t => .ok { t with Hash := "h1" }
  maxTxnQuery := M
  verify := fun k _ => answers k
  TxnTypeSmartContract := 1000
  TxnFail := 3
  TxnChargeableError := 2

/-- Polls number 0 and 1 fail, every later one gives a transaction of the given
status. -/
def twoFailures (status : Int) (k : Nat) : Option Transaction × Option TxnError :=
  if k < 2 then (none, some ⟨"", "not found"⟩) else (some (demoTxn status), none)

/-- Every poll fails. -/
def allFail (_ : Nat) : Option Transaction × Option TxnError :=
  (none, some ⟨"", "not found"⟩)

/-- A request to evaluate on. -/
def demoSn : SmartContractTxnData Unit := ⟨"request", ()⟩

/-! ## Creating allocations (`zboxcore/sdk/sdk.go`) -/

/-- Go `PriceRange`, passed through unchanged. -/
structure PriceRange where
  Min : Int
  Max : Int
  deriving DecidableEq, Repr

/-- The map `allocationRequest` built by `CreateAllocationForOwner`, one field for
each of its eleven keys. -/
structure AllocationRequest where
  name : String
  data_shards : Int
  parity_shards : Int
  size : Int
  owner_id : String
  owner_public_key : String
  expiration_date : Int
  blobbers : List String
  read_price_range : PriceRange
  write_price_range : PriceRange
  max_challenge_completion_time : Int
  deriving DecidableEq, Repr

/-- What the surroundings of `CreateAllocationForOwner` answer: `txn` is what the
transaction layer answers, `clientID` and `clientPublicKey` the current client,
`preferredBlobbers` is `blockchain.GetPreferredBlobbers()`, `blobberIds` and
`allocBlobbers` are the outcomes of the REST lookups `/blobber_ids` and
`/alloc_blobbers` with the decoding of their answers (on failure they give the
text of `err.Error()`), `mapOrder` is the order in
which Go ranges over the map `ids` filled with the given keys,
`sdkInitialized` the package variable and `NEW_ALLOCATION_REQUEST` the constant
of package `transaction`. -/
structure AllocEnv where
  txn : TxnEnv AllocationRequest
  clientID : String
  clientPublicKey : String
  preferredBlobbers : List String
  blobberIds : List String → Except String (List String)
  allocBlobbers : String → String → Int → Int → Int → Int → PriceRange →
    PriceRange → Int → Except String (List String)
  mapOrder : List String → List String
  sdkInitialized : Bool
  NEW_ALLOCATION_REQUEST : String

/-- What a call of `CreateAllocationForOwner` returned, together with the
arguments of its call of `smartContractTxnValue` (none when it returned
before). -/
structure AllocRun where
  hash : String
  nonce : Int
  err : Option TxnError
  request : Option (SmartContractTxnData AllocationRequest × Int)

/-- Go `sdkNotInitialized`. -/
def sdkNotInitialized : TxnError := ⟨"sdk_not_initialized", "SDK is not initialised"⟩

/-- Go `getPreferredBlobberIds`: no lookup for an empty list of URLs. -/
def getPreferredBlobberIds (env : AllocEnv) (blobberUrls : List String) :
    Except String (List String) :=
  if blobberUrls.length = 0 then .ok [] else env.blobberIds blobberUrls

/-- Go `getAllocationBlobbers`: the lookup with the data of the request. -/
def getAllocationBlobbers (env : AllocEnv) (owner ownerpublickey : String)
    (datashards parityshards size expiry : Int) (readPrice writePrice : PriceRange)
    (mcct : Int) : Except String (List String) :=
  env.allocBlobbers owner ownerpublickey datashards parityshards size expiry readPrice
    writePrice mcct

/-- Go `CreateAllocationForOwner`. -/
def CreateAllocationForOwner (env : AllocEnv) (name owner ownerpublickey : String)
    (datashards parityshards size expiry : Int) (readPrice writePrice : PriceRange)
    (mcct lock : Int) (preferredBlobbers : List String) : AllocRun :=
  if lock < 0 then ⟨"", 0, some ⟨"", "invalid value for lock"⟩, none⟩
  else
    match getPreferredBlobberIds env preferredBlobbers with
    | .error e =>
      ⟨"", 0, some ⟨"failed_get_blobber_ids", "failed to get preferred blobber ids: " ++ e⟩,
        none⟩
    | .ok preferred =>
      match getAllocationBlobbers env owner ownerpublickey datashards parityshards size
          expiry readPrice writePrice mcct with
      | .error e =>
        ⟨"", 0, some ⟨"failed_get_allocation_blobbers",
          "failed to get blobbers for allocation: " ++ e⟩, none⟩
      | .ok allocationBlobbers =>
        let blobbers := env.mapOrder (preferred ++ allocationBlobbers)
        if !env.sdkInitialized then ⟨"", 0, some sdkNotInitialized, none⟩
        else
          let allocationRequest : AllocationRequest :=
            { name := name
              data_shards := datashards
              parity_shards := parityshards
              size := size
              owner_id := owner
              owner_public_key := ownerpublickey
              expiration_date := expiry
              blobbers := blobbers
              read_price_range := readPrice
              write_price_range := writePrice
              max_challenge_completion_time := mcct }
          let sn : SmartContractTxnData AllocationRequest :=
            ⟨env.NEW_ALLOCATION_REQUEST, allocationRequest⟩
          let r := smartContractTxnValue env.txn sn lock
          ⟨r.hash, r.nonce, r.err, some (sn, lock)⟩

/-- Go `CreateAllocationWithBlobbers`: the arguments of `CreateAllocationForOwner`
in the order in which the source passes them. -/
def CreateAllocationWithBlobbers (env : AllocEnv) (name : String)
    (datashards parityshards size expiry : Int) (readPrice writePrice : PriceRange)
    (mcct lock : Int) (blobbers : List String) : AllocRun :=
  CreateAllocationForOwner env env.clientID env.clientPublicKey name datashards
    parityshards size expiry readPrice writePrice mcct lock blobbers

/-- Go `CreateAllocation`. -/
def CreateAllocation (env : AllocEnv) (name : String)
    (datashards parityshards size expiry : Int) (readPrice writePrice : PriceRange)
    (mcct lock : Int) : AllocRun :=
  CreateAllocationForOwner env name env.clientID env.clientPublicKey datashards
    parityshards size expiry readPrice writePrice mcct lock env.preferredBlobbers

/-- The request a run handed to `smartContractTxnValue`, if it got there. -/
def AllocRun.built (r : AllocRun) : Option AllocationRequest :=
  r.request.map (fun p => p.1.InputArgs)

/-- Concrete surroundings for closed evaluations: client `client1` with public
key `pk1`, the lookups give the blobbers `b1` and `b2`, the first poll confirms
the transaction. -/
def demoAllocEnv : AllocEnv where
  txn := demoTxnEnv AllocationRequest 3 (fun _ => (some (demoTxn 1), none))
  clientID := "client1"
  clientPublicKey := "pk1"
  preferredBlobbers := []
  blobberIds := fun _ => .ok ["b1"]
  allocBlobbers := fun _ _ _ _ _ _ _ _ _ => .ok ["b2"]
  mapOrder := fun ks => ks
  sdkInitialized := true
  NEW_ALLOCATION_REQUEST := "new_allocation_request"

/-! ## Filtering pool statistics (`zboxcore/sdk/sdk.go`) -/

/-- Go `BlobberPoolStat`. -/
structure BlobberPoolStat where
  BlobberID : String
  Balance : Int
  deriving DecidableEq, Repr

/-- Go `AllocationPoolStat`. -/
structure AllocationPoolStat where
  ID : String
  Balance : Int
  ExpireAt : Int
  AllocationID : String
  Blobbers : List BlobberPoolStat
  Locked : Bool
  deriving DecidableEq, Repr

/-- Go `BackPool`. -/
structure BackPool where
  ID : String
  Balance : Int
  deriving DecidableEq, Repr

/-- Go `AllocationPoolStats`. The entries of `Pools` are pointers in Go; they
are taken to be non-nil, as `AllocFilter` dereferences each of them. -/
structure AllocationPoolStats where
  Pools : List AllocationPoolStat
  Back : Option BackPool
  deriving DecidableEq, Repr

/-- The loop `for _, pi := range aps.Pools { ... }` of `AllocFilter` on the
backing array `arr`: `rem` elements are still to be visited, `j` is the index
of the next one and `i` the write index. It gives the array and `i` at the end.
The range reads element `j` of the array at the time it gets there. -/
def allocFilterLoop (allocID : String) :
    Nat → Nat → Nat → List AllocationPoolStat → List AllocationPoolStat × Nat
  | 0, _, i, arr => (arr, i)
  | rem + 1, j, i, arr =>
    match arr[j]? with
    | none => (arr, i)
    | some pi =>
      if pi.AllocationID ≠ allocID then allocFilterLoop allocID rem (j + 1) i arr
      else allocFilterLoop allocID rem (j + 1) (i + 1) (arr.set i pi)

/-- Go `AllocationPoolStats.AllocFilter`: the receiver after the call. -/
def AllocFilter (aps : AllocationPoolStats) (allocID : String) : AllocationPoolStats :=
  if allocID = "" then aps
  else
    let r := allocFilterLoop allocID aps.Pools.length 0 0 aps.Pools
    { aps with Pools := r.1.take r.2 }

/-- A pool of the given allocation. -/
def demoPool (id allocID : String) : AllocationPoolStat := ⟨id, 10, 100, allocID, [], false⟩

/-! ## Theorems -/

open DownloadBufferWithChan

theorem wrapInt_eq {x : Int} (h1 : -9223372036854775808 ≤ x) (h2 : x < 9223372036854775808) :
    wrapInt x = x := by
  unfold wrapInt; omega

theorem upFrom_length (i : Int) (n : Nat) : (upFrom i n).length = n := by
  induction n generalizing i with
  | zero => rfl
  | succ n ih => simp [upFrom, ih]

theorem fillChan_eq (n : Nat) (i : Int) (q : List Int) (cap : Int)
    (hcap : (q.length : Int) + n ≤ cap) (hi : 0 ≤ i) (hmax : i + n < 9223372036854775808) :
    fillChan n i ⟨q, cap, false⟩ = (.done, ⟨q ++ upFrom i n, cap, false⟩) := by
  induction n generalizing i q with
  | zero => simp [fillChan, upFrom]
  | succ n ih =>
    have hlt : (q.length : Int) < cap := by push_cast at hcap; omega
    have hw : wrapInt (i + 1) = i + 1 := wrapInt_eq (by omega) (by push_cast at hmax; omega)
    simp only [fillChan, Chan.send, hlt, if_true, Bool.false_eq_true, if_false, hw]
    rw [ih (i + 1) (q ++ [i]) (by simp; push_cast at hcap; omega) (by omega)
      (by push_cast at hmax; omega)]
    simp [upFrom]

theorem NewDownloadBufferWithChan_cases (rt : Runtime) (size nb ebs : Int)
    (h : NoOverflow size nb ebs) :
    NewDownloadBufferWithChan rt size nb ebs =
      if size * (nb + 1) * ebs ≤ rt.maxSliceLen then
        if size ≤ rt.maxChanSize then
          .ok (chanPool (size * (ebs * (nb + 1))) size (ebs * (nb + 1)) (upFrom 0 size.toNat) [])
        else .panic .makeChanSize
      else .panic .makeSliceLen := by
  unfold chanPool
  obtain ⟨h1, h2, h3, h4, h5, h6, h7, h8⟩ := h
  have e1 : wrapInt (nb + 1) = nb + 1 := wrapInt_eq (by omega) h5
  have e2 : wrapInt (size * (nb + 1)) = size * (nb + 1) :=
    wrapInt_eq (by have := Int.mul_nonneg h1 (show (0:Int) ≤ nb + 1 by omega); omega) h6
  have e3 : wrapInt (size * (nb + 1) * ebs) = size * (nb + 1) * ebs :=
    wrapInt_eq (by
      have := Int.mul_nonneg (Int.mul_nonneg h1 (show (0:Int) ≤ nb + 1 by omega)) h3; omega) h8
  have e4 : wrapInt (ebs * (nb + 1)) = ebs * (nb + 1) :=
    wrapInt_eq (by have := Int.mul_nonneg h3 (show (0:Int) ≤ nb + 1 by omega); omega) h7
  have hn : ¬ size * (nb + 1) * ebs < 0 := by
    have := Int.mul_nonneg (Int.mul_nonneg h1 (show (0:Int) ≤ nb + 1 by omega)) h3; omega
  have hs : ¬ size < 0 := by omega
  have hfill := fillChan_eq size.toNat 0 [] size (by simp; omega) (by omega) (by omega)
  simp only [NewDownloadBufferWithChan, e1, e2, e3, e4, makeBytes, makeChan, hn, hs, false_or]
  by_cases hb : size * (nb + 1) * ebs ≤ rt.maxSliceLen
  · rw [if_neg (by omega), if_pos hb]
    by_cases hc : size ≤ rt.maxChanSize
    · rw [if_pos hc]
      simp only [if_neg (show ¬ rt.maxChanSize < size by omega), hfill, List.nil_append]
      congr 3 <;> ring
    · rw [if_neg hc]
      simp only [if_pos (show rt.maxChanSize < size by omega)]
  · rw [if_pos (by omega), if_neg hb]

theorem NewDownloadBufferWithChan_ok (rt : Runtime) (size nb ebs : Int)
    (h : NoOverflow size nb ebs) (ha : Allocatable rt size nb ebs) :
    NewDownloadBufferWithChan rt size nb ebs =
      .ok (chanPool (size * (ebs * (nb + 1))) size (ebs * (nb + 1)) (upFrom 0 size.toNat) []) := by
  rw [NewDownloadBufferWithChan_cases rt size nb ebs h, if_pos ha.1, if_pos ha.2]

theorem NewDownloadBufferWithChan_eq (rt : Runtime) (size nb ebs : Int)
    (r0 : DownloadBufferWithChan) (h : NoOverflow size nb ebs)
    (hnew : NewDownloadBufferWithChan rt size nb ebs = .ok r0) :
    r0 = chanPool (size * (ebs * (nb + 1))) size (ebs * (nb + 1)) (upFrom 0 size.toNat) [] := by
  rw [NewDownloadBufferWithChan_cases rt size nb ebs h] at hnew
  split at hnew
  · split at hnew
    · exact (Res.ok.inj hnew).symm
    · simp at hnew
  · simp at hnew

theorem mapSet_fresh (m : List (Int × Int)) (k v : Int) (h : ∀ p ∈ m, p.1 ≠ k) :
    mapSet m k v = m ++ [(k, v)] := by
  unfold mapSet
  have : m.any (fun p => p.1 == k) = false := by
    rw [List.any_eq_false]
    intro p hp
    simpa using h p hp
  simp [this]

theorem grant_chanPool (total size R ind : Int) (rest : List Int) (m : List (Int × Int))
    (num : Int) (hind : 0 ≤ ind) (hR : 0 ≤ R) (hmax : ind + 1 < 9223372036854775808)
    (hin : (ind + 1) * R ≤ total) (htot : total < 9223372036854775808) :
    (chanPool total size R (ind :: rest) m).grant num =
      (.buffer (slotWindow total R ind), chanPool total size R rest (mapSet m num ind)) := by
  have h0 : 0 ≤ ind * R := Int.mul_nonneg hind hR
  have h1 : ind * R ≤ (ind + 1) * R := by nlinarith
  have e1 : wrapInt (ind * R) = ind * R := wrapInt_eq (by omega) (by omega)
  have e2 : wrapInt (ind + 1) = ind + 1 := wrapInt_eq (by omega) hmax
  have e3 : wrapInt ((ind + 1) * R) = (ind + 1) * R := wrapInt_eq (by omega) (by omega)
  have hc : 0 ≤ ind * R ∧ ind * R ≤ (ind + 1) * R ∧ (ind + 1) * R ≤ total := ⟨h0, h1, hin⟩
  simp only [grant, chanPool, Chan.recv, e1, e2, e3, Slice.slice, hc, and_self, if_true,
    slotWindow, Bool.false_eq_true, if_false]
  congr 3 <;> ring

theorem selectFrom_background_ready (r : DownloadBufferWithChan) (pick : Bool) (num : Int)
    (fuel t : Nat) (h : r.ch.recvReady = true) :
    r.selectFrom Ctx.background pick num (fuel + 1) t = r.grant num := by
  simp [selectFrom, Ctx.background, h]

theorem selectFrom_background_empty (r : DownloadBufferWithChan) (pick : Bool) (num : Int)
    (fuel t : Nat) (h : r.ch.recvReady = false) :
    r.selectFrom Ctx.background pick num fuel t = (.waiting, r) := by
  induction fuel generalizing t with
  | zero => rfl
  | succ n ih => simp [selectFrom, Ctx.background, h, ih]

theorem requestEach_chanPool (total size R : Int) (pick : Bool) (fuel : Nat) (ks : List Int)
    (i : Int) (n : Nat) (m : List (Int × Int))
    (hi : 0 ≤ i) (hR : 0 ≤ R) (hlen : ks.length ≤ n) (hin : (i + n) * R ≤ total)
    (hmax : i + n < 9223372036854775808) (htot : total < 9223372036854775808)
    (hnd : ks.Nodup) (hfresh : ∀ p ∈ m, p.1 ∉ ks) :
    (chanPool total size R (upFrom i n) m).requestEach pick (fuel + 1) ks =
      ((upFrom i ks.length).map (fun ind => Outcome.buffer (slotWindow total R ind)),
       chanPool total size R (upFrom (i + ks.length) (n - ks.length))
         (m ++ ks.zip (upFrom i ks.length))) := by
  induction ks generalizing i n m with
  | nil => simp [requestEach, upFrom]
  | cons k ks ih =>
    obtain ⟨n, rfl⟩ : ∃ n', n = n' + 1 := ⟨n - 1, by simp at hlen; omega⟩
    have hk : ∀ p ∈ m, p.1 ≠ k := fun p hp h => hfresh p hp (by simp [h])
    have hin1 : (i + 1) * R ≤ total := by
      have : (i + 1) * R ≤ (i + ((n + 1 : Nat) : Int)) * R := by
        apply Int.mul_le_mul_of_nonneg_right _ hR
        push_cast; omega
      omega
    have hg := grant_chanPool total size R i (upFrom (i + 1) n) m k hi hR
      (by push_cast at hmax; omega) hin1 htot
    have hstep : (chanPool total size R (upFrom i (n + 1)) m).RequestChunk Ctx.background pick k
        (fuel + 1) = (.buffer (slotWindow total R i),
          chanPool total size R (upFrom (i + 1) n) (m ++ [(k, i)])) := by
      rw [RequestChunk, selectFrom_background_ready _ _ _ _ _ (by simp [chanPool, upFrom, Chan.recvReady])]
      rw [upFrom, hg, mapSet_fresh m k i hk]
    have hnd' := List.nodup_cons.mp hnd
    have ih' := ih (i + 1) n (m ++ [(k, i)]) (by omega) (by simp at hlen; omega)
      (by rw [show i + 1 + (n : Int) = i + ((n + 1 : Nat) : Int) by push_cast; ring]; exact hin)
      (by push_cast at hmax; omega) hnd'.2
      (by
        intro p hp
        rcases List.mem_append.mp hp with hp | hp
        · exact fun h => hfresh p hp (List.mem_cons_of_mem _ h)
        · simp at hp; subst hp; exact hnd'.1)
    simp only [requestEach, hstep, ih']
    simp only [List.length_cons, upFrom, List.map_cons, List.zip_cons_cons, List.append_assoc,
      List.singleton_append, Nat.add_sub_add_right]
    rw [show i + 1 + (ks.length : Int) = i + ((ks.length + 1 : Nat) : Int) by push_cast; ring]

theorem mapGet_zip_upFrom (ks : List Int) (i : Int) (j : Nat) (hj : j < ks.length)
    (hnd : ks.Nodup) : mapGet (ks.zip (upFrom i ks.length)) ks[j] = some (i + j) := by
  induction ks generalizing i j with
  | nil => simp at hj
  | cons k ks ih =>
    have hnd' := List.nodup_cons.mp hnd
    cases j with
    | zero => simp [mapGet, upFrom]
    | succ j =>
      have hj' : j < ks.length := by simpa using hj
      have hne : ¬ k = ks[j] := fun h => hnd'.1 (h ▸ List.getElem_mem _)
      have := ih (i + 1) j hj' hnd'.2
      have hb : ((k, i).1 == ks[j]) = false := by simpa using hne
      simp only [List.length_cons, upFrom, List.zip_cons_cons, List.getElem_cons_succ]
      unfold mapGet at this ⊢
      rw [List.find?_cons, hb]
      simp only []
      rw [this]
      congr 1
      push_cast
      ring

theorem release_chanPool_empty (total size R : Int) (m : List (Int × Int)) (k ind : Int)
    (hget : mapGet m k = some ind) (hsize : 0 < size) :
    (chanPool total size R [] m).ReleaseChunk k =
      (.done, chanPool total size R [ind] (mapDelete m k)) := by
  simp [ReleaseChunk, chanPool, hget, Chan.send, hsize]

/-- **C1, counterexample.** `NewDownloadBufferWithChan(2, 2^62 - 1, 2)` returns a
pool of capacity 2 whose byte count has overflowed to 0 and whose `reqSize` is
`-2^63`: the two `RequestChunk` calls for the keys 7 and 9 take a slot from the
queue and then panic on the slice expression instead of returning a buffer. -/
theorem chan_pool_exhaustion_counterexample :
    NewDownloadBufferWithChan Runtime.amd64 2 4611686018427387903 2 =
      .ok (chanPool 0 2 (-9223372036854775808) [0, 1] []) ∧
    ((chanPool 0 2 (-9223372036854775808) [0, 1] []).requestEach false 1 [7, 9]).1 =
      [.fault .sliceBounds, .fault .sliceBounds] := by
  decide

/-- **C1, amended.** Exhaustion of the queue-based pool (sequential model,
context never cancelled).  On the pool returned by `NewDownloadBufferWithChan
size numBlocks effectiveBlockSize` for arguments that are non-negative and do
not overflow the 64-bit `int`: `size` calls with pairwise distinct keys are
lent the windows of slots `0, 1, ..., size-1`; one more `RequestChunk` finds no
free slot and keeps waiting for every observation window, leaving the pool
untouched; after `ReleaseChunk` of the `j`-th key the waiting `RequestChunk` is
granted exactly slot `j`, the one that key held. -/
theorem chan_pool_exhaustion (rt : Runtime) (size numBlocks effectiveBlockSize : Int)
    (r0 : DownloadBufferWithChan) (keys : List Int) (extra : Int) (pick : Bool) (fuel : Nat)
    (hfit : NoOverflow size numBlocks effectiveBlockSize)
    (hnew : NewDownloadBufferWithChan rt size numBlocks effectiveBlockSize = .ok r0)
    (hlen : keys.length = size.toNat) (hnd : keys.Nodup) :
    (r0.requestEach pick (fuel + 1) keys).1 =
      (upFrom 0 keys.length).map (fun ind => Outcome.buffer
        (slotWindow (size * (effectiveBlockSize * (numBlocks + 1)))
          (effectiveBlockSize * (numBlocks + 1)) ind)) ∧
    (∀ f, (r0.requestEach pick (fuel + 1) keys).2.RequestChunk Ctx.background pick extra f =
      (.waiting, (r0.requestEach pick (fuel + 1) keys).2)) ∧
    ∀ (j : Nat) (hj : j < keys.length),
      ((r0.requestEach pick (fuel + 1) keys).2.ReleaseChunk keys[j]).1 = .done ∧
      (((r0.requestEach pick (fuel + 1) keys).2.ReleaseChunk keys[j]).2.RequestChunk
          Ctx.background pick extra (fuel + 1)).1 =
        .buffer (slotWindow (size * (effectiveBlockSize * (numBlocks + 1)))
          (effectiveBlockSize * (numBlocks + 1)) j) := by
  rw [NewDownloadBufferWithChan_eq rt size numBlocks effectiveBlockSize r0 hfit hnew]
  obtain ⟨h1, h2, h3, h4, h5, h6, h7, h8⟩ := hfit
  have hR : 0 ≤ effectiveBlockSize * (numBlocks + 1) := Int.mul_nonneg h3 (by omega)
  have htot : size * (effectiveBlockSize * (numBlocks + 1)) < 9223372036854775808 := by
    rw [show size * (effectiveBlockSize * (numBlocks + 1)) =
      size * (numBlocks + 1) * effectiveBlockSize by ring]; exact h8
  have hcast : ((size.toNat : Nat) : Int) = size := Int.toNat_of_nonneg h1
  have hrun := requestEach_chanPool (size * (effectiveBlockSize * (numBlocks + 1))) size
    (effectiveBlockSize * (numBlocks + 1)) pick fuel keys 0 size.toNat [] (le_refl 0) hR
    (by omega) (by rw [hcast]; simp) (by omega) htot hnd (by simp)
  rw [hrun]
  have hsub : size.toNat - keys.length = 0 := by omega
  simp only [hsub, upFrom, List.nil_append]
  refine ⟨trivial, ?_, ?_⟩
  · intro f
    exact selectFrom_background_empty _ pick extra f 0 (by simp [chanPool, Chan.recvReady])
  · intro j hj
    have hget := mapGet_zip_upFrom keys 0 j hj hnd
    rw [Int.zero_add] at hget
    have hjs : (j : Int) < size := by omega
    rw [release_chanPool_empty _ _ _ _ _ _ hget (by omega)]
    refine ⟨rfl, ?_⟩
    rw [RequestChunk, selectFrom_background_ready _ _ _ _ _ (by simp [chanPool, Chan.recvReady])]
    rw [grant_chanPool _ _ _ _ _ _ _ (by omega) hR (by omega) _ htot]
    exact Int.mul_le_mul_of_nonneg_right (by omega) hR

/-- Witness for C1: capacity 2, keys 7 and 9, one more caller with key 4. -/
theorem chan_pool_exhaustion_witness :
    NewDownloadBufferWithChan Runtime.amd64 2 3 5 = .ok (chanPool 40 2 20 [0, 1] []) ∧
    ((chanPool 40 2 20 [0, 1] []).requestEach false 1 [7, 9]).1 =
      (upFrom 0 2).map (fun ind => Outcome.buffer (slotWindow (2 * (5 * (3 + 1))) (5 * (3 + 1)) ind)) ∧
    (∀ f, ((chanPool 40 2 20 [0, 1] []).requestEach false 1 [7, 9]).2.RequestChunk
        Ctx.background false 4 f =
      (.waiting, ((chanPool 40 2 20 [0, 1] []).requestEach false 1 [7, 9]).2)) ∧
    ∀ (j : Nat) (hj : j < [7, 9].length),
      (((chanPool 40 2 20 [0, 1] []).requestEach false 1 [7, 9]).2.ReleaseChunk
        ([7, 9].get ⟨j, hj⟩)).1 = .done ∧
      ((((chanPool 40 2 20 [0, 1] []).requestEach false 1 [7, 9]).2.ReleaseChunk
          ([7, 9].get ⟨j, hj⟩)).2.RequestChunk Ctx.background false 4 1).1 =
        .buffer (slotWindow (2 * (5 * (3 + 1))) (5 * (3 + 1)) j) :=
  ⟨by decide, chan_pool_exhaustion Runtime.amd64 2 3 5 (chanPool 40 2 20 [0, 1] []) [7, 9] 4
    false 0 (by decide) (by decide) (by decide) (by decide)⟩

theorem slice_window (T R ind : Int) (hind : 0 ≤ ind) (hR : 0 ≤ R)
    (hmax : ind + 1 < 9223372036854775808) (hin : (ind + 1) * R ≤ T)
    (htot : T < 9223372036854775808) :
    (Slice.mk false 0 T T).slice (wrapInt (ind * R)) (wrapInt (wrapInt (ind + 1) * R)) =
      .ok (slotWindow T R ind) := by
  have h0 : 0 ≤ ind * R := Int.mul_nonneg hind hR
  have h1 : ind * R ≤ (ind + 1) * R := by nlinarith
  have e1 : wrapInt (ind * R) = ind * R := wrapInt_eq (by omega) (by omega)
  have e2 : wrapInt (ind + 1) = ind + 1 := wrapInt_eq (by omega) hmax
  have e3 : wrapInt ((ind + 1) * R) = (ind + 1) * R := wrapInt_eq (by omega) (by omega)
  have hc : 0 ≤ ind * R ∧ ind * R ≤ (ind + 1) * R ∧ (ind + 1) * R ≤ T := ⟨h0, h1, hin⟩
  simp only [e1, e2, e3, Slice.slice, hc, and_self, if_true, slotWindow]
  congr 2 <;> ring

theorem NewDownloadBufferWithMask_cases (rt : Runtime) (size nb ebs : Int)
    (h : NoOverflow size nb ebs) :
    NewDownloadBufferWithMask rt size nb ebs =
      if size * (nb + 1) * ebs ≤ rt.maxSliceLen then
        .ok (maskPool (size * (ebs * (nb + 1))) size (ebs * (nb + 1)) 0
          ((shl32 1 size + 4294967295) % 4294967296))
      else .panic .makeSliceLen := by
  unfold maskPool
  obtain ⟨h1, h2, h3, h4, h5, h6, h7, h8⟩ := h
  have e1 : wrapInt (nb + 1) = nb + 1 := wrapInt_eq (by omega) h5
  have e2 : wrapInt (size * (nb + 1)) = size * (nb + 1) :=
    wrapInt_eq (by have := Int.mul_nonneg h1 (show (0:Int) ≤ nb + 1 by omega); omega) h6
  have e3 : wrapInt (size * (nb + 1) * ebs) = size * (nb + 1) * ebs :=
    wrapInt_eq (by
      have := Int.mul_nonneg (Int.mul_nonneg h1 (show (0:Int) ≤ nb + 1 by omega)) h3; omega) h8
  have e4 : wrapInt (ebs * (nb + 1)) = ebs * (nb + 1) :=
    wrapInt_eq (by have := Int.mul_nonneg h3 (show (0:Int) ≤ nb + 1 by omega); omega) h7
  have hn : ¬ size * (nb + 1) * ebs < 0 := by
    have := Int.mul_nonneg (Int.mul_nonneg h1 (show (0:Int) ≤ nb + 1 by omega)) h3; omega
  have hs : ¬ size < 0 := by omega
  simp only [NewDownloadBufferWithMask, e1, e2, e3, e4, makeBytes, hn, false_or]
  by_cases hb : size * (nb + 1) * ebs ≤ rt.maxSliceLen
  · rw [if_neg (by omega), if_pos hb]
    simp only [hs, if_false]
    congr 3 <;> ring
  · rw [if_pos (by omega), if_neg hb]

theorem NewDownloadBufferWithMask_ok (rt : Runtime) (size nb ebs : Int)
    (h : NoOverflow size nb ebs) (ha : size * (nb + 1) * ebs ≤ rt.maxSliceLen) :
    NewDownloadBufferWithMask rt size nb ebs =
      .ok (maskPool (size * (ebs * (nb + 1))) size (ebs * (nb + 1)) 0
        ((shl32 1 size + 4294967295) % 4294967296)) := by
  rw [NewDownloadBufferWithMask_cases rt size nb ebs h, if_pos ha]

theorem NewDownloadBufferWithMask_eq (rt : Runtime) (size nb ebs : Int)
    (r0 : DownloadBufferWithMask) (h : NoOverflow size nb ebs)
    (hnew : NewDownloadBufferWithMask rt size nb ebs = .ok r0) :
    r0 = maskPool (size * (ebs * (nb + 1))) size (ebs * (nb + 1)) 0
      ((shl32 1 size + 4294967295) % 4294967296) := by
  rw [NewDownloadBufferWithMask_cases rt size nb ebs h] at hnew
  split at hnew
  · exact (Res.ok.inj hnew).symm
  · simp at hnew

theorem pollFrom_grant (T size R nbk : Int) (mask : Nat) (ctx : Ctx) (ind : Int) (fuel t : Nat)
    (hctx : ctx t = false) (hset : mask &&& shl32 1 ind ≠ 0)
    (hind : 0 ≤ ind) (hR : 0 ≤ R) (hmax : ind + 1 < 9223372036854775808)
    (hin : (ind + 1) * R ≤ T) (htot : T < 9223372036854775808) :
    (maskPool T size R nbk mask).pollFrom ctx ind (fuel + 1) t =
      (.buffer (slotWindow T R ind), maskPool T size R nbk (mask &&& not32 (shl32 1 ind))) := by
  have hs := slice_window T R ind hind hR hmax hin htot
  simp only [DownloadBufferWithMask.pollFrom, maskPool, hctx, Bool.false_eq_true, if_false,
    Int.not_lt.mpr hind, hset, hs]

theorem mapGet_mapDelete_self (m : List (Int × Int)) (k : Int) :
    mapGet (mapDelete m k) k = none := by
  unfold mapGet mapDelete
  rw [Option.map_eq_none', List.find?_eq_none]
  intro p hp
  have := (List.mem_filter.mp hp).2
  simpa using this

/-- **C2.** In the queue-based pool `ReleaseChunk num` for a key that holds no
slot is a no-op on the whole pool state (free queue, key-to-slot map, backing
array): it returns at once, or stays in `Lock()` when the mutex was left held;
and once a key has been released, releasing it again is such a no-op. -/
theorem chan_release_unheld_noop (r : DownloadBufferWithChan) (num : Int)
    (h : ∀ m, r.mp = some m → mapGet m num = none) :
    r.ReleaseChunk num = (if r.mu then .blocked else .done, r) ∧
      (r.ReleaseChunk num).2.ch.queue = r.ch.queue ∧ (r.ReleaseChunk num).2.mp = r.mp ∧
      (r.ReleaseChunk num).2.buf = r.buf ∧
      ∀ k, ((r.ReleaseChunk k).2.ReleaseChunk k) =
        (if r.mu then .blocked else .done, (r.ReleaseChunk k).2) := by
  have key : ∀ (s : DownloadBufferWithChan) (k : Int),
      (∀ m, s.mp = some m → mapGet m k = none) →
      s.ReleaseChunk k = (if s.mu then .blocked else .done, s) := by
    intro s k hs
    unfold ReleaseChunk
    cases hmu : s.mu with
    | true => rfl
    | false =>
      cases hm : s.mp with
      | none => rfl
      | some m => simp [hs m hm]
  have hmu : ∀ k, (r.ReleaseChunk k).2.mu = r.mu := by
    intro k
    unfold ReleaseChunk
    repeat' split
    all_goals rfl
  have h0 := key r num h
  refine ⟨h0, by rw [h0], by rw [h0], by rw [h0], ?_⟩
  intro k
  cases hlock : r.mu with
  | true =>
    have hst : r.ReleaseChunk k = (.blocked, r) := by simp [ReleaseChunk, hlock]
    rw [hst]
    simpa using hst
  | false =>
    have hk := key (r.ReleaseChunk k).2 k (by
      intro m hm
      cases hr : r.mp with
      | none => simp [ReleaseChunk, hlock, hr] at hm
      | some m0 =>
        cases hg : mapGet m0 k with
        | none =>
          simp only [ReleaseChunk, hlock, hr, hg, Bool.false_eq_true, if_false,
            Option.some.injEq] at hm
          rw [← hm]; exact hg
        | some ind =>
          simp only [ReleaseChunk, hlock, hr, hg, Bool.false_eq_true, if_false,
            Option.some.injEq] at hm
          rw [← hm]
          exact mapGet_mapDelete_self m0 k)
    rw [hmu k, hlock] at hk
    exact hk

/-- Witness for C2: key 5 was never requested on a pool where key 7 holds slot 0. -/
theorem chan_release_unheld_noop_witness :
    (chanPool 40 2 20 [1] [(7, 0)]).ReleaseChunk 5 = (.done, chanPool 40 2 20 [1] [(7, 0)]) ∧
      ((chanPool 40 2 20 [1] [(7, 0)]).ReleaseChunk 5).2.ch.queue = (chanPool 40 2 20 [1] [(7, 0)]).ch.queue ∧
      ((chanPool 40 2 20 [1] [(7, 0)]).ReleaseChunk 5).2.mp = (chanPool 40 2 20 [1] [(7, 0)]).mp ∧
      ((chanPool 40 2 20 [1] [(7, 0)]).ReleaseChunk 5).2.buf = (chanPool 40 2 20 [1] [(7, 0)]).buf ∧
      ∀ k, (((chanPool 40 2 20 [1] [(7, 0)]).ReleaseChunk k).2.ReleaseChunk k) =
        (.done, ((chanPool 40 2 20 [1] [(7, 0)]).ReleaseChunk k).2) :=
  chan_release_unheld_noop (chanPool 40 2 20 [1] [(7, 0)]) 5 (by
    intro m hm
    simp only [chanPool, Option.some.injEq] at hm
    subst hm
    decide)

theorem shl32_one_lt {s : Int} (h0 : 0 ≤ s) (h : s < 32) : shl32 1 s = 2 ^ s.toNat := by
  have hs : s.toNat < 32 := by omega
  have : 2 ^ s.toNat < 2 ^ 32 := Nat.pow_lt_pow_right (by decide) hs
  unfold shl32
  rw [if_neg (by omega), Nat.one_shiftLeft]
  exact Nat.mod_eq_of_lt (by simpa using this)

theorem shl32_ge {x : Nat} {s : Int} (h : 32 ≤ s) : shl32 x s = 0 := by
  unfold shl32; rw [if_pos h]

theorem and_two_pow_eq_zero (m i : Nat) : m &&& 2 ^ i = 0 ↔ m.testBit i = false := by
  constructor
  · intro h
    have := congrArg (fun x => x.testBit i) h
    simpa [Nat.testBit_two_pow_self] using this
  · intro h
    apply Nat.zero_of_testBit_eq_false
    intro j
    rw [Nat.testBit_and, Nat.testBit_two_pow]
    by_cases hij : i = j
    · subst hij; simp [h]
    · simp [hij]

theorem or_two_pow_of_testBit (m i : Nat) (h : m.testBit i = true) : m ||| 2 ^ i = m := by
  apply Nat.eq_of_testBit_eq
  intro j
  rw [Nat.testBit_or, Nat.testBit_two_pow]
  by_cases hij : i = j
  · subst hij; simp [h]
  · simp [hij]

/-- **C3, counterexample.** Key 0 acquires slot 0 of a two-slot bitmask pool; key 2,
which never acquired anything, maps to the same slot and its `ReleaseChunk`
marks the slot held by key 0 free again. -/
theorem mask_release_unheld_counterexample :
    NewDownloadBufferWithMask Runtime.amd64 2 0 1 = .ok (maskPool 2 2 1 0 3) ∧
    (maskPool 2 2 1 0 3).SetNumBlocks 1 = maskPool 2 2 1 1 3 ∧
    (maskPool 2 2 1 1 3).RequestChunk Ctx.background 0 1 =
      (.buffer (slotWindow 2 1 0), maskPool 2 2 1 1 2) ∧
    (maskPool 2 2 1 1 2).ReleaseChunk 2 = (.done, maskPool 2 2 1 1 3) ∧
    ((maskPool 2 2 1 1 2).ReleaseChunk 2).2.mask ≠ (maskPool 2 2 1 1 2).mask := by
  decide

/-- **C3, amended.** In the bitmask pool `ReleaseChunk num` acts on the slot
`(num / numBlocks) % length` alone: it sets that slot's bit whichever key
acquired it, it is a no-op when that bit is already set (slot free), and it
never changes the bit of any other slot.  (When the mutex was left held the
call stays in `Lock()` and changes nothing.) -/
theorem mask_release_sets_slot_bit (r : DownloadBufferWithMask) (num slot : Int)
    (hslot : r.slotOf num = .ok slot) (h0 : 0 ≤ slot) :
    r.ReleaseChunk num =
      (if r.mu then (.blocked, r) else (.done, { r with mask := r.mask ||| shl32 1 slot })) ∧
    (r.mask &&& shl32 1 slot ≠ 0 →
      r.ReleaseChunk num = (if r.mu then .blocked else .done, r)) ∧
    (∀ i : Nat, (i : Int) ≠ slot → (r.ReleaseChunk num).2.mask.testBit i = r.mask.testBit i) ∧
    (slot < 32 → r.mu = false → (r.ReleaseChunk num).2.mask.testBit slot.toNat = true) := by
  have hrel : r.ReleaseChunk num =
      (if r.mu then (.blocked, r) else (.done, { r with mask := r.mask ||| shl32 1 slot })) := by
    cases hmu : r.mu <;>
      simp [DownloadBufferWithMask.ReleaseChunk, hslot, Int.not_lt.mpr h0, hmu]
  refine ⟨hrel, ?_, ?_, ?_⟩
  · intro hset
    rw [hrel]
    by_cases hmu : r.mu = true
    · rw [if_pos hmu, if_pos hmu]
    · rw [if_neg hmu, if_neg hmu]
      by_cases h32 : slot < 32
      · rw [shl32_one_lt h0 h32] at hset ⊢
        have hb : r.mask.testBit slot.toNat = true := by
          cases hc : r.mask.testBit slot.toNat with
          | true => rfl
          | false => exact absurd ((and_two_pow_eq_zero _ _).mpr hc) hset
        rw [or_two_pow_of_testBit _ _ hb]
      · rw [shl32_ge (by omega)] at hset
        simp at hset
  · intro i hi
    rw [hrel]
    by_cases hmu : r.mu = true
    · rw [if_pos hmu]
    · rw [if_neg hmu]
      by_cases h32 : slot < 32
      · simp only [shl32_one_lt h0 h32, Nat.testBit_or, Nat.testBit_two_pow]
        have : ¬ slot.toNat = i := by omega
        simp [this]
      · simp [shl32_ge (show 32 ≤ slot by omega)]
  · intro h32 hmu
    rw [hrel]
    simp [hmu, shl32_one_lt h0 h32, Nat.testBit_two_pow_self]

/-- Witness for C3: key 2 releases slot 0 of a pool in which slot 1 is held. -/
theorem mask_release_sets_slot_bit_witness :
    (maskPool 2 2 1 1 1).ReleaseChunk 2 =
      (.done, { maskPool 2 2 1 1 1 with mask := (maskPool 2 2 1 1 1).mask ||| shl32 1 0 }) ∧
    ((maskPool 2 2 1 1 1).mask &&& shl32 1 0 ≠ 0 →
      (maskPool 2 2 1 1 1).ReleaseChunk 2 = (.done, maskPool 2 2 1 1 1)) ∧
    (∀ i : Nat, (i : Int) ≠ 0 →
      ((maskPool 2 2 1 1 1).ReleaseChunk 2).2.mask.testBit i = (maskPool 2 2 1 1 1).mask.testBit i) ∧
    ((0 : Int) < 32 → ((maskPool 2 2 1 1 1).ReleaseChunk 2).2.mask.testBit (0 : Int).toNat = true) :=
  have h := mask_release_sets_slot_bit (maskPool 2 2 1 1 1) 2 0 (by decide) (by decide)
  ⟨h.1, h.2.1, h.2.2.1, fun h32 => h.2.2.2 h32 rfl⟩

theorem grant_not_cancelled (r : DownloadBufferWithChan) (num : Int) :
    (r.grant num).1 ≠ .cancelled := by
  unfold grant
  simp only []
  repeat' split
  all_goals simp

theorem selectFrom_cancelled (r : DownloadBufferWithChan) (ctx : Ctx) (pick : Bool) (num : Int)
    (fuel t : Nat) (h : (r.selectFrom ctx pick num fuel t).1 = .cancelled) :
    (r.selectFrom ctx pick num fuel t).2 = r := by
  induction fuel generalizing t with
  | zero => rfl
  | succ n ih =>
    unfold selectFrom at h ⊢
    split
    · rfl
    · rename_i h1
      rw [if_neg h1] at h
      split
      · rename_i h2
        rw [if_pos h2] at h
        exact absurd h (grant_not_cancelled r num)
      · rename_i h2
        rw [if_neg h2] at h
        exact ih (t + 1) h

theorem pollFrom_cancelled (r : DownloadBufferWithMask) (ctx : Ctx) (num : Int)
    (fuel t : Nat) (h : (r.pollFrom ctx num fuel t).1 = .cancelled) :
    (r.pollFrom ctx num fuel t).2 = r := by
  induction fuel generalizing t with
  | zero => rfl
  | succ n ih =>
    unfold DownloadBufferWithMask.pollFrom at h ⊢
    split
    · rfl
    · rename_i h1
      rw [if_neg h1] at h
      split
      · rfl
      · rename_i hmu
        rw [if_neg hmu] at h
        split
        · rename_i h2
          rw [if_pos h2] at h
          simp at h
        · rename_i h2
          rw [if_neg h2] at h
          split
          · rename_i h3
            rw [if_pos h3] at h
            exact ih (t + 1) h
          · rename_i h3
            rw [if_neg h3] at h
            exfalso
            revert h
            simp only []
            split <;> simp

/-- **C4.** In both pools, whenever `RequestChunk` returns nil because of
cancellation the pool state is exactly the state before the call: the free
queue and the map of the queue pool, and the mask of the bitmask pool, are
untouched. -/
theorem request_cancelled_state_unchanged
    (rc : DownloadBufferWithChan) (rm : DownloadBufferWithMask) (ctx : Ctx) (pick : Bool)
    (num : Int) (fuel : Nat) :
    ((rc.RequestChunk ctx pick num fuel).1 = .cancelled →
        (rc.RequestChunk ctx pick num fuel).2 = rc) ∧
    ((rm.RequestChunk ctx num fuel).1 = .cancelled →
        (rm.RequestChunk ctx num fuel).2 = rm ∧ (rm.RequestChunk ctx num fuel).2.mask = rm.mask) := by
  constructor
  · exact selectFrom_cancelled rc ctx pick num fuel 0
  · intro h
    have : (rm.RequestChunk ctx num fuel).2 = rm := by
      unfold DownloadBufferWithMask.RequestChunk at h ⊢
      cases hs : rm.slotOf num with
      | panic f => rfl
      | ok slot =>
        rw [hs] at h
        exact pollFrom_cancelled rm ctx slot fuel 0 h
    exact ⟨this, by rw [this]⟩

/-- Witness for C4: a cancelled call on a queue pool with two free slots and on a
bitmask pool with both slots free. -/
theorem request_cancelled_state_unchanged_witness :
    ((chanPool 40 2 20 [0, 1] []).RequestChunk Ctx.cancelledCtx true 7 1).2 =
        chanPool 40 2 20 [0, 1] [] ∧
    ((maskPool 40 2 20 4 3).RequestChunk Ctx.cancelledCtx 7 1).2 = maskPool 40 2 20 4 3 ∧
    ((maskPool 40 2 20 4 3).RequestChunk Ctx.cancelledCtx 7 1).2.mask = (maskPool 40 2 20 4 3).mask :=
  ⟨(request_cancelled_state_unchanged (chanPool 40 2 20 [0, 1] []) (maskPool 40 2 20 4 3)
      Ctx.cancelledCtx true 7 1).1 (by decide),
   (request_cancelled_state_unchanged (chanPool 40 2 20 [0, 1] []) (maskPool 40 2 20 4 3)
      Ctx.cancelledCtx true 7 1).2 (by decide)⟩

/-- **C5, counterexample.** With an already cancelled context and a free slot the
`select` of the queue pool may take the receive arm and grant a buffer; and the
bitmask pool exactly as constructed (`numBlocks` still zero), or constructed
with `size = 0`, divides by zero before it looks at the context. -/
theorem request_cancelled_ctx_counterexample :
    NewDownloadBufferWithChan Runtime.amd64 2 3 5 = .ok (chanPool 40 2 20 [0, 1] []) ∧
    (chanPool 40 2 20 [0, 1] []).RequestChunk Ctx.cancelledCtx false 7 1 =
      (.buffer (slotWindow 40 20 0), chanPool 40 2 20 [1] [(7, 0)]) ∧
    NewDownloadBufferWithMask Runtime.amd64 2 3 5 = .ok (maskPool 40 2 20 0 3) ∧
    (maskPool 40 2 20 0 3).RequestChunk Ctx.cancelledCtx 7 1 =
      (.fault .divideByZero, maskPool 40 2 20 0 3) ∧
    NewDownloadBufferWithMask Runtime.amd64 0 3 5 = .ok (maskPool 0 0 20 0 0) ∧
    ((maskPool 0 0 20 0 0).SetNumBlocks 4).RequestChunk Ctx.cancelledCtx 7 1 =
      (.fault .divideByZero, maskPool 0 0 20 4 0) := by
  decide

/-- **C5, amended.** With a context that is already cancelled, the bitmask pool
with non-zero `numBlocks` and `length` returns nil in every state, free slot or
not, and leaves the state alone; the queue pool returns nil in every state in
which no slot can be received, and in the other states whenever the `select`
takes the cancellation arm. -/
theorem request_cancelled_ctx_returns_nil
    (rc : DownloadBufferWithChan) (rm : DownloadBufferWithMask) (ctx : Ctx) (pick : Bool)
    (num : Int) (fuel : Nat) (hctx : ctx 0 = true) :
    (rm.numBlocks ≠ 0 → rm.length ≠ 0 → rm.RequestChunk ctx num (fuel + 1) = (.cancelled, rm)) ∧
    (pick = true ∨ rc.ch.recvReady = false →
      rc.RequestChunk ctx pick num (fuel + 1) = (.cancelled, rc)) := by
  constructor
  · intro h1 h2
    simp [DownloadBufferWithMask.RequestChunk, DownloadBufferWithMask.slotOf, h1, h2,
      DownloadBufferWithMask.pollFrom, hctx]
  · intro h
    rcases h with h | h <;> simp [RequestChunk, selectFrom, hctx, h]

/-- Witness for C5: a bitmask pool with both slots free and a drained queue pool. -/
theorem request_cancelled_ctx_returns_nil_witness :
    (maskPool 40 2 20 4 3).RequestChunk Ctx.cancelledCtx 7 (0 + 1) =
      (.cancelled, maskPool 40 2 20 4 3) ∧
    (chanPool 40 2 20 [] [(1, 0), (2, 1)]).RequestChunk Ctx.cancelledCtx false 7 (0 + 1) =
      (.cancelled, chanPool 40 2 20 [] [(1, 0), (2, 1)]) :=
  ⟨(request_cancelled_ctx_returns_nil (chanPool 40 2 20 [] [(1, 0), (2, 1)])
      (maskPool 40 2 20 4 3) Ctx.cancelledCtx false 7 0 rfl).1 (by decide) (by decide),
   (request_cancelled_ctx_returns_nil (chanPool 40 2 20 [] [(1, 0), (2, 1)])
      (maskPool 40 2 20 4 3) Ctx.cancelledCtx false 7 0 rfl).2 (Or.inr (by decide))⟩

theorem recv_closed (c : Chan) : c.recv.2.closed = c.closed := by
  unfold Chan.recv
  split <;> rfl

theorem selectFrom_cleared (r : DownloadBufferWithChan) (ctx : Ctx) (pick : Bool) (num : Int)
    (fuel t : Nat) (hclosed : r.ch.closed = true) (hmp : r.mp = none) :
    ((r.selectFrom ctx pick num fuel t).2.ch.closed = true ∧
      (r.selectFrom ctx pick num fuel t).2.mp = none ∧
      (r.selectFrom ctx pick num fuel t).2.buf = r.buf) ∧
    (r.mu = false →
      (r.selectFrom ctx pick num (fuel + 1) t).1 = .cancelled ∨
      ((r.selectFrom ctx pick num (fuel + 1) t).1 = .fault .nilMapWrite ∧
        (r.selectFrom ctx pick num (fuel + 1) t).2.mu = true)) ∧
    (r.mu = true →
      ((r.selectFrom ctx pick num fuel t).1 = .cancelled ∨
        (r.selectFrom ctx pick num fuel t).1 = .waiting) ∧
      (r.selectFrom ctx pick num fuel t).2.mu = true) := by
  have hready : r.ch.recvReady = true := by simp [Chan.recvReady, hclosed]
  have hrc : r.ch.recv.2.closed = true := by rw [recv_closed, hclosed]
  refine ⟨?_, ?_, ?_⟩
  · cases fuel with
    | zero => exact ⟨hclosed, hmp, rfl⟩
    | succ n =>
      unfold selectFrom
      split
      · exact ⟨hclosed, hmp, rfl⟩
      · unfold grant
        simp only [hmp]
        split
        · exact ⟨hrc, rfl, rfl⟩
        · exact ⟨hrc, rfl, rfl⟩
  · intro hmu
    unfold selectFrom
    split
    · exact Or.inl rfl
    · right
      simp [grant, hmp, hmu]
  · intro hmu
    cases fuel with
    | zero => exact ⟨Or.inr rfl, hmu⟩
    | succ n =>
      unfold selectFrom
      split
      · exact ⟨Or.inl rfl, hmu⟩
      · simp [grant, hmu]

theorem slice_nilSlice (lo hi : Int) (b : Slice) (h : Slice.nilSlice.slice lo hi = .ok b) :
    b = Slice.nilSlice := by
  unfold Slice.slice at h
  split at h
  · rename_i hc
    simp only [Slice.nilSlice] at hc
    have h1 : lo = 0 := by omega
    have h2 : hi = 0 := by omega
    subst h1 h2
    simp only [Res.ok.injEq] at h
    rw [← h]; rfl
  · simp at h

theorem pollFrom_nil_buf (r : DownloadBufferWithMask) (ctx : Ctx) (num : Int) (fuel t : Nat)
    (hbuf : r.buf = Slice.nilSlice) :
    (∀ b, (r.pollFrom ctx num fuel t).1 = .buffer b → b = Slice.nilSlice) ∧
    (r.pollFrom ctx num fuel t).2.buf = Slice.nilSlice := by
  induction fuel generalizing t with
  | zero => exact ⟨fun b h => by simp [DownloadBufferWithMask.pollFrom] at h, hbuf⟩
  | succ n ih =>
    unfold DownloadBufferWithMask.pollFrom
    split
    · exact ⟨fun b h => by simp at h, hbuf⟩
    · split
      · exact ⟨fun b h => by simp at h, hbuf⟩
      · split
        · exact ⟨fun b h => by simp at h, hbuf⟩
        · split
          · exact ih (t + 1)
          · simp only [hbuf]
            cases hs : Slice.nilSlice.slice (wrapInt (num * r.reqSize))
                (wrapInt (wrapInt (num + 1) * r.reqSize)) with
            | ok b0 =>
              refine ⟨fun b h => ?_, rfl⟩
              simp only [Outcome.buffer.injEq] at h
              rw [← h]
              exact slice_nilSlice _ _ _ hs
            | panic f => exact ⟨fun b h => by simp at h, rfl⟩

theorem pollFrom_nil_buf_fault (r : DownloadBufferWithMask) (ctx : Ctx) (slot : Int)
    (fuel t : Nat) (hbuf : r.buf = Slice.nilSlice) (h0 : 0 ≤ slot) (hctx : ctx t = false)
    (hmu : r.mu = false) (hset : r.mask &&& shl32 1 slot ≠ 0) (hR : 0 < r.reqSize)
    (hmax : (slot + 1) * r.reqSize < 9223372036854775808) :
    (r.pollFrom ctx slot (fuel + 1) t).1 = .fault .sliceBounds := by
  have hpos : 0 < (slot + 1) * r.reqSize := Int.mul_pos (by omega) hR
  have hle : slot + 1 ≤ (slot + 1) * r.reqSize := by nlinarith
  have e2 : wrapInt (slot + 1) = slot + 1 := wrapInt_eq (by omega) (by omega)
  have e3 : wrapInt ((slot + 1) * r.reqSize) = (slot + 1) * r.reqSize :=
    wrapInt_eq (by omega) hmax
  have hc : ¬ (0 ≤ wrapInt (slot * r.reqSize) ∧
      wrapInt (slot * r.reqSize) ≤ (slot + 1) * r.reqSize ∧ (slot + 1) * r.reqSize ≤ 0) := by
    omega
  simp only [DownloadBufferWithMask.pollFrom, hctx, hmu, Bool.false_eq_true, if_false,
    Int.not_lt.mpr h0, hset, hbuf, Slice.slice, Slice.nilSlice, e2, e3, hc]

/-- **C6, counterexample.** After `ClearBuffer` a `RequestChunk` on the queue pool
receives from the closed channel and panics on the write to the nil map, with
the mutex held; the next `RequestChunk` receives again and does not return
(here observed for 5 instants); on the bitmask pool the call clears the bit of
its free slot and panics slicing the nil backing array. -/
theorem request_after_clear_counterexample :
    (chanPool 40 2 20 [0, 1] []).ClearBuffer =
      (.done, ⟨Slice.nilSlice, 2, 20, ⟨[0, 1], 2, true⟩, false, none⟩) ∧
    (DownloadBufferWithChan.mk Slice.nilSlice 2 20 ⟨[0, 1], 2, true⟩ false none).RequestChunk
        Ctx.background false 7 1 =
      (.fault .nilMapWrite, ⟨Slice.nilSlice, 2, 20, ⟨[1], 2, true⟩, true, none⟩) ∧
    (DownloadBufferWithChan.mk Slice.nilSlice 2 20 ⟨[1], 2, true⟩ true none).RequestChunk
        Ctx.background false 8 5 =
      (.waiting, ⟨Slice.nilSlice, 2, 20, ⟨[], 2, true⟩, true, none⟩) ∧
    (maskPool 40 2 20 3 3).ClearBuffer = ⟨Slice.nilSlice, 2, 20, 3, 3, false⟩ ∧
    (DownloadBufferWithMask.mk Slice.nilSlice 2 20 3 3 false).RequestChunk Ctx.background 0 1 =
      (.fault .sliceBounds, ⟨Slice.nilSlice, 2, 20, 3, 2, false⟩) := by
  decide

/-- **C6, amended.** After `ClearBuffer` no `RequestChunk` returns a non-nil
buffer and none allocates memory (the backing slice stays nil).  In the queue
pool the channel stays closed and the map nil; a call made with the mutex free
returns nil through the cancellation arm or panics on the write to the nil map
and leaves the mutex held; a call made with the mutex held returns nil through
the cancellation arm or does not return, however long it is observed.  In the
bitmask pool every buffer a call returns is the nil slice, and a call with a
context not cancelled, the mutex free, the bit of its slot set and a positive
`reqSize` panics on the slice expression. -/
theorem request_after_clear_no_buffer
    (rc rc1 : DownloadBufferWithChan) (rm : DownloadBufferWithMask) (ctx : Ctx) (pick : Bool)
    (num : Int) (fuel : Nat) (hclear : rc.ClearBuffer = (.done, rc1)) :
    (rc1.ch.closed = true ∧ rc1.mp = none ∧ rc1.buf = Slice.nilSlice ∧ rc1.mu = rc.mu) ∧
    (∀ r : DownloadBufferWithChan, r.ch.closed = true → r.mp = none → r.buf = Slice.nilSlice →
      ((r.RequestChunk ctx pick num fuel).2.ch.closed = true ∧
        (r.RequestChunk ctx pick num fuel).2.mp = none ∧
        (r.RequestChunk ctx pick num fuel).2.buf = Slice.nilSlice) ∧
      (r.mu = false →
        (r.RequestChunk ctx pick num (fuel + 1)).1 = .cancelled ∨
        ((r.RequestChunk ctx pick num (fuel + 1)).1 = .fault .nilMapWrite ∧
          (r.RequestChunk ctx pick num (fuel + 1)).2.mu = true)) ∧
      (r.mu = true →
        ((r.RequestChunk ctx pick num fuel).1 = .cancelled ∨
          (r.RequestChunk ctx pick num fuel).1 = .waiting) ∧
        (r.RequestChunk ctx pick num fuel).2.mu = true)) ∧
    ((∀ b, (rm.ClearBuffer.RequestChunk ctx num fuel).1 = .buffer b → b = Slice.nilSlice) ∧
      (rm.ClearBuffer.RequestChunk ctx num fuel).2.buf = Slice.nilSlice ∧
      (∀ slot, rm.slotOf num = .ok slot → 0 ≤ slot → ctx 0 = false → rm.mu = false →
        rm.mask &&& shl32 1 slot ≠ 0 → 0 < rm.reqSize →
        (slot + 1) * rm.reqSize < 9223372036854775808 →
        (rm.ClearBuffer.RequestChunk ctx num (fuel + 1)).1 = .fault .sliceBounds)) := by
  refine ⟨?_, ?_, ?_, ?_, ?_⟩
  · unfold ClearBuffer closeChan at hclear
    by_cases hc : rc.ch.closed = true
    · simp [hc] at hclear
    · simp only [hc, if_false, Bool.false_eq_true] at hclear
      have := (Prod.mk.inj hclear).2
      rw [← this]
      exact ⟨rfl, rfl, rfl, rfl⟩
  · intro r h1 h2 h3
    have := selectFrom_cleared r ctx pick num fuel 0 h1 h2
    rw [h3] at this
    exact this
  · unfold DownloadBufferWithMask.RequestChunk
    cases hs : rm.ClearBuffer.slotOf num with
    | panic f => exact fun b h => by simp at h
    | ok slot => exact (pollFrom_nil_buf rm.ClearBuffer ctx slot fuel 0 rfl).1
  · unfold DownloadBufferWithMask.RequestChunk
    cases hs : rm.ClearBuffer.slotOf num with
    | panic f => rfl
    | ok slot => exact (pollFrom_nil_buf rm.ClearBuffer ctx slot fuel 0 rfl).2
  · intro slot hslot h0 hctx hmu hset hR hmax
    have hs : rm.ClearBuffer.slotOf num = .ok slot := hslot
    rw [DownloadBufferWithMask.RequestChunk, hs]
    exact pollFrom_nil_buf_fault rm.ClearBuffer ctx slot fuel 0 rfl h0 hctx hmu hset hR hmax

/-- Witness for C6: a queue pool with two free slots and a bitmask pool with two
free slots are cleared; the first call after that panics in both, and the next
call on the queue pool can only be cancelled or wait. -/
theorem request_after_clear_no_buffer_witness :
    (((DownloadBufferWithChan.mk Slice.nilSlice 2 20 ⟨[0, 1], 2, true⟩ false none).RequestChunk
          Ctx.background false 7 (0 + 1)).1 = .cancelled ∨
      (((DownloadBufferWithChan.mk Slice.nilSlice 2 20 ⟨[0, 1], 2, true⟩ false none).RequestChunk
          Ctx.background false 7 (0 + 1)).1 = .fault .nilMapWrite ∧
        ((DownloadBufferWithChan.mk Slice.nilSlice 2 20 ⟨[0, 1], 2, true⟩ false none).RequestChunk
          Ctx.background false 7 (0 + 1)).2.mu = true)) ∧
    ((maskPool 40 2 20 3 3).ClearBuffer.RequestChunk Ctx.background 7 (0 + 1)).1 =
      .fault .sliceBounds :=
  have h := request_after_clear_no_buffer (chanPool 40 2 20 [0, 1] [])
    (DownloadBufferWithChan.mk Slice.nilSlice 2 20 ⟨[0, 1], 2, true⟩ false none)
    (maskPool 40 2 20 3 3) Ctx.background false 7 0 (by decide)
  ⟨(h.2.1 _ rfl rfl rfl).2.1 rfl,
    h.2.2.2.2 0 (by decide) (by decide) rfl rfl (by decide) (by decide) (by decide)⟩

theorem slotOf_ok (r : DownloadBufferWithMask) (key : Int) (hn : 1 ≤ r.numBlocks)
    (hs : 1 ≤ r.length) (hk0 : 0 ≤ key) (hk : key < 9223372036854775808) :
    r.slotOf key = .ok (slotIndex r.numBlocks r.length key) ∧
      0 ≤ slotIndex r.numBlocks r.length key ∧ slotIndex r.numBlocks r.length key < r.length := by
  have hq0 : 0 ≤ Int.tdiv key r.numBlocks := Int.tdiv_nonneg hk0 (by omega)
  have hq1 : Int.tdiv key r.numBlocks ≤ key := by
    rw [Int.tdiv_eq_ediv hk0 (by omega)]; exact Int.ediv_le_self _ hk0
  have hw : wrapInt (Int.tdiv key r.numBlocks) = Int.tdiv key r.numBlocks :=
    wrapInt_eq (by omega) (by omega)
  refine ⟨?_, Int.tmod_nonneg _ hq0, Int.tmod_lt_of_pos _ (by omega)⟩
  unfold DownloadBufferWithMask.slotOf slotIndex
  rw [if_neg (by omega)]
  simp only [hw]
  rw [if_neg (by omega)]

theorem freshMask_eq (size : Int) (h0 : 0 ≤ size) (h32 : size ≤ 32) :
    (shl32 1 size + 4294967295) % 4294967296 = 2 ^ size.toNat - 1 := by
  by_cases h : size < 32
  · rw [shl32_one_lt h0 h]
    have hs : size.toNat < 32 := by omega
    have h1 : 2 ^ size.toNat < 2 ^ 32 := Nat.pow_lt_pow_right (by decide) hs
    have h2 : 0 < 2 ^ size.toNat := Nat.two_pow_pos _
    norm_num at h1
    omega
  · have : size = 32 := by omega
    subst this
    decide

theorem freshMask_bit (size s : Int) (h0 : 0 ≤ s) (hs : s < size) (h32 : size ≤ 32) :
    (shl32 1 size + 4294967295) % 4294967296 &&& shl32 1 s ≠ 0 := by
  rw [freshMask_eq size (by omega) h32, shl32_one_lt h0 (by omega)]
  intro h
  have := (and_two_pow_eq_zero _ _).mp h
  rw [Nat.testBit_two_pow_sub_one] at this
  have hlt : s.toNat < size.toNat := by omega
  simp [hlt] at this

theorem pollFrom_background_clear (r : DownloadBufferWithMask) (num : Int) (fuel t : Nat)
    (h0 : 0 ≤ num) (hmu : r.mu = false) (hclear : r.mask &&& shl32 1 num = 0) :
    r.pollFrom Ctx.background num fuel t = (.waiting, r) := by
  induction fuel generalizing t with
  | zero => rfl
  | succ k ih =>
    simp [DownloadBufferWithMask.pollFrom, Ctx.background, Int.not_lt.mpr h0, hclear, ih, hmu]

/-- **C7, counterexample.** On the bitmask pool exactly as returned by
`NewDownloadBufferWithMask` the field `numBlocks` is zero and the first
`RequestChunk` divides by zero; with 33 slots and `SetNumBlocks 1` the call for
key 32 never completes, because bit 32 does not exist in the `uint32` mask; and
on a queue pool whose byte count overflowed the first call slices out of
range. -/
theorem request_release_fault_counterexample :
    NewDownloadBufferWithMask Runtime.amd64 2 3 5 = .ok (maskPool 40 2 20 0 3) ∧
    (maskPool 40 2 20 0 3).RequestChunk Ctx.background 0 1 =
      (.fault .divideByZero, maskPool 40 2 20 0 3) ∧
    NewDownloadBufferWithMask Runtime.amd64 33 0 1 = .ok (maskPool 33 33 1 0 4294967295) ∧
    (∀ fuel, ((maskPool 33 33 1 0 4294967295).SetNumBlocks 1).RequestChunk Ctx.background 32 fuel =
      (.waiting, maskPool 33 33 1 1 4294967295)) ∧
    NewDownloadBufferWithChan Runtime.amd64 2 4611686018427387903 2 =
      .ok (chanPool 0 2 (-9223372036854775808) [0, 1] []) ∧
    ((chanPool 0 2 (-9223372036854775808) [0, 1] []).RequestChunk Ctx.background false 0 1).1 =
      .fault .sliceBounds := by
  refine ⟨by decide, by decide, by decide, ?_, by decide, by decide⟩
  intro fuel
  have hs : ((maskPool 33 33 1 0 4294967295).SetNumBlocks 1).slotOf 32 = .ok 32 := by decide
  rw [DownloadBufferWithMask.RequestChunk, hs]
  exact pollFrom_background_clear _ 32 fuel 0 (by decide) rfl (by decide)

/-- **C7, amended.** With constructor arguments that are non-negative and do not
overflow and `size ≥ 1`, for every non-negative key and a context that is never
cancelled, a `RequestChunk` followed by the matching `ReleaseChunk` completes
without any run-time failure on every pool that `NewDownloadBufferWithChan`
returns, and on every pool that `NewDownloadBufferWithMask` returns with
`size ≤ 32` once `SetNumBlocks n` with `n ≥ 1` has been called; the request
returns the window of a slot and the mutex is free after each call. -/
theorem request_release_no_fault (rt : Runtime) (size numBlocks effectiveBlockSize n key : Int)
    (pick : Bool) (fuel : Nat) (h : NoOverflow size numBlocks effectiveBlockSize)
    (hsize : 1 ≤ size) (hkey : 0 ≤ key) (hkmax : key < 9223372036854775808) :
    (∀ r0, NewDownloadBufferWithChan rt size numBlocks effectiveBlockSize = .ok r0 →
      ∃ b r1 r2, r0.RequestChunk Ctx.background pick key (fuel + 1) = (.buffer b, r1) ∧
        r1.ReleaseChunk key = (.done, r2) ∧ r1.mu = false ∧ r2.mu = false) ∧
    (size ≤ 32 → 1 ≤ n →
      ∀ r0, NewDownloadBufferWithMask rt size numBlocks effectiveBlockSize = .ok r0 →
        ∃ b r1 r2,
          (r0.SetNumBlocks n).RequestChunk Ctx.background key (fuel + 1) = (.buffer b, r1) ∧
          r1.ReleaseChunk key = (.done, r2) ∧ r1.mu = false ∧ r2.mu = false) := by
  have hfit := h
  obtain ⟨h1, h2, h3, h4, h5, h6, h7, h8⟩ := h
  have hR : 0 ≤ effectiveBlockSize * (numBlocks + 1) := Int.mul_nonneg h3 (by omega)
  have htot : size * (effectiveBlockSize * (numBlocks + 1)) < 9223372036854775808 := by
    rw [show size * (effectiveBlockSize * (numBlocks + 1)) =
      size * (numBlocks + 1) * effectiveBlockSize by ring]; exact h8
  constructor
  · intro r0 hnew
    rw [NewDownloadBufferWithChan_eq rt size numBlocks effectiveBlockSize r0 hfit hnew]
    obtain ⟨k, hk⟩ : ∃ k, size.toNat = k + 1 := ⟨size.toNat - 1, by omega⟩
    refine ⟨slotWindow (size * (effectiveBlockSize * (numBlocks + 1)))
        (effectiveBlockSize * (numBlocks + 1)) 0,
      chanPool (size * (effectiveBlockSize * (numBlocks + 1))) size
        (effectiveBlockSize * (numBlocks + 1)) (upFrom (0 + 1) k) (mapSet [] key 0),
      chanPool (size * (effectiveBlockSize * (numBlocks + 1))) size
        (effectiveBlockSize * (numBlocks + 1)) (upFrom (0 + 1) k ++ [0]) [], ?_, ?_, rfl, rfl⟩
    · rw [RequestChunk, selectFrom_background_ready _ _ _ _ _
        (by simp [chanPool, hk, upFrom, Chan.recvReady])]
      rw [hk, upFrom]
      exact grant_chanPool _ _ _ _ _ _ _ (le_refl 0) hR (by omega)
        (by simpa using Int.mul_le_mul_of_nonneg_right hsize hR) htot
    · have hlen : ((upFrom 1 k).length : Int) < size := by
        rw [upFrom_length]; omega
      simp [ReleaseChunk, chanPool, mapSet, mapGet, mapDelete, Chan.send, hlen]
  · intro h32 hn r0 hnew
    rw [NewDownloadBufferWithMask_eq rt size numBlocks effectiveBlockSize r0 hfit hnew]
    have hslot : ∀ mask, (maskPool (size * (effectiveBlockSize * (numBlocks + 1))) size
        (effectiveBlockSize * (numBlocks + 1)) n mask).slotOf key =
        .ok (slotIndex n size key) := fun mask =>
      (slotOf_ok (maskPool (size * (effectiveBlockSize * (numBlocks + 1))) size
        (effectiveBlockSize * (numBlocks + 1)) n mask) key hn hsize hkey hkmax).1
    obtain ⟨-, hs2, hs3⟩ := slotOf_ok (maskPool (size * (effectiveBlockSize * (numBlocks + 1)))
      size (effectiveBlockSize * (numBlocks + 1)) n 0) key hn hsize hkey hkmax
    simp only [maskPool] at hs2 hs3
    refine ⟨slotWindow (size * (effectiveBlockSize * (numBlocks + 1)))
        (effectiveBlockSize * (numBlocks + 1)) (slotIndex n size key),
      maskPool (size * (effectiveBlockSize * (numBlocks + 1))) size
        (effectiveBlockSize * (numBlocks + 1)) n
        ((shl32 1 size + 4294967295) % 4294967296 &&& not32 (shl32 1 (slotIndex n size key))),
      maskPool (size * (effectiveBlockSize * (numBlocks + 1))) size
        (effectiveBlockSize * (numBlocks + 1)) n
        (((shl32 1 size + 4294967295) % 4294967296 &&& not32 (shl32 1 (slotIndex n size key))) |||
          shl32 1 (slotIndex n size key)), ?_, ?_, rfl, rfl⟩
    · have e : (maskPool (size * (effectiveBlockSize * (numBlocks + 1))) size
          (effectiveBlockSize * (numBlocks + 1)) 0
          ((shl32 1 size + 4294967295) % 4294967296)).SetNumBlocks n =
          maskPool (size * (effectiveBlockSize * (numBlocks + 1))) size
            (effectiveBlockSize * (numBlocks + 1)) n
            ((shl32 1 size + 4294967295) % 4294967296) := rfl
      rw [e, DownloadBufferWithMask.RequestChunk, hslot]
      exact pollFrom_grant _ size _ n _ Ctx.background _ fuel 0 rfl
        (freshMask_bit size _ hs2 hs3 h32) hs2 hR (by omega)
        (Int.mul_le_mul_of_nonneg_right (by omega) hR) htot
    · rw [DownloadBufferWithMask.ReleaseChunk, hslot]
      simp only [Int.not_lt.mpr hs2, if_false, maskPool, Bool.false_eq_true]

/-- Witness for C7: two slots, key 9, `SetNumBlocks 4`. -/
theorem request_release_no_fault_witness :
    NewDownloadBufferWithChan Runtime.amd64 2 3 5 = .ok (chanPool 40 2 20 [0, 1] []) ∧
    (∃ b r1 r2, (chanPool 40 2 20 [0, 1] []).RequestChunk Ctx.background false 9 (0 + 1) =
        (.buffer b, r1) ∧
      r1.ReleaseChunk 9 = (.done, r2) ∧ r1.mu = false ∧ r2.mu = false) ∧
    NewDownloadBufferWithMask Runtime.amd64 2 3 5 = .ok (maskPool 40 2 20 0 3) ∧
    (∃ b r1 r2, ((maskPool 40 2 20 0 3).SetNumBlocks 4).RequestChunk Ctx.background 9 (0 + 1) =
        (.buffer b, r1) ∧
      r1.ReleaseChunk 9 = (.done, r2) ∧ r1.mu = false ∧ r2.mu = false) :=
  have h := request_release_no_fault Runtime.amd64 2 3 5 4 9 false 0 (by decide) (by decide)
    (by decide) (by decide)
  ⟨by decide, h.1 _ (by decide), by decide, h.2 (by decide) (by decide) _ (by decide)⟩

theorem mem_upFrom (i : Int) (n : Nat) (x : Int) : x ∈ upFrom i n ↔ i ≤ x ∧ x < i + n := by
  induction n generalizing i with
  | zero => simp [upFrom]
  | succ n ih =>
    simp only [upFrom, List.mem_cons, ih]
    push_cast
    omega

theorem nodup_upFrom (i : Int) (n : Nat) : (upFrom i n).Nodup := by
  induction n generalizing i with
  | zero => simp [upFrom]
  | succ n ih =>
    simp only [upFrom, List.nodup_cons, mem_upFrom]
    exact ⟨by omega, ih _⟩

theorem NewDownloadBufferWithChan_shape (rt : Runtime) (size nb ebs : Int)
    (r0 : DownloadBufferWithChan) (hsize : size < 9223372036854775808)
    (hnew : NewDownloadBufferWithChan rt size nb ebs = .ok r0) :
    r0.ch = ⟨upFrom 0 size.toNat, size, false⟩ ∧ r0.mp = some [] ∧ r0.length = size ∧
      r0.mu = false := by
  unfold NewDownloadBufferWithChan at hnew
  simp only [] at hnew
  split at hnew
  · simp at hnew
  · unfold makeChan at hnew
    by_cases hs : size < 0 ∨ rt.maxChanSize < size
    · simp [hs] at hnew
    · have hfill := fillChan_eq size.toNat 0 [] size (by simp; omega) (by omega) (by omega)
      simp only [hs, if_false, hfill, List.nil_append, Res.ok.injEq] at hnew
      rw [← hnew]
      exact ⟨rfl, rfl, rfl, rfl⟩

theorem chanInv_init (rt : Runtime) (size nb ebs : Int) (r0 : DownloadBufferWithChan)
    (hsize : size < 9223372036854775808)
    (hnew : NewDownloadBufferWithChan rt size nb ebs = .ok r0) :
    ChanInv size r0 := by
  obtain ⟨h1, h2, -⟩ := NewDownloadBufferWithChan_shape rt size nb ebs r0 hsize hnew
  unfold ChanInv heldKeys heldSlots
  rw [h1, h2]
  refine ⟨rfl, by simp, by simpa using nodup_upFrom 0 size.toNat, ?_⟩
  intro x hx
  simp only [List.map_nil, List.append_nil, mem_upFrom] at hx
  omega

theorem mapSet_keys (m : List (Int × Int)) (k v : Int) (hk : (m.map Prod.fst).Nodup) :
    ((mapSet m k v).map Prod.fst).Nodup := by
  unfold mapSet
  split
  · have : (m.map (fun p => if p.1 == k then (k, v) else p)).map Prod.fst = m.map Prod.fst := by
      rw [List.map_map]
      apply List.map_congr_left
      intro p _
      by_cases h : p.1 = k <;> simp [h]
    rw [this]; exact hk
  · rename_i h
    rw [List.map_append, List.nodup_append]
    refine ⟨hk, by simp, ?_⟩
    intro x hx hx2
    simp only [List.map_cons, List.map_nil, List.mem_singleton] at hx2
    subst hx2
    apply h
    rw [List.any_eq_true]
    obtain ⟨p, hp, hpk⟩ := List.mem_map.mp hx
    exact ⟨p, hp, by simp [hpk]⟩

theorem mapSet_vals_mem (m : List (Int × Int)) (k v x : Int)
    (hx : x ∈ (mapSet m k v).map Prod.snd) : x = v ∨ x ∈ m.map Prod.snd := by
  unfold mapSet at hx
  split at hx
  · obtain ⟨q, hq, rfl⟩ := List.mem_map.mp hx
    obtain ⟨p, hp, rfl⟩ := List.mem_map.mp hq
    by_cases h : p.1 = k
    · left; simp [h]
    · right; simp only [beq_iff_eq, h, if_false]; exact List.mem_map_of_mem _ hp
  · rw [List.map_append, List.mem_append] at hx
    rcases hx with hx | hx
    · exact Or.inr hx
    · left; simpa using hx

theorem update_vals_nodup (m : List (Int × Int)) (k v : Int) (hk : (m.map Prod.fst).Nodup)
    (hv : (m.map Prod.snd).Nodup) (hfresh : v ∉ m.map Prod.snd) :
    ((m.map (fun p => if p.1 == k then (k, v) else p)).map Prod.snd).Nodup := by
  induction m with
  | nil => simp
  | cons p m ih =>
    simp only [List.map_cons, List.nodup_cons, List.mem_cons, not_or] at hk hv hfresh ⊢
    by_cases h : p.1 = k
    · have hid : m.map (fun p => if p.1 == k then (k, v) else p) = m := by
        conv_rhs => rw [← List.map_id m]
        apply List.map_congr_left
        intro q hq
        have : ¬ q.1 = k := fun hqk => hk.1 (by rw [h, ← hqk]; exact List.mem_map_of_mem _ hq)
        simp [this]
      rw [hid]
      simp only [h, beq_self_eq_true, if_true]
      exact ⟨hfresh.2, hv.2⟩
    · have hhead : (if (p.1 == k) = true then (k, v) else p) = p := if_neg (by simpa using h)
      rw [hhead]
      refine ⟨?_, ih hk.2 hv.2 hfresh.2⟩
      intro hmem
      obtain ⟨q, hq, hq2⟩ := List.mem_map.mp hmem
      obtain ⟨q0, hq0, rfl⟩ := List.mem_map.mp hq
      by_cases hq0k : q0.1 = k
      · simp only [hq0k, beq_self_eq_true, if_true] at hq2
        exact hfresh.1 hq2
      · simp only [beq_iff_eq, hq0k, if_false] at hq2
        exact hv.1 (hq2 ▸ List.mem_map_of_mem _ hq0)

theorem mapSet_vals_nodup (m : List (Int × Int)) (k v : Int) (hk : (m.map Prod.fst).Nodup)
    (hv : (m.map Prod.snd).Nodup) (hfresh : v ∉ m.map Prod.snd) :
    ((mapSet m k v).map Prod.snd).Nodup := by
  unfold mapSet
  split
  · exact update_vals_nodup m k v hk hv hfresh
  · rw [List.map_append, List.nodup_append]
    refine ⟨hv, by simp, ?_⟩
    intro x hx hx2
    simp only [List.map_cons, List.map_nil, List.mem_singleton] at hx2
    exact hfresh (hx2 ▸ hx)
theorem chanInv_grant (size : Int) (r : DownloadBufferWithChan) (num : Int)
    (hinv : ChanInv size r) (hready : r.ch.recvReady = true) : ChanInv size (r.grant num).2 := by
  obtain ⟨hopen, hkeys, hnd, hrange⟩ := hinv
  obtain ⟨ind, rest, hq⟩ : ∃ ind rest, r.ch.queue = ind :: rest := by
    cases hq : r.ch.queue with
    | nil => simp [Chan.recvReady, hopen, hq] at hready
    | cons a l => exact ⟨a, l, rfl⟩
  -- a call that dequeues a slot and records nothing
  have hdrop : ChanInv size { r with ch := { r.ch with queue := rest } } ∧
      ChanInv size { r with ch := { r.ch with queue := rest }, mu := true } := by
    have hsub : (rest ++ r.heldSlots).Sublist (r.ch.queue ++ r.heldSlots) := by
      rw [hq]; exact List.sublist_cons_self _ _
    exact ⟨⟨hopen, hkeys, hsub.nodup hnd, fun x hx => hrange x (hsub.subset hx)⟩,
      ⟨hopen, hkeys, hsub.nodup hnd, fun x hx => hrange x (hsub.subset hx)⟩⟩
  by_cases hmu : r.mu = true
  · have hst : (r.grant num).2 = { r with ch := { r.ch with queue := rest } } := by
      simp [grant, Chan.recv, hq, hmu]
    rw [hst]; exact hdrop.1
  cases hm : r.mp with
  | none =>
    have hst : (r.grant num).2 = { r with ch := { r.ch with queue := rest }, mu := true } := by
      simp [grant, Chan.recv, hq, hm, hmu]
    rw [hst]; exact hdrop.2
  | some m =>
    have hmu' : r.mu = false := by simpa using hmu
    have hst : (r.grant num).2 =
        { r with ch := { r.ch with queue := rest }, mp := some (mapSet m num ind) } := by
      cases r with
      | mk buf length reqSize ch mu mp =>
        simp only at hq hm hmu'
        subst hm hmu'
        simp only [grant, Chan.recv, hq, Bool.false_eq_true, if_false]
        split <;> rfl
    rw [hst]
    simp only [heldSlots, heldKeys, hm, hq] at hkeys hnd hrange
    rw [List.cons_append, List.nodup_cons, List.nodup_append] at hnd
    obtain ⟨hind, hrest, hvals, hdisj⟩ := hnd
    have hfresh : ind ∉ m.map Prod.snd := fun h => hind (List.mem_append_right _ h)
    refine ⟨hopen, mapSet_keys m num ind hkeys, ?_, ?_⟩
    · simp only [heldSlots]
      rw [List.nodup_append]
      refine ⟨hrest, mapSet_vals_nodup m num ind hkeys hvals hfresh, ?_⟩
      intro x hx hx2
      rcases mapSet_vals_mem m num ind x hx2 with h | h
      · exact hind (List.mem_append_left _ (h ▸ hx))
      · exact hdisj hx h
    · intro x hx
      simp only [heldSlots] at hx
      rcases List.mem_append.mp hx with h | h
      · exact hrange x (List.mem_cons_of_mem _ (List.mem_append_left _ h))
      · rcases mapSet_vals_mem m num ind x h with h2 | h2
        · exact hrange x (h2 ▸ List.mem_cons_self _ _)
        · exact hrange x (List.mem_cons_of_mem _ (List.mem_append_right _ h2))

theorem chanInv_selectFrom (size : Int) (r : DownloadBufferWithChan) (ctx : Ctx) (pick : Bool)
    (num : Int) (fuel t : Nat) (hinv : ChanInv size r) :
    ChanInv size (r.selectFrom ctx pick num fuel t).2 := by
  induction fuel generalizing t with
  | zero => exact hinv
  | succ n ih =>
    unfold selectFrom
    split
    · exact hinv
    · split
      · rename_i h
        exact chanInv_grant size r num hinv h
      · exact ih (t + 1)

theorem mapGet_mem (m : List (Int × Int)) (k v : Int) (h : mapGet m k = some v) :
    (k, v) ∈ m := by
  unfold mapGet at h
  obtain ⟨p, hp, hpv⟩ := Option.map_eq_some'.mp h
  have h1 := List.mem_of_find?_eq_some hp
  have h2 := List.find?_some hp
  simp only [beq_iff_eq] at h2
  rw [← h2, ← hpv]
  exact h1

theorem chanInv_release (size : Int) (r : DownloadBufferWithChan) (num : Int)
    (hinv : ChanInv size r) : ChanInv size (r.ReleaseChunk num).2 := by
  by_cases hmu : r.mu = true
  · have : (r.ReleaseChunk num).2 = r := by simp [ReleaseChunk, hmu]
    rw [this]; exact hinv
  obtain ⟨hopen, hkeys, hnd, hrange⟩ := hinv
  cases hm : r.mp with
  | none =>
    have : (r.ReleaseChunk num).2 = r := by simp [ReleaseChunk, hm, hmu]
    rw [this]; exact ⟨hopen, hkeys, hnd, hrange⟩
  | some m =>
    cases hg : mapGet m num with
    | none =>
      have : (r.ReleaseChunk num).2 = r := by simp [ReleaseChunk, hm, hg, hmu]
      rw [this]; exact ⟨hopen, hkeys, hnd, hrange⟩
    | some ind =>
      simp only [heldSlots, heldKeys, hm] at hkeys hnd hrange
      rw [List.nodup_append] at hnd
      obtain ⟨hq, hvals, hdisj⟩ := hnd
      have hmem := mapGet_mem m num ind hg
      have hindv : ind ∈ m.map Prod.snd := List.mem_map.mpr ⟨(num, ind), hmem, rfl⟩
      have hsub : ((mapDelete m num).map Prod.snd).Sublist (m.map Prod.snd) :=
        (List.filter_sublist m).map _
      have hsubk : ((mapDelete m num).map Prod.fst).Sublist (m.map Prod.fst) :=
        (List.filter_sublist m).map _
      have hgone : ind ∉ (mapDelete m num).map Prod.snd := by
        intro h
        obtain ⟨q, hq1, hq2⟩ := List.mem_map.mp h
        have hqm := List.mem_filter.mp hq1
        have := List.inj_on_of_nodup_map hvals hqm.1 hmem hq2
        rw [this] at hqm
        simp at hqm
      by_cases hfull : (r.ch.queue.length : Int) < r.ch.cap
      · have hst : (r.ReleaseChunk num).2 =
            { r with mp := some (mapDelete m num),
                     ch := { r.ch with queue := r.ch.queue ++ [ind] } } := by
          simp [ReleaseChunk, hm, hg, Chan.send, hopen, hfull, hmu]
        rw [hst]
        refine ⟨hopen, hsubk.nodup hkeys, ?_, ?_⟩
        · simp only [heldSlots]
          rw [List.nodup_append, List.nodup_append]
          refine ⟨⟨hq, by simp, ?_⟩, hsub.nodup hvals, ?_⟩
          · intro x hx hx2
            simp only [List.mem_singleton] at hx2
            exact hdisj hx (hx2 ▸ hindv)
          · intro x hx hx2
            rcases List.mem_append.mp hx with h | h
            · exact hdisj h (hsub.subset hx2)
            · simp only [List.mem_singleton] at h
              exact hgone (h ▸ hx2)
        · intro x hx
          simp only [heldSlots] at hx
          rcases List.mem_append.mp hx with h | h
          · rcases List.mem_append.mp h with h | h
            · exact hrange x (List.mem_append_left _ h)
            · simp only [List.mem_singleton] at h
              exact hrange x (List.mem_append_right _ (h ▸ hindv))
          · exact hrange x (List.mem_append_right _ (hsub.subset h))
      · have hst : (r.ReleaseChunk num).2 = { r with mp := some (mapDelete m num) } := by
          simp [ReleaseChunk, hm, hg, Chan.send, hopen, hfull, hmu]
        rw [hst]
        refine ⟨hopen, hsubk.nodup hkeys, ?_, ?_⟩
        · simp only [heldSlots]
          rw [List.nodup_append]
          exact ⟨hq, hsub.nodup hvals, fun x hx hx2 => hdisj hx (hsub.subset hx2)⟩
        · intro x hx
          simp only [heldSlots] at hx
          rcases List.mem_append.mp hx with h | h
          · exact hrange x (List.mem_append_left _ h)
          · exact hrange x (List.mem_append_right _ (hsub.subset h))

theorem chanInv_runCalls (size : Int) (r : DownloadBufferWithChan) (calls : List ChanCall)
    (hinv : ChanInv size r) : ChanInv size (r.runCalls calls) := by
  induction calls generalizing r with
  | nil => exact hinv
  | cons c cs ih =>
    unfold runCalls
    rw [List.foldl_cons]
    apply ih
    cases c with
    | request ctx pick num fuel => exact chanInv_selectFrom size r ctx pick num fuel 0 hinv
    | release num => exact chanInv_release size r num hinv
/-- **C9.** In every state of the queue-based pool reachable from
`NewDownloadBufferWithChan` by any sequence of `RequestChunk` and `ReleaseChunk`
calls (any context, any key), the slot indices in the free queue together with
the slot indices held in the map are pairwise distinct and lie in `[0, size)`;
hence two held keys never own the same slot and a held slot is never free. -/
theorem chan_slots_disjoint (rt : Runtime) (size numBlocks effectiveBlockSize : Int)
    (r0 : DownloadBufferWithChan) (calls : List ChanCall)
    (hsize : size < 9223372036854775808)
    (hnew : NewDownloadBufferWithChan rt size numBlocks effectiveBlockSize = .ok r0) :
    ((r0.runCalls calls).ch.queue ++ (r0.runCalls calls).heldSlots).Nodup ∧
    (∀ x ∈ (r0.runCalls calls).ch.queue ++ (r0.runCalls calls).heldSlots, 0 ≤ x ∧ x < size) ∧
    (∀ m k1 k2 s, (r0.runCalls calls).mp = some m → mapGet m k1 = some s →
      mapGet m k2 = some s → k1 = k2) ∧
    (∀ m k s, (r0.runCalls calls).mp = some m → mapGet m k = some s →
      s ∉ (r0.runCalls calls).ch.queue) := by
  have hinv := chanInv_runCalls size r0 calls
    (chanInv_init rt size numBlocks effectiveBlockSize r0 hsize hnew)
  obtain ⟨-, -, hnd, hrange⟩ := hinv
  refine ⟨hnd, hrange, ?_, ?_⟩
  · intro m k1 k2 s hm h1 h2
    simp only [heldSlots, hm] at hnd
    have hvals := (List.nodup_append.mp hnd).2.1
    have := List.inj_on_of_nodup_map hvals (mapGet_mem m k1 s h1) (mapGet_mem m k2 s h2) rfl
    exact (Prod.mk.inj this).1
  · intro m k s hm h1 hq
    simp only [heldSlots, hm] at hnd
    exact (List.nodup_append.mp hnd).2.2 hq
      (List.mem_map.mpr ⟨(k, s), mapGet_mem m k s h1, rfl⟩)

/-- Witness for C9: two slots; keys 7 and 9 acquire, key 7 releases, key 7 is
requested twice in a row. -/
theorem chan_slots_disjoint_witness :
    NewDownloadBufferWithChan Runtime.amd64 2 3 5 = .ok (chanPool 40 2 20 [0, 1] []) ∧
    (((chanPool 40 2 20 [0, 1] []).runCalls
        [.request Ctx.background false 7 1, .request Ctx.background false 9 1, .release 7,
         .request Ctx.background false 9 1]).ch.queue ++
      ((chanPool 40 2 20 [0, 1] []).runCalls
        [.request Ctx.background false 7 1, .request Ctx.background false 9 1, .release 7,
         .request Ctx.background false 9 1]).heldSlots).Nodup :=
  ⟨by decide, (chan_slots_disjoint Runtime.amd64 2 3 5 (chanPool 40 2 20 [0, 1] [])
    [.request Ctx.background false 7 1, .request Ctx.background false 9 1, .release 7,
     .request Ctx.background false 9 1] (by decide) (by decide)).1⟩

/-- **C8, counterexample.** Two slots, one block per key: after key 0 the
queue-based pool grants key 2 the second slot, while the bitmask pool maps key 2
to slot 0, which is held, and makes the caller wait. -/
theorem pools_disagree_counterexample :
    wellFormed 2 [] [.request 0, .request 2] = true ∧
    NewDownloadBufferWithChan Runtime.amd64 2 0 1 = .ok (chanPool 2 2 1 [0, 1] []) ∧
    NewDownloadBufferWithMask Runtime.amd64 2 0 1 = .ok (maskPool 2 2 1 0 3) ∧
    (chanPool 2 2 1 [0, 1] []).outcomes false 3 [.request 0, .request 2] =
      [.buffer (slotWindow 2 1 0), .buffer (slotWindow 2 1 1)] ∧
    ((maskPool 2 2 1 0 3).SetNumBlocks 1).outcomes 3 [.request 0, .request 2] =
      [.buffer (slotWindow 2 1 0), .waiting] := by
  decide

theorem not32_two_pow_testBit (s j : Nat) (hs : s < 32) :
    (not32 (2 ^ s)).testBit j = (decide (j < 32) && !decide (s = j)) := by
  have h1 : 2 ^ s < 2 ^ 32 := Nat.pow_lt_pow_right (by decide) hs
  have h2 : not32 (2 ^ s) = 2 ^ 32 - (2 ^ s + 1) := by
    unfold not32
    rw [Nat.mod_eq_of_lt (by simpa using h1)]
    norm_num at h1 ⊢
    omega
  rw [h2, Nat.testBit_two_pow_sub_succ h1, Nat.testBit_two_pow]

theorem list_length_le_of_range (l : List Int) (size : Int) (hnd : l.Nodup)
    (hr : ∀ x ∈ l, 0 ≤ x ∧ x < size) : l.length ≤ size.toNat := by
  have hsub : l ⊆ upFrom 0 size.toNat := by
    intro x hx
    have := hr x hx
    rw [mem_upFrom]
    omega
  have := (List.subperm_of_subset hnd hsub).length_le
  rwa [upFrom_length] at this

theorem slotIndex_range (n size key : Int) (hn : 1 ≤ n) (hs : 1 ≤ size) (hk0 : 0 ≤ key) :
    0 ≤ slotIndex n size key ∧ slotIndex n size key < size :=
  ⟨Int.tmod_nonneg _ (Int.tdiv_nonneg hk0 (by omega)), Int.tmod_lt_of_pos _ (by omega)⟩
theorem mapGet_of_mem_keys (m : List (Int × Int)) (k : Int) (h : k ∈ m.map Prod.fst) :
    ∃ v, mapGet m k = some v := by
  induction m with
  | nil => simp at h
  | cons p m ih =>
    by_cases hp : p.1 = k
    · exact ⟨p.2, by simp [mapGet, List.find?_cons, hp]⟩
    · have hk : k ∈ m.map Prod.fst := by
        simp only [List.map_cons, List.mem_cons] at h
        rcases h with h | h
        · exact absurd h.symm hp
        · exact h
      obtain ⟨v, hv⟩ := ih hk
      refine ⟨v, ?_⟩
      unfold mapGet at hv ⊢
      rw [List.find?_cons, show (p.1 == k) = false by simpa using hp]
      exact hv

theorem mapDelete_keys (m : List (Int × Int)) (k : Int) :
    (mapDelete m k).map Prod.fst = (m.map Prod.fst).filter (fun h => h != k) := by
  induction m with
  | nil => rfl
  | cons p m ih =>
    unfold mapDelete at ih ⊢
    by_cases hp : p.1 = k
    · simp [List.filter_cons, hp, ih]
    · simp [List.filter_cons, hp, ih]

theorem filter_ne_length (l : List Int) (k : Int) (hnd : l.Nodup) (hk : k ∈ l) :
    (l.filter (fun h => h != k)).length + 1 = l.length := by
  induction l with
  | nil => simp at hk
  | cons a l ih =>
    have hnd' := List.nodup_cons.mp hnd
    by_cases ha : a = k
    · subst ha
      have : l.filter (fun h => h != a) = l := by
        rw [List.filter_eq_self]
        intro x hx
        have : x ≠ a := fun h => hnd'.1 (h ▸ hx)
        simpa using this
      simp [List.filter_cons, this]
    · have hk' : k ∈ l := by
        rcases List.mem_cons.mp hk with h | h
        · exact absurd h.symm ha
        · exact h
      have := ih hnd'.2 hk'
      simp [List.filter_cons, ha, this]

theorem pair_request (size R n k : Int) (held q : List Int) (m : List (Int × Int)) (mask : Nat)
    (pick : Bool) (fuel : Nat)
    (hR : 0 ≤ R) (htot : size * R < 9223372036854775808) (hsize : 1 ≤ size) (h32 : size ≤ 32)
    (hn : 1 ≤ n) (hinv : PairInv size n held q m mask)
    (hk0 : 0 ≤ k) (hkmax : k < 9223372036854775808) (hfresh : k ∉ held)
    (hcf : ∀ h ∈ held, slotIndex n size h ≠ slotIndex n size k) :
    ∃ ind rest, q = ind :: rest ∧
      (chanPool (size * R) size R q m).RequestChunk Ctx.background pick k (fuel + 1) =
        (.buffer (slotWindow (size * R) R ind),
         chanPool (size * R) size R rest (m ++ [(k, ind)])) ∧
      (maskPool (size * R) size R n mask).RequestChunk Ctx.background k (fuel + 1) =
        (.buffer (slotWindow (size * R) R (slotIndex n size k)),
         maskPool (size * R) size R n (mask &&& not32 (shl32 1 (slotIndex n size k)))) ∧
      PairInv size n (held ++ [k]) rest (m ++ [(k, ind)])
        (mask &&& not32 (shl32 1 (slotIndex n size k))) := by
  obtain ⟨hs0, hs1⟩ := slotIndex_range n size k hn hsize hk0
  -- a free slot exists: the held keys and `k` occupy distinct slots
  have hslots : (slotIndex n size k :: held.map (slotIndex n size)).Nodup := by
    rw [List.nodup_cons]
    refine ⟨?_, hinv.slotsNodup⟩
    intro hmem
    obtain ⟨h, hh, he⟩ := List.mem_map.mp hmem
    exact hcf h hh he
  have hcount := list_length_le_of_range _ size hslots (by
    intro x hx
    rcases List.mem_cons.mp hx with h | h
    · rw [h]; exact ⟨hs0, hs1⟩
    · obtain ⟨y, hy, rfl⟩ := List.mem_map.mp h
      exact slotIndex_range n size y hn hsize (hinv.hrange y hy).1)
  simp only [List.length_cons, List.length_map] at hcount
  have hc := hinv.count
  obtain ⟨ind, rest, hq⟩ : ∃ ind rest, q = ind :: rest := by
    cases q with
    | nil => simp at hc; omega
    | cons a l => exact ⟨a, l, rfl⟩
  subst hq
  have hind := hinv.qrange ind (List.mem_cons_self _ _)
  have hin : (ind + 1) * R ≤ size * R := Int.mul_le_mul_of_nonneg_right (by omega) hR
  have hkeys : ∀ p ∈ m, p.1 ≠ k := by
    intro p hp h
    apply hfresh
    rw [← hinv.keys, ← h]
    exact List.mem_map_of_mem _ hp
  have hsnat : (slotIndex n size k).toNat < size.toNat := by omega
  have hbit : mask.testBit (slotIndex n size k).toNat = true := by
    rw [hinv.bits _ hsnat]
    intro h hh
    rw [Int.toNat_of_nonneg hs0]
    exact hcf h hh
  have hset : mask &&& shl32 1 (slotIndex n size k) ≠ 0 := by
    rw [shl32_one_lt hs0 (by omega)]
    intro h0
    rw [and_two_pow_eq_zero] at h0
    rw [h0] at hbit
    exact Bool.false_ne_true hbit
  refine ⟨ind, rest, rfl, ?_, ?_, ?_⟩
  · rw [RequestChunk, selectFrom_background_ready _ _ _ _ _ (by simp [chanPool, Chan.recvReady]),
      grant_chanPool _ _ _ _ _ _ _ hind.1 hR (by omega) hin htot, mapSet_fresh m k ind hkeys]
  · have hslotOf : (maskPool (size * R) size R n mask).slotOf k = .ok (slotIndex n size k) :=
      (slotOf_ok (maskPool (size * R) size R n mask) k hn hsize hk0 hkmax).1
    rw [DownloadBufferWithMask.RequestChunk, hslotOf]
    exact pollFrom_grant _ size _ n _ Ctx.background _ fuel 0 rfl hset hs0 hR (by omega)
      (Int.mul_le_mul_of_nonneg_right (by omega) hR) htot
  · refine ⟨by simp [hinv.keys], by simp at hc ⊢; omega, ?_, ?_, ?_, ?_, ?_, ?_⟩
    · exact fun x hx => hinv.qrange x (List.mem_cons_of_mem _ hx)
    · intro p hp
      rcases List.mem_append.mp hp with h | h
      · exact hinv.mrange p h
      · simp only [List.mem_singleton] at h
        subst h
        exact hind
    · intro h hh
      rcases List.mem_append.mp hh with h1 | h1
      · exact hinv.hrange h h1
      · simp only [List.mem_singleton] at h1
        subst h1
        exact ⟨hk0, hkmax⟩
    · rw [List.nodup_append]
      refine ⟨hinv.heldNodup, by simp, ?_⟩
      intro x hx hx2
      simp only [List.mem_singleton] at hx2
      exact hfresh (hx2 ▸ hx)
    · rw [List.map_append, List.nodup_append]
      refine ⟨hinv.slotsNodup, by simp, ?_⟩
      intro x hx hx2
      simp only [List.map_cons, List.map_nil, List.mem_singleton] at hx2
      obtain ⟨h, hh, he⟩ := List.mem_map.mp hx
      exact hcf h hh (he.trans hx2)
    · intro j hj
      rw [shl32_one_lt hs0 (by omega), Nat.testBit_and,
        not32_two_pow_testBit _ _ (by omega : (slotIndex n size k).toNat < 32)]
      have hj32 : j < 32 := by omega
      simp only [Bool.and_eq_true, hinv.bits j hj, decide_eq_true_eq, hj32, true_and,
        Bool.not_eq_true', decide_eq_false_iff_not, List.mem_append, List.mem_singleton]
      constructor
      · rintro ⟨h1, h2⟩ h hh
        rcases hh with hh | hh
        · exact h1 h hh
        · subst hh
          intro he
          apply h2
          omega
      · intro h
        refine ⟨fun x hx => h x (Or.inl hx), ?_⟩
        intro he
        apply h k (Or.inr rfl)
        omega
theorem pair_release (size R n k : Int) (held q : List Int) (m : List (Int × Int)) (mask : Nat)
    (hsize : 1 ≤ size) (h32 : size ≤ 32) (hn : 1 ≤ n) (hinv : PairInv size n held q m mask)
    (hk : k ∈ held) :
    ∃ ind,
      (chanPool (size * R) size R q m).ReleaseChunk k =
        (.done, chanPool (size * R) size R (q ++ [ind]) (mapDelete m k)) ∧
      (maskPool (size * R) size R n mask).ReleaseChunk k =
        (.done, maskPool (size * R) size R n (mask ||| shl32 1 (slotIndex n size k))) ∧
      PairInv size n (held.filter (fun h => h != k)) (q ++ [ind]) (mapDelete m k)
        (mask ||| shl32 1 (slotIndex n size k)) := by
  obtain ⟨hk0, hkmax⟩ := hinv.hrange k hk
  obtain ⟨hs0, hs1⟩ := slotIndex_range n size k hn hsize hk0
  obtain ⟨ind, hget⟩ := mapGet_of_mem_keys m k (by rw [hinv.keys]; exact hk)
  have hmem := mapGet_mem m k ind hget
  have hc := hinv.count
  have hheld : 1 ≤ held.length := List.length_pos_of_mem hk
  have hqlen : (q.length : Int) < size := by omega
  have hflen := filter_ne_length held k hinv.heldNodup hk
  have hsub : (held.filter (fun h => h != k)).Sublist held := List.filter_sublist held
  refine ⟨ind, ?_, ?_, ?_⟩
  · simp [ReleaseChunk, chanPool, hget, Chan.send, hqlen]
  · have hslotOf : (maskPool (size * R) size R n mask).slotOf k = .ok (slotIndex n size k) :=
      (slotOf_ok (maskPool (size * R) size R n mask) k hn hsize hk0 hkmax).1
    rw [DownloadBufferWithMask.ReleaseChunk, hslotOf]
    simp only [Int.not_lt.mpr hs0, if_false, maskPool, Bool.false_eq_true]
  · refine ⟨by rw [mapDelete_keys, hinv.keys], by simp; omega, ?_, ?_, ?_, ?_, ?_, ?_⟩
    · intro x hx
      rcases List.mem_append.mp hx with h | h
      · exact hinv.qrange x h
      · simp only [List.mem_singleton] at h
        subst h
        exact hinv.mrange _ hmem
    · exact fun p hp => hinv.mrange p (List.mem_filter.mp hp).1
    · exact fun h hh => hinv.hrange h (hsub.subset hh)
    · exact hsub.nodup hinv.heldNodup
    · exact (hsub.map _).nodup hinv.slotsNodup
    · intro j hj
      rw [shl32_one_lt hs0 (by omega), Nat.testBit_or, Nat.testBit_two_pow]
      simp only [Bool.or_eq_true, hinv.bits j hj, decide_eq_true_eq, List.mem_filter,
        bne_iff_ne, ne_eq]
      constructor
      · rintro (h1 | h1) h ⟨hh, hne⟩
        · exact h1 h hh
        · intro he
          apply hne
          have hslot : slotIndex n size h = slotIndex n size k := by omega
          have := List.inj_on_of_nodup_map hinv.slotsNodup hh hk hslot
          exact this
      · intro h
        by_cases hj2 : (slotIndex n size k).toNat = j
        · exact Or.inr hj2
        · left
          intro x hx
          by_cases hxk : x = k
          · subst hxk
            omega
          · exact h x ⟨hx, hxk⟩

theorem mem_of_nodup_range_full (l : List Int) (size x : Int) (hnd : l.Nodup)
    (hr : ∀ y ∈ l, 0 ≤ y ∧ y < size) (hlen : size.toNat ≤ l.length)
    (hx0 : 0 ≤ x) (hx : x < size) : x ∈ l := by
  have hsub : l ⊆ upFrom 0 size.toNat := by
    intro y hy
    have := hr y hy
    rw [mem_upFrom]
    omega
  have hperm := (List.subperm_of_subset hnd hsub).perm_of_length_le
    (by rw [upFrom_length]; exact hlen)
  rw [hperm.mem_iff, mem_upFrom]
  omega

theorem pair_request_full (size R n k : Int) (held q : List Int) (m : List (Int × Int))
    (mask : Nat) (pick : Bool) (fuel : Nat)
    (hsize : 1 ≤ size) (h32 : size ≤ 32) (hn : 1 ≤ n) (hinv : PairInv size n held q m mask)
    (hk0 : 0 ≤ k) (hkmax : k < 9223372036854775808) (hfull : ¬ held.length < size.toNat) :
    (chanPool (size * R) size R q m).RequestChunk Ctx.background pick k fuel =
      (.waiting, chanPool (size * R) size R q m) ∧
    (maskPool (size * R) size R n mask).RequestChunk Ctx.background k fuel =
      (.waiting, maskPool (size * R) size R n mask) := by
  have hc := hinv.count
  have hq : q = [] := by
    cases q with
    | nil => rfl
    | cons a l => simp at hc; omega
  subst hq
  obtain ⟨hs0, hs1⟩ := slotIndex_range n size k hn hsize hk0
  constructor
  · exact selectFrom_background_empty _ pick k fuel 0 (by simp [chanPool, Chan.recvReady])
  · have hslotOf : (maskPool (size * R) size R n mask).slotOf k = .ok (slotIndex n size k) :=
      (slotOf_ok (maskPool (size * R) size R n mask) k hn hsize hk0 hkmax).1
    have hmem : slotIndex n size k ∈ held.map (slotIndex n size) :=
      mem_of_nodup_range_full _ size _ hinv.slotsNodup (by
        intro y hy
        obtain ⟨h, hh, rfl⟩ := List.mem_map.mp hy
        exact slotIndex_range n size h hn hsize (hinv.hrange h hh).1)
        (by rw [List.length_map]; omega) hs0 hs1
    obtain ⟨h, hh, he⟩ := List.mem_map.mp hmem
    have hsnat : (slotIndex n size k).toNat < size.toNat := by omega
    have hbit : mask.testBit (slotIndex n size k).toNat = false := by
      cases hb : mask.testBit (slotIndex n size k).toNat with
      | false => rfl
      | true =>
        exfalso
        have := (hinv.bits _ hsnat).mp hb h hh
        rw [Int.toNat_of_nonneg hs0] at this
        exact this he
    rw [DownloadBufferWithMask.RequestChunk, hslotOf]
    exact pollFrom_background_clear _ _ fuel 0 hs0 rfl (by
      rw [shl32_one_lt hs0 (by omega)]
      exact (and_two_pow_eq_zero _ _).mpr hbit)

theorem pair_outcomes (size R n : Int) (pick : Bool) (fuel : Nat)
    (hR : 0 ≤ R) (htot : size * R < 9223372036854775808) (hsize : 1 ≤ size) (h32 : size ≤ 32)
    (hn : 1 ≤ n) (calls : List Call) (held q : List Int) (m : List (Int × Int)) (mask : Nat)
    (hinv : PairInv size n held q m mask) (hwf : wellFormed size.toNat held calls = true)
    (hcf : collisionFree n size size.toNat held calls = true) :
    ((chanPool (size * R) size R q m).outcomes pick (fuel + 1) calls).map Outcome.granted =
      (slotFree size.toNat held calls).map some ∧
    ((maskPool (size * R) size R n mask).outcomes (fuel + 1) calls).map Outcome.granted =
      (slotFree size.toNat held calls).map some := by
  induction calls generalizing held q m mask with
  | nil => simp [DownloadBufferWithChan.outcomes, DownloadBufferWithMask.outcomes, slotFree]
  | cons c cs ih =>
    cases c with
    | request k =>
      simp only [wellFormed, Bool.and_eq_true, decide_eq_true_eq, Bool.not_eq_true',
        List.contains_eq_any_beq, List.any_eq_false, beq_iff_eq] at hwf
      simp only [collisionFree, Bool.and_eq_true, Bool.or_eq_true, Bool.not_eq_true',
        decide_eq_false_iff_not, List.all_eq_true, bne_iff_ne, ne_eq] at hcf
      obtain ⟨⟨⟨hk0, hkmax⟩, hfresh⟩, hwf'⟩ := hwf
      obtain ⟨hcol, hcf'⟩ := hcf
      have hfresh' : k ∉ held := fun h => hfresh k h rfl
      by_cases hfree : held.length < size.toNat
      · have hcol' : ∀ h ∈ held, slotIndex n size h ≠ slotIndex n size k := by
          rcases hcol with hcol | hcol
          · exact absurd hfree hcol
          · exact hcol
        simp only [heldAfterRequest, if_pos hfree] at hwf' hcf'
        obtain ⟨ind, rest, hq, hc, hmk, hinv'⟩ := pair_request size R n k held q m mask pick fuel
          hR htot hsize h32 hn hinv hk0 hkmax hfresh' hcol'
        have := ih _ _ _ _ hinv' hwf' hcf'
        simp only [DownloadBufferWithChan.outcomes, DownloadBufferWithMask.outcomes, hc, hmk,
          List.map_cons, Outcome.granted, slotFree, heldAfterRequest, if_pos hfree, hfree,
          decide_True, if_true]
        exact ⟨by rw [this.1], by rw [this.2]⟩
      · simp only [heldAfterRequest, if_neg hfree] at hwf' hcf'
        obtain ⟨hc, hmk⟩ := pair_request_full size R n k held q m mask pick (fuel + 1)
          hsize h32 hn hinv hk0 hkmax hfree
        have := ih _ _ _ _ hinv hwf' hcf'
        simp only [DownloadBufferWithChan.outcomes, DownloadBufferWithMask.outcomes, hc, hmk,
          List.map_cons, Outcome.granted, slotFree, heldAfterRequest, if_neg hfree, hfree,
          decide_False, if_false]
        exact ⟨by rw [this.1], by rw [this.2]⟩
    | release k =>
      simp only [wellFormed, Bool.and_eq_true, List.contains_eq_any_beq, List.any_eq_true,
        beq_iff_eq] at hwf
      simp only [collisionFree] at hcf
      obtain ⟨⟨x, hx, hxk⟩, hwf'⟩ := hwf
      have hk : k ∈ held := hxk ▸ hx
      obtain ⟨ind, hc, hmk, hinv'⟩ := pair_release size R n k held q m mask hsize h32 hn hinv hk
      have := ih _ _ _ _ hinv' hwf' hcf
      simp only [DownloadBufferWithChan.outcomes, DownloadBufferWithMask.outcomes, hc, hmk,
        slotFree]
      exact this

theorem granted_isBuffer (os1 os2 : List Outcome)
    (h : os1.map Outcome.granted = os2.map Outcome.granted) :
    os1.map Outcome.isBuffer = os2.map Outcome.isBuffer := by
  have key : ∀ o : Outcome, o.isBuffer = (o.granted == some true) := by
    intro o; cases o <;> rfl
  have e : ∀ os : List Outcome,
      os.map Outcome.isBuffer = (os.map Outcome.granted).map (fun g => g == some true) := by
    intro os
    rw [List.map_map]
    exact List.map_congr_left (fun o _ => key o)
  rw [e os1, e os2, h]

/-- **C8, amended.** For every capacity `1 ≤ size ≤ 32` (constructor arguments
without overflow, both pools returned), every `numBlocks ≥ 1` set on the
bitmask pool and every well-formed sequence of calls in which no key is
requested, while a slot is free, when a held key maps to the same bitmask slot
`(key / numBlocks) % size`, the two pools agree at every `RequestChunk`: both
grant a buffer when fewer than `size` keys are held, and both keep the caller
waiting when `size` keys are held. -/
theorem pools_agree_without_collisions (rt : Runtime) (size numBlocks effectiveBlockSize n : Int)
    (calls : List Call) (pick : Bool) (fuel : Nat)
    (rc : DownloadBufferWithChan) (rm : DownloadBufferWithMask)
    (hfit : NoOverflow size numBlocks effectiveBlockSize) (hsize : 1 ≤ size) (h32 : size ≤ 32)
    (hn : 1 ≤ n) (hwf : wellFormed size.toNat [] calls = true)
    (hcf : collisionFree n size size.toNat [] calls = true)
    (hrc : NewDownloadBufferWithChan rt size numBlocks effectiveBlockSize = .ok rc)
    (hrm : NewDownloadBufferWithMask rt size numBlocks effectiveBlockSize = .ok rm) :
    (rc.outcomes pick (fuel + 1) calls).map Outcome.granted =
      (slotFree size.toNat [] calls).map some ∧
    ((rm.SetNumBlocks n).outcomes (fuel + 1) calls).map Outcome.granted =
      (slotFree size.toNat [] calls).map some ∧
    (rc.outcomes pick (fuel + 1) calls).map Outcome.isBuffer =
      ((rm.SetNumBlocks n).outcomes (fuel + 1) calls).map Outcome.isBuffer := by
  rw [NewDownloadBufferWithChan_eq rt size numBlocks effectiveBlockSize rc hfit hrc,
    NewDownloadBufferWithMask_eq rt size numBlocks effectiveBlockSize rm hfit hrm]
  obtain ⟨h1, h2, h3, h4, h5, h6, h7, h8⟩ := hfit
  have hR : 0 ≤ effectiveBlockSize * (numBlocks + 1) := Int.mul_nonneg h3 (by omega)
  have htot : size * (effectiveBlockSize * (numBlocks + 1)) < 9223372036854775808 := by
    rw [show size * (effectiveBlockSize * (numBlocks + 1)) =
      size * (numBlocks + 1) * effectiveBlockSize by ring]; exact h8
  have hinv : PairInv size n [] (upFrom 0 size.toNat) []
      ((shl32 1 size + 4294967295) % 4294967296) := by
    refine ⟨rfl, by simp [upFrom_length], ?_, by simp, by simp, by simp, by simp, ?_⟩
    · intro x hx
      rw [mem_upFrom] at hx
      omega
    · intro j hj
      rw [freshMask_eq size h1 h32, Nat.testBit_two_pow_sub_one]
      simp [hj]
  have h := pair_outcomes size (effectiveBlockSize * (numBlocks + 1)) n pick fuel hR htot hsize
    h32 hn calls [] _ [] _ hinv hwf hcf
  exact ⟨h.1, h.2, granted_isBuffer _ _ (h.1.trans h.2.symm)⟩

/-- Witness for C8: two slots; keys 0 and 1 acquire, key 2 (slot 0) has to wait
on both pools, key 0 releases, key 2 acquires. -/
theorem pools_agree_without_collisions_witness :
    ((chanPool 2 2 1 [0, 1] []).outcomes false (0 + 1)
        [.request 0, .request 1, .request 2, .release 0, .request 2]).map Outcome.granted =
      [some true, some true, some false, some true] ∧
    (((maskPool 2 2 1 0 3).SetNumBlocks 1).outcomes (0 + 1)
        [.request 0, .request 1, .request 2, .release 0, .request 2]).map Outcome.granted =
      [some true, some true, some false, some true] :=
  have h := pools_agree_without_collisions Runtime.amd64 2 0 1 1
    [.request 0, .request 1, .request 2, .release 0, .request 2] false 0
    (chanPool 2 2 1 [0, 1] []) (maskPool 2 2 1 0 3)
    (by decide) (by decide) (by decide) (by decide) (by decide) (by decide) (by decide)
    (by decide)
  ⟨h.1, h.2.1⟩

/-- **C10, counterexample.** With non-negative arguments whose product overflows
the 64-bit `int` the backing array is shorter than `size * reqSize`: two slots
of `2 * 2^62` bytes give an empty array and a negative `reqSize`, `2^32` slots
of `2^32` bytes give an empty array, and the window of slot 0 is out of range.
Without overflow, one slot of `2^62` bytes is more than the runtime allocates:
`make` panics and there is no backing array at all. -/
theorem pool_geometry_counterexample :
    NewDownloadBufferWithChan Runtime.amd64 2 4611686018427387903 2 =
      .ok (chanPool 0 2 (-9223372036854775808) [0, 1] []) ∧
    ((chanPool 0 2 (-9223372036854775808) [0, 1] []).RequestChunk Ctx.background false 0 1).1 =
      .fault .sliceBounds ∧
    NewDownloadBufferWithMask Runtime.amd64 4294967296 4294967295 1 =
      .ok (maskPool 0 4294967296 4294967296 0 4294967295) ∧
    (((maskPool 0 4294967296 4294967296 0 4294967295).SetNumBlocks 1).RequestChunk
        Ctx.background 0 1).1 = .fault .sliceBounds ∧
    NoOverflow 1 0 4611686018427387904 ∧
    NewDownloadBufferWithChan Runtime.amd64 1 0 4611686018427387904 = .panic .makeSliceLen ∧
    NewDownloadBufferWithMask Runtime.amd64 1 0 4611686018427387904 = .panic .makeSliceLen := by
  decide

/-- **C10, amended.** For both constructors with non-negative `size`, `numBlocks`
and `effectiveBlockSize` whose products do not overflow the 64-bit `int`: the
constructor returns a pool exactly when the runtime allocates what it asks for
(`size * (numBlocks + 1) * effectiveBlockSize` bytes and, for the queue-based
pool, a channel of capacity `size`), and panics otherwise.  The pool returned
has a backing array of length `size * reqSize` with `reqSize =
effectiveBlockSize * (numBlocks + 1)`; the buffer granted for a slot index
`0 ≤ ind < size` is the in-bounds range `[ind * reqSize, (ind + 1) * reqSize)`
of length `reqSize`, and the ranges of two different slot indices do not
overlap. -/
theorem pool_geometry (rt : Runtime) (size numBlocks effectiveBlockSize : Int)
    (h : NoOverflow size numBlocks effectiveBlockSize) :
    (Allocatable rt size numBlocks effectiveBlockSize →
      NewDownloadBufferWithChan rt size numBlocks effectiveBlockSize =
        .ok (chanPool (size * (effectiveBlockSize * (numBlocks + 1))) size
          (effectiveBlockSize * (numBlocks + 1)) (upFrom 0 size.toNat) [])) ∧
    (¬ Allocatable rt size numBlocks effectiveBlockSize →
      ∃ f, NewDownloadBufferWithChan rt size numBlocks effectiveBlockSize = .panic f) ∧
    (size * (numBlocks + 1) * effectiveBlockSize ≤ rt.maxSliceLen →
      NewDownloadBufferWithMask rt size numBlocks effectiveBlockSize =
        .ok (maskPool (size * (effectiveBlockSize * (numBlocks + 1))) size
          (effectiveBlockSize * (numBlocks + 1)) 0 ((shl32 1 size + 4294967295) % 4294967296))) ∧
    (¬ size * (numBlocks + 1) * effectiveBlockSize ≤ rt.maxSliceLen →
      NewDownloadBufferWithMask rt size numBlocks effectiveBlockSize = .panic .makeSliceLen) ∧
    (∀ rc, NewDownloadBufferWithChan rt size numBlocks effectiveBlockSize = .ok rc →
      rc.buf = ⟨false, 0, size * (effectiveBlockSize * (numBlocks + 1)),
        size * (effectiveBlockSize * (numBlocks + 1))⟩ ∧
      rc.reqSize = effectiveBlockSize * (numBlocks + 1) ∧ rc.length = size) ∧
    (∀ rm, NewDownloadBufferWithMask rt size numBlocks effectiveBlockSize = .ok rm →
      rm.buf = ⟨false, 0, size * (effectiveBlockSize * (numBlocks + 1)),
        size * (effectiveBlockSize * (numBlocks + 1))⟩ ∧
      rm.reqSize = effectiveBlockSize * (numBlocks + 1) ∧ rm.length = size) ∧
    ∀ ind : Int, 0 ≤ ind → ind < size →
      (∀ rest m num,
        ((chanPool (size * (effectiveBlockSize * (numBlocks + 1))) size
          (effectiveBlockSize * (numBlocks + 1)) (ind :: rest) m).grant num).1 =
        .buffer (slotWindow (size * (effectiveBlockSize * (numBlocks + 1)))
          (effectiveBlockSize * (numBlocks + 1)) ind)) ∧
      (∀ nbk mask ctx fuel t, ctx t = false → mask &&& shl32 1 ind ≠ 0 →
        ((maskPool (size * (effectiveBlockSize * (numBlocks + 1))) size
          (effectiveBlockSize * (numBlocks + 1)) nbk mask).pollFrom ctx ind (fuel + 1) t).1 =
        .buffer (slotWindow (size * (effectiveBlockSize * (numBlocks + 1)))
          (effectiveBlockSize * (numBlocks + 1)) ind)) ∧
      0 ≤ ind * (effectiveBlockSize * (numBlocks + 1)) ∧
      (ind + 1) * (effectiveBlockSize * (numBlocks + 1)) ≤
        size * (effectiveBlockSize * (numBlocks + 1)) ∧
      (slotWindow (size * (effectiveBlockSize * (numBlocks + 1)))
        (effectiveBlockSize * (numBlocks + 1)) ind).len = effectiveBlockSize * (numBlocks + 1) ∧
      ∀ ind2 : Int, ind < ind2 →
        (slotWindow (size * (effectiveBlockSize * (numBlocks + 1)))
            (effectiveBlockSize * (numBlocks + 1)) ind).off +
          (slotWindow (size * (effectiveBlockSize * (numBlocks + 1)))
            (effectiveBlockSize * (numBlocks + 1)) ind).len ≤
        (slotWindow (size * (effectiveBlockSize * (numBlocks + 1)))
          (effectiveBlockSize * (numBlocks + 1)) ind2).off := by
  refine ⟨NewDownloadBufferWithChan_ok rt _ _ _ h, ?_, NewDownloadBufferWithMask_ok rt _ _ _ h,
    ?_, ?_, ?_, ?_⟩
  · intro hna
    rw [NewDownloadBufferWithChan_cases rt _ _ _ h]
    unfold Allocatable at hna
    by_cases hb : size * (numBlocks + 1) * effectiveBlockSize ≤ rt.maxSliceLen
    · rw [if_pos hb, if_neg (fun hc => hna ⟨hb, hc⟩)]
      exact ⟨_, rfl⟩
    · rw [if_neg hb]
      exact ⟨_, rfl⟩
  · intro hna
    rw [NewDownloadBufferWithMask_cases rt _ _ _ h, if_neg hna]
  · intro rc hrc
    rw [NewDownloadBufferWithChan_eq rt _ _ _ rc h hrc]
    exact ⟨rfl, rfl, rfl⟩
  · intro rm hrm
    rw [NewDownloadBufferWithMask_eq rt _ _ _ rm h hrm]
    exact ⟨rfl, rfl, rfl⟩
  obtain ⟨h1, h2, h3, h4, h5, h6, h7, h8⟩ := h
  have hR : 0 ≤ effectiveBlockSize * (numBlocks + 1) := Int.mul_nonneg h3 (by omega)
  have htot : size * (effectiveBlockSize * (numBlocks + 1)) < 9223372036854775808 := by
    rw [show size * (effectiveBlockSize * (numBlocks + 1)) =
      size * (numBlocks + 1) * effectiveBlockSize by ring]; exact h8
  intro ind hind hlt
  have hin : (ind + 1) * (effectiveBlockSize * (numBlocks + 1)) ≤
      size * (effectiveBlockSize * (numBlocks + 1)) :=
    Int.mul_le_mul_of_nonneg_right (by omega) hR
  refine ⟨?_, ?_, Int.mul_nonneg hind hR, hin, rfl, ?_⟩
  · intro rest m num
    rw [grant_chanPool _ _ _ _ _ _ _ hind hR (by omega) hin htot]
  · intro nbk mask ctx fuel t hctx hset
    rw [pollFrom_grant _ _ _ _ _ _ _ _ _ hctx hset hind hR (by omega) hin htot]
  · intro ind2 h12
    simp only [slotWindow]
    have : (ind + 1) * (effectiveBlockSize * (numBlocks + 1)) ≤
        ind2 * (effectiveBlockSize * (numBlocks + 1)) :=
      Int.mul_le_mul_of_nonneg_right (by omega) hR
    linarith

/-- Witness for C10: two slots of `5 * (3 + 1)` bytes on linux/amd64; the pool is
returned and the slots 0 and 1 do not overlap. -/
theorem pool_geometry_witness :
    NoOverflow 2 3 5 ∧
    NewDownloadBufferWithMask Runtime.amd64 2 3 5 =
      .ok (maskPool (2 * (5 * (3 + 1))) 2 (5 * (3 + 1)) 0
        ((shl32 1 2 + 4294967295) % 4294967296)) ∧
    (slotWindow (2 * (5 * (3 + 1))) (5 * (3 + 1)) 0).off +
        (slotWindow (2 * (5 * (3 + 1))) (5 * (3 + 1)) 0).len ≤
      (slotWindow (2 * (5 * (3 + 1))) (5 * (3 + 1)) 1).off :=
  ⟨by decide, (pool_geometry Runtime.amd64 2 3 5 (by decide)).2.2.1 (by decide),
    ((pool_geometry Runtime.amd64 2 3 5 (by decide)).2.2.2.2.2.2 0 (by decide)
      (by decide)).2.2.2.2.2 1 (by decide)⟩

theorem mapGet_mapSet_self (m : List (Int × Int)) (k v : Int) : mapGet (mapSet m k v) k = some v := by
  unfold mapSet
  split
  · rename_i h
    induction m with
    | nil => simp at h
    | cons p m ih =>
      by_cases hp : p.1 = k
      · simp [mapGet, List.find?_cons, hp]
      · have hany : m.any (fun p => p.1 == k) = true := by
          simpa [List.any_cons, hp] using h
        have := ih hany
        unfold mapGet at this ⊢
        rw [List.map_cons, List.find?_cons]
        have hb : ((if (p.1 == k) = true then (k, v) else p).1 == k) = false := by
          rw [if_neg (by simpa using hp)]; simpa using hp
        rw [hb]
        exact this
  · rename_i h
    have hnone : m.find? (fun p => p.1 == k) = none := by
      rw [List.find?_eq_none]
      intro p hp hpk
      apply h
      rw [List.any_eq_true]
      exact ⟨p, hp, hpk⟩
    simp [mapGet, List.find?_append, hnone]

theorem mapSet_length_le (m : List (Int × Int)) (k v : Int) :
    (mapSet m k v).length ≤ m.length + 1 := by
  unfold mapSet
  split <;> simp

theorem mapDelete_length_lt (m : List (Int × Int)) (k v : Int) (h : mapGet m k = some v) :
    (mapDelete m k).length < m.length := by
  have hmem := mapGet_mem m k v h
  unfold mapDelete
  induction m with
  | nil => simp at hmem
  | cons p m ih =>
    by_cases hp : p.1 = k
    · have := List.length_filter_le (fun p => !(p.1 == k)) m
      simp only [List.filter_cons, hp, beq_self_eq_true, Bool.not_true, Bool.false_eq_true,
        if_false, List.length_cons]
      omega
    · have hmem' : (k, v) ∈ m := by
        rcases List.mem_cons.mp hmem with h1 | h1
        · exact absurd (congrArg Prod.fst h1).symm hp
        · exact h1
      have hget : mapGet m k = some v := by
        unfold mapGet at h ⊢
        rwa [List.find?_cons, show (p.1 == k) = false by simpa using hp] at h
      have := ih hget hmem'
      simp only [List.filter_cons, show (!(p.1 == k)) = true by simpa using hp, if_true,
        List.length_cons]
      omega
theorem chanPool_request_cases (size R : Int) (q : List Int) (m : List (Int × Int)) (ctx : Ctx)
    (pick : Bool) (num : Int) (fuel t : Nat)
    (hR : 0 ≤ R) (htot : size * R < 9223372036854775808) (hsz : size < 9223372036854775808)
    (hq : ∀ x ∈ q, 0 ≤ x ∧ x < size) :
    ((chanPool (size * R) size R q m).selectFrom ctx pick num fuel t =
        (.cancelled, chanPool (size * R) size R q m) ∨
      (chanPool (size * R) size R q m).selectFrom ctx pick num fuel t =
        (.waiting, chanPool (size * R) size R q m)) ∨
    ∃ ind rest, q = ind :: rest ∧
      (chanPool (size * R) size R q m).selectFrom ctx pick num fuel t =
        (.buffer (slotWindow (size * R) R ind),
         chanPool (size * R) size R rest (mapSet m num ind)) := by
  induction fuel generalizing t with
  | zero => exact Or.inl (Or.inr rfl)
  | succ n ih =>
    unfold selectFrom
    split
    · exact Or.inl (Or.inl rfl)
    · split
      · rename_i hready
        cases q with
        | nil => simp [chanPool, Chan.recvReady] at hready
        | cons ind rest =>
          have hind := hq ind (List.mem_cons_self _ _)
          right
          refine ⟨ind, rest, rfl, ?_⟩
          exact grant_chanPool _ _ _ _ _ _ _ hind.1 hR (by omega)
            (Int.mul_le_mul_of_nonneg_right (by omega) hR) htot
      · exact ih (t + 1)

theorem fifo_run (size R : Int) (hR : 0 ≤ R) (htot : size * R < 9223372036854775808)
    (hsz : size < 9223372036854775808)
    (calls : List ChanCall) (q : List Int) (m : List (Int × Int))
    (hcount : q.length + m.length ≤ size.toNat) (hq : ∀ x ∈ q, 0 ≤ x ∧ x < size)
    (hm : ∀ p ∈ m, 0 ≤ p.2 ∧ p.2 < size) :
    ∃ q1 m1, (chanPool (size * R) size R q m).runCalls calls = chanPool (size * R) size R q1 m1 ∧
      (∀ x ∈ q1, 0 ≤ x ∧ x < size) ∧
      (chanPool (size * R) size R q m).grants calls ++ q1 =
        q ++ (chanPool (size * R) size R q m).releases calls ∧
      q1.length + m1.length ≤ size.toNat ∧ (∀ p ∈ m1, 0 ≤ p.2 ∧ p.2 < size) := by
  induction calls generalizing q m with
  | nil => exact ⟨q, m, rfl, hq, by simp [grants, releases], hcount, hm⟩
  | cons c cs ih =>
    cases c with
    | request ctx pick num fuel =>
      have hrel : (chanPool (size * R) size R q m).releasedBy (.request ctx pick num fuel) = [] :=
        rfl
      rcases chanPool_request_cases size R q m ctx pick num fuel 0 hR htot hsz hq with
        (h | h) | ⟨ind, rest, hqe, h⟩
      · obtain ⟨q1, m1, h1, h2, h3, h4, h5⟩ := ih q m hcount hq hm
        have hp : (chanPool (size * R) size R q m).perform (.request ctx pick num fuel) =
            chanPool (size * R) size R q m := by
          simp only [perform, RequestChunk, h]
        have hg : (chanPool (size * R) size R q m).grantedBy (.request ctx pick num fuel) = [] := by
          simp only [grantedBy, RequestChunk, h]
        refine ⟨q1, m1, ?_, h2, ?_, h4, h5⟩
        · rw [runCalls, List.foldl_cons, hp]; exact h1
        · rw [grants, releases, hp, hg, hrel]; simpa using h3
      · obtain ⟨q1, m1, h1, h2, h3, h4, h5⟩ := ih q m hcount hq hm
        have hp : (chanPool (size * R) size R q m).perform (.request ctx pick num fuel) =
            chanPool (size * R) size R q m := by
          simp only [perform, RequestChunk, h]
        have hg : (chanPool (size * R) size R q m).grantedBy (.request ctx pick num fuel) = [] := by
          simp only [grantedBy, RequestChunk, h]
        refine ⟨q1, m1, ?_, h2, ?_, h4, h5⟩
        · rw [runCalls, List.foldl_cons, hp]; exact h1
        · rw [grants, releases, hp, hg, hrel]; simpa using h3
      · subst hqe
        have hind := hq ind (List.mem_cons_self _ _)
        have hlen := mapSet_length_le m num ind
        obtain ⟨q1, m1, h1, h2, h3, h4, h5⟩ := ih rest (mapSet m num ind)
          (by simp only [List.length_cons] at hcount; omega)
          (fun x hx => hq x (List.mem_cons_of_mem _ hx))
          (by
            intro p hp
            have : p.2 = ind ∨ p.2 ∈ m.map Prod.snd :=
              mapSet_vals_mem m num ind p.2 (List.mem_map_of_mem _ hp)
            rcases this with h4 | h4
            · rw [h4]; exact hind
            · obtain ⟨p0, hp0, he⟩ := List.mem_map.mp h4
              rw [← he]; exact hm p0 hp0)
        have hp : (chanPool (size * R) size R (ind :: rest) m).perform
            (.request ctx pick num fuel) =
            chanPool (size * R) size R rest (mapSet m num ind) := by
          simp only [perform, RequestChunk, h]
        have hg : (chanPool (size * R) size R (ind :: rest) m).grantedBy
            (.request ctx pick num fuel) = [ind] := by
          simp only [grantedBy, RequestChunk, h]
          simp [chanPool, mapGet_mapSet_self]
        refine ⟨q1, m1, ?_, h2, ?_, h4, h5⟩
        · rw [runCalls, List.foldl_cons, hp]; exact h1
        · rw [grants, releases, hp, hg, hrel]; simpa using h3
    | release num =>
      have hgr : (chanPool (size * R) size R q m).grantedBy (.release num) = [] := rfl
      cases hget : mapGet m num with
      | none =>
        have hp : (chanPool (size * R) size R q m).perform (.release num) =
            chanPool (size * R) size R q m := by
          simp [perform, ReleaseChunk, chanPool, hget]
        have hrl : (chanPool (size * R) size R q m).releasedBy (.release num) = [] := by
          simp [releasedBy, ReleaseChunk, chanPool, hget]
        obtain ⟨q1, m1, h1, h2, h3, h4, h5⟩ := ih q m hcount hq hm
        refine ⟨q1, m1, ?_, h2, ?_, h4, h5⟩
        · rw [runCalls, List.foldl_cons, hp]; exact h1
        · rw [grants, releases, hp, hgr, hrl]; simpa using h3
      | some ind =>
        have hmem := mapGet_mem m num ind hget
        have hmlen : 1 ≤ m.length := List.length_pos_of_mem hmem
        have hqlen : (q.length : Int) < size := by omega
        have hdel := mapDelete_length_lt m num ind hget
        have hrc : (chanPool (size * R) size R q m).ReleaseChunk num =
            (.done, chanPool (size * R) size R (q ++ [ind]) (mapDelete m num)) := by
          simp [ReleaseChunk, chanPool, hget, Chan.send, hqlen]
        have hp : (chanPool (size * R) size R q m).perform (.release num) =
            chanPool (size * R) size R (q ++ [ind]) (mapDelete m num) := by
          simp only [perform, hrc]
        have hrl : (chanPool (size * R) size R q m).releasedBy (.release num) = [ind] := by
          simp only [releasedBy, hrc]
          simp [chanPool, hget]
        obtain ⟨q1, m1, h1, h2, h3, h4, h5⟩ := ih (q ++ [ind]) (mapDelete m num)
          (by simp only [List.length_append, List.length_singleton]; omega)
          (by
            intro x hx
            rcases List.mem_append.mp hx with h4 | h4
            · exact hq x h4
            · simp only [List.mem_singleton] at h4
              subst h4
              exact hm _ hmem)
          (fun p hp => hm p (List.mem_filter.mp hp).1)
        refine ⟨q1, m1, ?_, h2, ?_, h4, h5⟩
        · rw [runCalls, List.foldl_cons, hp]; exact h1
        · rw [grants, releases, hp, hgr, hrl]; simpa using h3
theorem chanPool_request_ready (size R : Int) (ind : Int) (rest : List Int)
    (m : List (Int × Int)) (ctx : Ctx) (pick : Bool) (num : Int) (fuel : Nat)
    (hR : 0 ≤ R) (htot : size * R < 9223372036854775808) (hsz : size < 9223372036854775808)
    (hind : 0 ≤ ind ∧ ind < size) (hctx : (ctx 0 && pick) = false) :
    (chanPool (size * R) size R (ind :: rest) m).RequestChunk ctx pick num (fuel + 1) =
      (.buffer (slotWindow (size * R) R ind),
       chanPool (size * R) size R rest (mapSet m num ind)) := by
  have hready : (chanPool (size * R) size R (ind :: rest) m).ch.recvReady = true := by
    simp [chanPool, Chan.recvReady]
  have hc : (ctx 0 && (pick || !(chanPool (size * R) size R (ind :: rest) m).ch.recvReady)) =
      false := by
    rw [hready]; simpa using hctx
  rw [RequestChunk, selectFrom, if_neg (by rw [hc]; decide), if_pos hready]
  exact grant_chanPool _ _ _ _ _ _ _ hind.1 hR (by omega)
    (Int.mul_le_mul_of_nonneg_right (by omega) hR) htot

theorem take_upFrom (i : Int) (n k : Nat) (h : k ≤ n) : (upFrom i n).take k = upFrom i k := by
  induction k generalizing i n with
  | zero => simp [upFrom]
  | succ k ih =>
    obtain ⟨n, rfl⟩ : ∃ n', n = n' + 1 := ⟨n - 1, by omega⟩
    simp only [upFrom, List.take_succ_cons]
    rw [ih (i + 1) n (by omega)]

theorem grants_requests (size R : Int) (hR : 0 ≤ R) (htot : size * R < 9223372036854775808)
    (hsz : size < 9223372036854775808) (pick : Bool) (fuel : Nat) (keys : List Int)
    (q : List Int) (m : List (Int × Int)) (hq : ∀ x ∈ q, 0 ≤ x ∧ x < size)
    (hlen : keys.length ≤ q.length) :
    (chanPool (size * R) size R q m).grants
        (keys.map (fun k => ChanCall.request Ctx.background pick k (fuel + 1))) =
      q.take keys.length := by
  induction keys generalizing q m with
  | nil => simp [grants]
  | cons k ks ih =>
    obtain ⟨ind, rest, rfl⟩ : ∃ ind rest, q = ind :: rest := by
      cases q with
      | nil => simp at hlen
      | cons a l => exact ⟨a, l, rfl⟩
    have hstep := chanPool_request_ready size R ind rest m Ctx.background pick k fuel hR htot hsz
      (hq ind (List.mem_cons_self _ _)) (by simp [Ctx.background])
    have hp : (chanPool (size * R) size R (ind :: rest) m).perform
        (.request Ctx.background pick k (fuel + 1)) =
        chanPool (size * R) size R rest (mapSet m k ind) := by
      simp only [perform, hstep]
    have hg : (chanPool (size * R) size R (ind :: rest) m).grantedBy
        (.request Ctx.background pick k (fuel + 1)) = [ind] := by
      simp only [grantedBy, hstep]
      simp [chanPool, mapGet_mapSet_self]
    simp only [List.map_cons, grants, hp, hg, List.length_cons, List.take_succ_cons,
      List.singleton_append]
    rw [ih rest (mapSet m k ind) (fun x hx => hq x (List.mem_cons_of_mem _ hx))
      (by simpa using hlen)]

/-- **C11, counterexample.** On the pool `NewDownloadBufferWithChan(2, 2^62 - 1,
2)` returns, whose sizes have overflowed, the first `RequestChunk` takes slot 0
from the queue and panics on the slice expression: the fresh pool grants no
slot, and slot 0 is lost to later callers. -/
theorem chan_fifo_order_counterexample :
    NewDownloadBufferWithChan Runtime.amd64 2 4611686018427387903 2 =
      .ok (chanPool 0 2 (-9223372036854775808) [0, 1] []) ∧
    (chanPool 0 2 (-9223372036854775808) [0, 1] []).RequestChunk Ctx.background false 7 1 =
      (.fault .sliceBounds, chanPool 0 2 (-9223372036854775808) [1] [(7, 0)]) ∧
    (chanPool 0 2 (-9223372036854775808) [0, 1] []).grants
      [.request Ctx.background false 7 1, .request Ctx.background false 9 1] = [] := by
  decide

/-- **C11, amended.** The queue-based pool is first-in first-out.  On the pool
returned by `NewDownloadBufferWithChan` for arguments that are non-negative and
do not overflow: a fresh pool asked up to `size` times under a context that is
never cancelled grants the slots `0, 1, 2, ...` in that order.  After any
sequence of calls: the slots granted so far followed by the slots in the free
queue are `0, 1, ..., size-1` followed by the slots released so far, each in
order of occurrence; a `RequestChunk` made when the free queue is not empty
and the `select` does not take the cancellation arm returns the window of the
slot at the head of the queue, removes it from the queue and records it for
its key; no `RequestChunk` returns any other buffer; and a `ReleaseChunk` of a
held key puts the slot of that key at the tail of the queue. -/
theorem chan_fifo_order (rt : Runtime) (size numBlocks effectiveBlockSize : Int)
    (r0 : DownloadBufferWithChan) (calls : List ChanCall)
    (hfit : NoOverflow size numBlocks effectiveBlockSize)
    (hnew : NewDownloadBufferWithChan rt size numBlocks effectiveBlockSize = .ok r0) :
    (∀ (keys : List Int) (pick : Bool) (fuel : Nat), keys.length ≤ size.toNat →
      r0.grants (keys.map (fun k => ChanCall.request Ctx.background pick k (fuel + 1))) =
        upFrom 0 keys.length) ∧
    r0.grants calls ++ (r0.runCalls calls).ch.queue =
      upFrom 0 size.toNat ++ r0.releases calls ∧
    (∀ ctx pick num fuel ind rest, (r0.runCalls calls).ch.queue = ind :: rest →
      (ctx 0 && pick) = false →
      ((r0.runCalls calls).RequestChunk ctx pick num (fuel + 1)).1 =
        .buffer (slotWindow (size * (effectiveBlockSize * (numBlocks + 1)))
          (effectiveBlockSize * (numBlocks + 1)) ind) ∧
      ((r0.runCalls calls).RequestChunk ctx pick num (fuel + 1)).2.ch.queue = rest ∧
      (r0.runCalls calls).grantedBy (.request ctx pick num (fuel + 1)) = [ind]) ∧
    (∀ ctx pick num fuel,
      ((r0.runCalls calls).RequestChunk ctx pick num fuel = (.cancelled, r0.runCalls calls) ∨
        (r0.runCalls calls).RequestChunk ctx pick num fuel = (.waiting, r0.runCalls calls)) ∨
      ∃ ind rest, (r0.runCalls calls).ch.queue = ind :: rest ∧
        ((r0.runCalls calls).RequestChunk ctx pick num fuel).1 =
          .buffer (slotWindow (size * (effectiveBlockSize * (numBlocks + 1)))
            (effectiveBlockSize * (numBlocks + 1)) ind) ∧
        ((r0.runCalls calls).RequestChunk ctx pick num fuel).2.ch.queue = rest) ∧
    (∀ num m ind, (r0.runCalls calls).mp = some m → mapGet m num = some ind →
      ((r0.runCalls calls).ReleaseChunk num).1 = .done ∧
      ((r0.runCalls calls).ReleaseChunk num).2.ch.queue =
        (r0.runCalls calls).ch.queue ++ [ind] ∧
      (r0.runCalls calls).releasedBy (.release num) = [ind]) := by
  rw [NewDownloadBufferWithChan_eq rt size numBlocks effectiveBlockSize r0 hfit hnew]
  obtain ⟨h1, h2, h3, h4, h5, h6, h7, h8⟩ := hfit
  have hR : 0 ≤ effectiveBlockSize * (numBlocks + 1) := Int.mul_nonneg h3 (by omega)
  have htot : size * (effectiveBlockSize * (numBlocks + 1)) < 9223372036854775808 := by
    rw [show size * (effectiveBlockSize * (numBlocks + 1)) =
      size * (numBlocks + 1) * effectiveBlockSize by ring]; exact h8
  have hq0 : ∀ x ∈ upFrom 0 size.toNat, 0 ≤ x ∧ x < size := by
    intro x hx; rw [mem_upFrom] at hx; omega
  obtain ⟨q1, m1, hrun, hq1, htrace, hcount, hm1⟩ :=
    fifo_run size (effectiveBlockSize * (numBlocks + 1)) hR htot h4 calls (upFrom 0 size.toNat)
      [] (by simp [upFrom_length]) hq0 (by simp)
  rw [hrun]
  refine ⟨?_, htrace, ?_, ?_, ?_⟩
  · intro keys pick fuel hlen
    rw [grants_requests size _ hR htot h4 pick fuel keys _ [] hq0
      (by rw [upFrom_length]; exact hlen), take_upFrom 0 _ _ hlen]
  · intro ctx pick num fuel ind rest hqe hctx
    have hqe' : q1 = ind :: rest := hqe
    subst hqe'
    have hstep := chanPool_request_ready size _ ind rest m1 ctx pick num fuel hR htot h4
      (hq1 ind (List.mem_cons_self _ _)) hctx
    refine ⟨by rw [hstep], by rw [hstep]; rfl, ?_⟩
    simp only [grantedBy, hstep]
    simp [chanPool, mapGet_mapSet_self]
  · intro ctx pick num fuel
    rcases chanPool_request_cases size _ q1 m1 ctx pick num fuel 0 hR htot h4 hq1 with
      h | ⟨ind, rest, hqe, h⟩
    · exact Or.inl h
    · right
      refine ⟨ind, rest, by rw [hqe]; rfl, ?_, ?_⟩
      · rw [RequestChunk, h]
      · rw [RequestChunk, h]; rfl
  · intro num m ind hmp hget
    have hm : m = m1 := by
      simp only [chanPool, Option.some.injEq] at hmp
      exact hmp.symm
    subst hm
    have hmem := mapGet_mem m num ind hget
    have hmlen : 1 ≤ m.length := List.length_pos_of_mem hmem
    have hqlen : (q1.length : Int) < size := by omega
    have hrc : (chanPool (size * (effectiveBlockSize * (numBlocks + 1))) size
        (effectiveBlockSize * (numBlocks + 1)) q1 m).ReleaseChunk num =
        (.done, chanPool (size * (effectiveBlockSize * (numBlocks + 1))) size
          (effectiveBlockSize * (numBlocks + 1)) (q1 ++ [ind]) (mapDelete m num)) := by
      simp [ReleaseChunk, chanPool, hget, Chan.send, hqlen]
    refine ⟨by rw [hrc], by rw [hrc]; rfl, ?_⟩
    simp only [releasedBy, hrc]
    simp [chanPool, hget]

/-- Witness for C11: two slots on linux/amd64; keys 7 and 9 acquire, 9 then 7
release; the fresh pool granted 0 then 1, and the next caller is granted slot
1, the first that was released. -/
theorem chan_fifo_order_witness :
    (chanPool 40 2 20 [0, 1] []).grants
        ([7, 9].map (fun k => ChanCall.request Ctx.background false k (0 + 1))) = upFrom 0 2 ∧
    (((chanPool 40 2 20 [0, 1] []).runCalls [.request Ctx.background false 7 1,
        .request Ctx.background false 9 1, .release 9, .release 7]).RequestChunk
          Ctx.background false 1 (0 + 1)).1 =
      .buffer (slotWindow (2 * (5 * (3 + 1))) (5 * (3 + 1)) 1) :=
  have h := chan_fifo_order Runtime.amd64 2 3 5 (chanPool 40 2 20 [0, 1] [])
    [.request Ctx.background false 7 1, .request Ctx.background false 9 1, .release 9,
      .release 7] (by decide) (by decide)
  ⟨h.1 [7, 9] false 0 (by decide), (h.2.2.1 Ctx.background false 1 0 1 [0] (by decide) rfl).1⟩

/-- A concrete run of the first-in first-out order: slots 0, 1, then 1, 0 as released. -/
theorem chan_fifo_example :
    (chanPool 40 2 20 [0, 1] []).grants [.request Ctx.background false 7 1,
      .request Ctx.background false 9 1, .release 9, .release 7,
      .request Ctx.background false 1 1, .request Ctx.background false 2 1] = [0, 1, 1, 0] := by
  decide

/-- **C12, evaluated at the failing input.** Session with client-side encryption,
first chunk `[1, 2, 3]`, the blobber answers 200 and echoes the checksum
`wrong`: the callback reports the mismatch, no `CalculateHash` happens, yet
the `EncryptedKey` of the file reference has changed from empty to `KEY`
(written before the request was sent). -/
theorem upload_mismatch_writes_encrypted_key :
    (processUpload demoDeps (demoUpload 200 "wrong") (demoWorld true []) 0 [1, 2, 3] []
        false).2.uploads.map (fun r =>
          (uploadCallback demoDeps "http://b1" r.uploadMeta (.response 200 none "wrong")).1) =
      [some "http://b1 Unexpected upload response data file.txt 0306 wrong"] ∧
    (demoWorld true []).sb.fileRef.EncryptedKey = "" ∧
    (processUpload demoDeps (demoUpload 200 "wrong") (demoWorld true []) 0 [1, 2, 3] []
      false).2.sb.fileRef.EncryptedKey = "KEY" ∧
    (processUpload demoDeps (demoUpload 200 "wrong") (demoWorld true []) 0 [1, 2, 3] []
      false).2.sb.fileRef ≠ (demoWorld true []).sb.fileRef ∧
    (processUpload demoDeps (demoUpload 200 "wrong") (demoWorld false []) 0 [1, 2, 3] []
      false).2.sb.fileRef = (demoWorld false []).sb.fileRef := by
  decide

/-- **C13, evaluated at the failing input.** Final chunk `[1, 2, 3]` with a
thumbnail, the blobber answers 500: the callback returns the nil `err` of the
body read, so the thumbnail fields and the finalization fields of the file
reference are written and `CalculateHash` is called once, while `su.Done()` is
not called. -/
theorem upload_status_not_ok_finalizes :
    uploadCallback demoDeps "http://b1"
        (hashStage demoDeps (demoSession false) ⟨[], []⟩ 2 [1, 2, 3] true).1
        (.response 500 none "oops") = (none, false) ∧
    (processUpload demoDeps (demoUpload 500 "oops") (demoWorld false []) 2 [1, 2, 3] [9]
      true).2.sb.fileRef =
      { Hash := "id:/dir/file.txt:141312", Path := "/dir/file.txt", Size := 141312,
        ChunkSize := 65536, ActualFileHash := "actualhash", ActualFileSize := 141312,
        EncryptedKey := "", MerkleRoot := "challenge/1", ContentHash := "content/1",
        ThumbnailSize := 1, ThumbnailHash := "0109", ActualThumbnailSize := 0,
        ActualThumbnailHash := "" } ∧
    (processUpload demoDeps (demoUpload 500 "oops") (demoWorld false []) 2 [1, 2, 3] [9]
      true).2.hashCalls = 1 ∧
    (processUpload demoDeps (demoUpload 500 "oops") (demoWorld false []) 2 [1, 2, 3] [9]
      true).2.su.done = 0 := by
  decide

/-- **C14.** `processUpload` with zero-length chunk bytes and `isFinal = false`
sends no request, feeds neither hasher, leaves the file reference unchanged and
does not call `CalculateHash`: apart from the deferred `wg.Done()` the world is
what it was. -/
theorem upload_empty_nonfinal_noop (deps : Deps) (env : UploadEnv) (w : World)
    (chunkIndex : Int) (fileBytes thumbnailBytes : List Nat) (hlen : fileBytes.length = 0) :
    processUpload deps env w chunkIndex fileBytes thumbnailBytes false =
        (.returned none, { w with wgDone := w.wgDone + 1 }) ∧
    (processUpload deps env w chunkIndex fileBytes thumbnailBytes false).2.uploads = w.uploads ∧
    (processUpload deps env w chunkIndex fileBytes thumbnailBytes false).2.sb.progress =
      w.sb.progress ∧
    (processUpload deps env w chunkIndex fileBytes thumbnailBytes false).2.sb.fileRef =
      w.sb.fileRef ∧
    (processUpload deps env w chunkIndex fileBytes thumbnailBytes false).2.hashCalls =
      w.hashCalls := by
  have h : processUpload deps env w chunkIndex fileBytes thumbnailBytes false =
      (.returned none, { w with wgDone := w.wgDone + 1 }) := by
    simp [processUpload, hlen, emptyChunk]
  rw [h]
  exact ⟨rfl, rfl, rfl, rfl, rfl⟩

/-- Witness for C14: an empty non-final chunk on a session with encryption. -/
theorem upload_empty_nonfinal_noop_witness :
    processUpload demoDeps (demoUpload 200 "x") (demoWorld true []) 3 [] [7] false =
        (.returned none, { demoWorld true [] with wgDone := (demoWorld true []).wgDone + 1 }) ∧
    (processUpload demoDeps (demoUpload 200 "x") (demoWorld true []) 3 [] [7] false).2.uploads =
      (demoWorld true []).uploads ∧
    (processUpload demoDeps (demoUpload 200 "x") (demoWorld true []) 3 [] [7] false).2.sb.progress =
      (demoWorld true []).sb.progress ∧
    (processUpload demoDeps (demoUpload 200 "x") (demoWorld true []) 3 [] [7] false).2.sb.fileRef =
      (demoWorld true []).sb.fileRef ∧
    (processUpload demoDeps (demoUpload 200 "x") (demoWorld true []) 3 [] [7] false).2.hashCalls =
      (demoWorld true []).hashCalls :=
  upload_empty_nonfinal_noop demoDeps (demoUpload 200 "x") (demoWorld true []) 3 [] [7] rfl

/-- Supporting fact for C15: on a session that has an encryption scheme,
`processUpload` with zero-length chunk bytes and `isFinal = true` finalizes the
file reference from the session's totals: `CalculateHash` is called once on the
record whose `ChunkSize`, `Size`, `Path`, `ActualFileHash`, `ActualFileSize`
are the session's chunk size, `shardUploadedSize`, remote path, actual hash and
actual size and whose `EncryptedKey` is the scheme's key, every other field
being as before; no request is sent and neither hasher is fed. -/
theorem emptyFinal_with_scheme (deps : Deps) (env : UploadEnv) (w : World)
    (chunkIndex : Int) (fileBytes thumbnailBytes : List Nat) (key : String)
    (hlen : fileBytes.length = 0) (hscheme : w.su.fileEncscheme = some key) :
    (processUpload deps env w chunkIndex fileBytes thumbnailBytes true).1 = .returned none ∧
    (processUpload deps env w chunkIndex fileBytes thumbnailBytes true).2.sb.fileRef =
      deps.calculateHash { w.sb.fileRef with
        ChunkSize := w.su.chunkSize,
        Size := w.su.shardUploadedSize,
        Path := w.su.fileMeta.RemotePath,
        ActualFileHash := w.su.fileMeta.ActualHash,
        ActualFileSize := w.su.fileMeta.ActualSize,
        EncryptedKey := key } ∧
    (processUpload deps env w chunkIndex fileBytes thumbnailBytes true).2.hashCalls =
      w.hashCalls + 1 ∧
    (processUpload deps env w chunkIndex fileBytes thumbnailBytes true).2.uploads = w.uploads ∧
    (processUpload deps env w chunkIndex fileBytes thumbnailBytes true).2.sb.progress =
      w.sb.progress := by
  simp [processUpload, hlen, emptyChunk, hscheme]

/-- **C15, evaluated at the failing input.** Session without client-side
encryption (`encryptOnUpload` false, `fileEncscheme` nil), zero-length chunk
bytes, `isFinal = true`: `processUpload` writes `ChunkSize`, `Size`, `Path`,
`ActualFileHash` and `ActualFileSize` and then panics on
`su.fileEncscheme.GetEncryptedKey()`, before `CalculateHash`: the identity hash
is not recomputed and the call does not return.  The same call on the session
with a scheme returns and leaves the recomputed hash. -/
theorem upload_empty_final_panics :
    (demoWorld false []).su.encryptOnUpload = false ∧
    (demoWorld false []).su.fileEncscheme = none ∧
    (processUpload demoDeps (demoUpload 200 "x") (demoWorld false []) 3 [] [] true).1 =
      .panicked ∧
    (processUpload demoDeps (demoUpload 200 "x") (demoWorld false []) 3 [] [] true).2.sb.fileRef =
      { emptyFileRef with
        ChunkSize := 65536, Size := 141312, Path := "/dir/file.txt",
        ActualFileHash := "actualhash", ActualFileSize := 141312 } ∧
    (processUpload demoDeps (demoUpload 200 "x") (demoWorld false []) 3 [] [] true).2.sb.fileRef.Hash =
      "" ∧
    (processUpload demoDeps (demoUpload 200 "x") (demoWorld false []) 3 [] [] true).2.hashCalls =
      0 ∧
    (processUpload demoDeps (demoUpload 200 "x") (demoWorld false []) 3 [] [] true).2.uploads =
      [] ∧
    (processUpload demoDeps (demoUpload 200 "x") (demoWorld true []) 3 [] [] true).1 =
      .returned none ∧
    (processUpload demoDeps (demoUpload 200 "x") (demoWorld true []) 3 [] [] true).2.sb.fileRef.Hash =
      "id:/dir/file.txt:141312" := by
  decide

theorem hexDigit_lower (n : Nat) (h : n < 16) : hexDigit n ∈ lowerHexDigits := by
  interval_cases n <;> decide

theorem hexChars_spec (bs : List Nat) :
    (hexChars bs).length = 2 * bs.length ∧ ∀ c ∈ hexChars bs, c ∈ lowerHexDigits := by
  induction bs with
  | nil => simp [hexChars]
  | cons b bs ih =>
    refine ⟨by simp [hexChars, ih.1]; omega, ?_⟩
    intro c hc
    simp only [hexChars, List.mem_cons] at hc
    rcases hc with h | h | h
    · rw [h]; exact hexDigit_lower _ (Nat.mod_lt _ (by decide))
    · rw [h]; exact hexDigit_lower _ (Nat.mod_lt _ (by decide))
    · exact ih.2 c h

theorem hashStage_fst_hash (deps : Deps) (su : ChunkedUpload) (p : UploadBlobberStatus)
    (chunkIndex : Int) (fileBytes : List Nat) (isFinal : Bool) :
    (hashStage deps su p chunkIndex fileBytes isFinal).1.ChunkHash =
        hexEncodeToString (deps.sha1 fileBytes) ∧
    (hashStage deps su p chunkIndex fileBytes isFinal).1.ChunkIndex = chunkIndex ∧
    (hashStage deps su p chunkIndex fileBytes isFinal).1.Filename = su.fileMeta.RemoteName ∧
    (hashStage deps su p chunkIndex fileBytes isFinal).2 =
      processHash p fileBytes (hexEncodeToString (deps.sha1 fileBytes)) chunkIndex := by
  unfold hashStage
  cases isFinal <;> simp [newFormData]

theorem thumbnailStage_keeps (deps : Deps) (env : UploadEnv) (su : ChunkedUpload)
    (fd fd2 : UploadFormData) (thumbnailBytes : List Nat)
    (h : thumbnailStage deps env su fd thumbnailBytes = some fd2) :
    fd2.ChunkHash = fd.ChunkHash ∧ fd2.ChunkIndex = fd.ChunkIndex ∧
    fd2.MerkleRoot = fd.MerkleRoot ∧ fd2.ContentHash = fd.ContentHash ∧
    fd2.ActualHash = fd.ActualHash ∧ fd2.ActualSize = fd.ActualSize := by
  unfold thumbnailStage at h
  split at h
  · split at h
    · simp at h
    · simp only [Option.some.injEq] at h
      rw [← h]
      exact ⟨rfl, rfl, rfl, rfl, rfl, rfl⟩
  · simp only [Option.some.injEq] at h
    rw [← h]
    exact ⟨rfl, rfl, rfl, rfl, rfl, rfl⟩

theorem encryptStage_keeps (su : ChunkedUpload) (fd fd2 : UploadFormData) (fr fr2 : FileRef)
    (h : encryptStage su fd fr = some (fd2, fr2)) :
    fd2.ChunkHash = fd.ChunkHash ∧ fd2.ChunkIndex = fd.ChunkIndex ∧
    fd2.MerkleRoot = fd.MerkleRoot ∧ fd2.ContentHash = fd.ContentHash ∧
    fd2.ActualHash = fd.ActualHash ∧ fd2.ActualSize = fd.ActualSize := by
  unfold encryptStage at h
  split at h
  · split at h
    · simp at h
    · simp only [Option.some.injEq, Prod.mk.injEq] at h
      rw [← h.1]
      exact ⟨rfl, rfl, rfl, rfl, rfl, rfl⟩
  · simp only [Option.some.injEq, Prod.mk.injEq] at h
    rw [← h.1]
    exact ⟨rfl, rfl, rfl, rfl, rfl, rfl⟩

/-- What `sendChunk` does to the hashers and to the list of requests. -/
theorem sendChunk_spec (deps : Deps) (env : UploadEnv) (w : World) (chunkIndex : Int)
    (fileBytes thumbnailBytes : List Nat) (isFinal : Bool) (hform : env.createFormFileErr = none) :
    (sendChunk deps env w chunkIndex fileBytes thumbnailBytes isFinal).2.sb.progress =
      processHash w.sb.progress fileBytes (hexEncodeToString (deps.sha1 fileBytes)) chunkIndex ∧
    ((sendChunk deps env w chunkIndex fileBytes thumbnailBytes isFinal).2.uploads = w.uploads ∨
      ∃ req, (sendChunk deps env w chunkIndex fileBytes thumbnailBytes isFinal).2.uploads =
          w.uploads ++ [req] ∧
        req.uploadFile = fileBytes ∧
        req.uploadMeta.ChunkHash =
          (hashStage deps w.su w.sb.progress chunkIndex fileBytes isFinal).1.ChunkHash ∧
        req.uploadMeta.ChunkIndex =
          (hashStage deps w.su w.sb.progress chunkIndex fileBytes isFinal).1.ChunkIndex ∧
        req.uploadMeta.MerkleRoot =
          (hashStage deps w.su w.sb.progress chunkIndex fileBytes isFinal).1.MerkleRoot ∧
        req.uploadMeta.ContentHash =
          (hashStage deps w.su w.sb.progress chunkIndex fileBytes isFinal).1.ContentHash ∧
        req.uploadMeta.ActualHash =
          (hashStage deps w.su w.sb.progress chunkIndex fileBytes isFinal).1.ActualHash ∧
        req.uploadMeta.ActualSize =
          (hashStage deps w.su w.sb.progress chunkIndex fileBytes isFinal).1.ActualSize) := by
  have hp := (hashStage_fst_hash deps w.su w.sb.progress chunkIndex fileBytes isFinal).2.2.2
  unfold sendChunk
  rw [hform]
  simp only []
  cases hts : thumbnailStage deps env w.su
      (hashStage deps w.su w.sb.progress chunkIndex fileBytes isFinal).1 thumbnailBytes with
  | none => exact ⟨hp, Or.inl rfl⟩
  | some fd2 =>
    have k1 := thumbnailStage_keeps deps env w.su _ fd2 thumbnailBytes hts
    simp only []
    cases hes : encryptStage w.su fd2 w.sb.fileRef with
    | none => exact ⟨hp, Or.inl rfl⟩
    | some pr =>
      obtain ⟨fd3, fr3⟩ := pr
      have k2 := encryptStage_keeps w.su fd2 fd3 w.sb.fileRef fr3 hes
      simp only []
      refine ⟨hp, Or.inr ⟨_, rfl, rfl, ?_, ?_, ?_, ?_, ?_, ?_⟩⟩
      · exact k2.1.trans k1.1
      · exact k2.2.1.trans k1.2.1
      · exact k2.2.2.1.trans k1.2.2.1
      · exact k2.2.2.2.1.trans k1.2.2.2.1
      · exact k2.2.2.2.2.1.trans k1.2.2.2.2.1
      · exact k2.2.2.2.2.2.trans k1.2.2.2.2.2
theorem processUpload_progress (deps : Deps) (env : UploadEnv) (w : World) (chunkIndex : Int)
    (fileBytes thumbnailBytes : List Nat) (isFinal : Bool) (hform : env.createFormFileErr = none) :
    (processUpload deps env w chunkIndex fileBytes thumbnailBytes isFinal).2.sb.progress =
      if fileBytes.length = 0 then w.sb.progress
      else processHash w.sb.progress fileBytes (hexEncodeToString (deps.sha1 fileBytes))
        chunkIndex := by
  unfold processUpload
  by_cases h : fileBytes.length = 0
  · simp only [h, if_true]
    unfold emptyChunk
    cases isFinal
    · rfl
    · simp only [if_true]
      cases w.su.fileEncscheme <;> rfl
  · simp only [h, if_false]
    exact (sendChunk_spec deps env w chunkIndex fileBytes thumbnailBytes isFinal hform).1

theorem uploadAll_progress (deps : Deps) (calls : List ChunkCall) (w : World)
    (hform : ∀ c ∈ calls, c.env.createFormFileErr = none) :
    (uploadAll deps calls w).sb.progress =
      fedBy deps (calls.map (fun c => (c.chunkIndex, c.fileBytes))) w.sb.progress := by
  induction calls generalizing w with
  | nil => rfl
  | cons c cs ih =>
    rw [uploadAll, ih _ (fun x hx => hform x (List.mem_cons_of_mem _ hx)), List.map_cons, fedBy,
      processUpload_progress deps c.env w c.chunkIndex c.fileBytes c.thumbnailBytes c.isFinal
        (hform c (List.mem_cons_self _ _))]

/-- **C16.** For every non-empty chunk passed to `processUpload` (the upload form
part could be created): the raw bytes are written to the challenge hasher at
`chunkIndex`, the lowercase hex SHA-1 of the raw bytes is added as leaf to the
content hasher at `chunkIndex`, and a request that is sent carries the raw
bytes and that same string as `ChunkHash`.  The hex string has two characters
per digest byte, all among `0-9a-f`.  What a sequence of calls feeds to the
hashers is a function of the chunks' indices and bytes alone, so two runs over
the same chunk sequence feed the same leaves. -/
theorem upload_chunk_hash (deps : Deps) (env : UploadEnv) (w : World) (chunkIndex : Int)
    (fileBytes thumbnailBytes : List Nat) (isFinal : Bool)
    (hne : fileBytes.length ≠ 0) (hform : env.createFormFileErr = none) :
    (processUpload deps env w chunkIndex fileBytes thumbnailBytes isFinal).2.sb.progress.challengeWrites =
      w.sb.progress.challengeWrites ++ [(fileBytes, chunkIndex)] ∧
    (processUpload deps env w chunkIndex fileBytes thumbnailBytes isFinal).2.sb.progress.contentLeaves =
      w.sb.progress.contentLeaves ++ [(hexEncodeToString (deps.sha1 fileBytes), chunkIndex)] ∧
    ((processUpload deps env w chunkIndex fileBytes thumbnailBytes isFinal).2.uploads = w.uploads ∨
      ∃ req, (processUpload deps env w chunkIndex fileBytes thumbnailBytes isFinal).2.uploads =
          w.uploads ++ [req] ∧
        req.uploadFile = fileBytes ∧
        req.uploadMeta.ChunkHash = hexEncodeToString (deps.sha1 fileBytes) ∧
        req.uploadMeta.ChunkIndex = chunkIndex) ∧
    ((hexEncodeToString (deps.sha1 fileBytes)).data.length = 2 * (deps.sha1 fileBytes).length ∧
      ∀ c ∈ (hexEncodeToString (deps.sha1 fileBytes)).data, c ∈ lowerHexDigits) ∧
    (∀ (calls1 calls2 : List ChunkCall) (w1 w2 : World),
      (∀ c ∈ calls1, c.env.createFormFileErr = none) →
      (∀ c ∈ calls2, c.env.createFormFileErr = none) →
      calls1.map (fun c => (c.chunkIndex, c.fileBytes)) =
        calls2.map (fun c => (c.chunkIndex, c.fileBytes)) →
      w1.sb.progress = w2.sb.progress →
      (uploadAll deps calls1 w1).sb.progress = (uploadAll deps calls2 w2).sb.progress) := by
  have hprog := processUpload_progress deps env w chunkIndex fileBytes thumbnailBytes isFinal hform
  rw [if_neg hne] at hprog
  have hsend := (sendChunk_spec deps env w chunkIndex fileBytes thumbnailBytes isFinal hform).2
  have hst := hashStage_fst_hash deps w.su w.sb.progress chunkIndex fileBytes isFinal
  refine ⟨by rw [hprog]; rfl, by rw [hprog]; rfl, ?_, hexChars_spec _, ?_⟩
  · have hup : (processUpload deps env w chunkIndex fileBytes thumbnailBytes isFinal).2.uploads =
        (sendChunk deps env w chunkIndex fileBytes thumbnailBytes isFinal).2.uploads := by
      simp [processUpload, hne]
    rw [hup]
    rcases hsend with h | ⟨req, h1, h2, h3, h4, -⟩
    · exact Or.inl h
    · exact Or.inr ⟨req, h1, h2, h3.trans hst.1, h4.trans hst.2.1⟩
  · intro calls1 calls2 w1 w2 h1 h2 hkeys hw
    rw [uploadAll_progress deps calls1 w1 h1, uploadAll_progress deps calls2 w2 h2, hkeys, hw]

/-- Witness for C16: chunk `[1, 2, 3]` at index 0. -/
theorem upload_chunk_hash_witness :
    (processUpload demoDeps (demoUpload 200 "0306") (demoWorld false []) 0 [1, 2, 3] []
      false).2.sb.progress.contentLeaves =
      (demoWorld false []).sb.progress.contentLeaves ++
        [(hexEncodeToString (demoDeps.sha1 [1, 2, 3]), 0)] :=
  (upload_chunk_hash demoDeps (demoUpload 200 "0306") (demoWorld false []) 0 [1, 2, 3] [] false
    (by decide) rfl).2.1

/-- **C17, counterexample.** The metadata of a non-final chunk carries the
session's actual size 141312, not an absent (zero) one. -/
theorem upload_meta_actual_size_counterexample :
    (processUpload demoDeps (demoUpload 200 "0306") (demoWorld false []) 0 [1, 2, 3] []
      false).2.uploads.map (fun r => (r.uploadMeta.IsFinal, r.uploadMeta.ActualSize)) =
      [(false, 141312)] := by
  decide

/-- **C17, amended.** The metadata of every request sent for a non-empty chunk
carries the session's actual size.  With `isFinal = false` it carries an empty
`MerkleRoot`, no actual hash, and `ContentHash` equal to the chunk checksum;
with `isFinal = true` it carries the challenge hash and the content hash of
the hashers after this chunk was fed, and the session's actual hash. -/
theorem upload_meta_final_only (deps : Deps) (env : UploadEnv) (w : World) (chunkIndex : Int)
    (fileBytes thumbnailBytes : List Nat) (isFinal : Bool) (req : UploadRequest)
    (hne : fileBytes.length ≠ 0)
    (hsent : (processUpload deps env w chunkIndex fileBytes thumbnailBytes isFinal).2.uploads =
      w.uploads ++ [req]) :
    req.uploadMeta.ActualSize = w.su.fileMeta.ActualSize ∧
    (isFinal = false →
      req.uploadMeta.MerkleRoot = "" ∧ req.uploadMeta.ActualHash = "" ∧
      req.uploadMeta.ContentHash = req.uploadMeta.ChunkHash ∧
      req.uploadMeta.ChunkHash = hexEncodeToString (deps.sha1 fileBytes)) ∧
    (isFinal = true →
      req.uploadMeta.MerkleRoot =
        deps.challengeHash (w.sb.progress.challengeWrites ++ [(fileBytes, chunkIndex)]) ∧
      req.uploadMeta.ContentHash =
        deps.contentHash (w.sb.progress.contentLeaves ++
          [(hexEncodeToString (deps.sha1 fileBytes), chunkIndex)]) ∧
      req.uploadMeta.ActualHash = w.su.fileMeta.ActualHash) := by
  have hup : (processUpload deps env w chunkIndex fileBytes thumbnailBytes isFinal).2.uploads =
      (sendChunk deps env w chunkIndex fileBytes thumbnailBytes isFinal).2.uploads := by
    simp [processUpload, hne]
  rw [hup] at hsent
  have hform : env.createFormFileErr = none := by
    cases hf : env.createFormFileErr with
    | none => rfl
    | some e =>
      exfalso
      simp only [sendChunk, hf] at hsent
      have := congrArg List.length hsent
      simp at this
  rcases (sendChunk_spec deps env w chunkIndex fileBytes thumbnailBytes isFinal hform).2 with
    h | ⟨req2, h1, -, h3, -, h5, h6, h7, h8⟩
  · exfalso
    rw [h] at hsent
    have := congrArg List.length hsent
    simp at this
  · have hreq : req2 = req := by
      rw [h1] at hsent
      simpa using List.append_cancel_left hsent
    subst hreq
    cases isFinal
    · refine ⟨by rw [h8]; simp [hashStage, newFormData], fun _ => ?_, fun h => by simp at h⟩
      refine ⟨by rw [h5]; simp [hashStage, newFormData], by rw [h7]; simp [hashStage, newFormData],
        by rw [h6, h3]; simp [hashStage, newFormData], by rw [h3]; simp [hashStage, newFormData]⟩
    · refine ⟨by rw [h8]; simp [hashStage, newFormData], fun h => by simp at h, fun _ => ?_⟩
      exact ⟨by rw [h5]; simp [hashStage, newFormData, processHash],
        by rw [h6]; simp [hashStage, newFormData, processHash],
        by rw [h7]; simp [hashStage, newFormData]⟩

/-- Witness for C17: the request sent for the final chunk `[1, 2, 3]` at index 2. -/
theorem upload_meta_final_only_witness :
    (⟨"http://b1", "tx", "POST", "conn", [1, 2, 3], none,
        { newFormData (demoSession false) 2 true with
          ChunkHash := "0306", ContentHash := "content/1", MerkleRoot := "challenge/1",
          ActualHash := "actualhash" }⟩ : UploadRequest).uploadMeta.ActualSize =
      (demoWorld false []).su.fileMeta.ActualSize :=
  (upload_meta_final_only demoDeps (demoUpload 200 "0306") (demoWorld false []) 2 [1, 2, 3] [] true
    ⟨"http://b1", "tx", "POST", "conn", [1, 2, 3], none,
      { newFormData (demoSession false) 2 true with
        ChunkHash := "0306", ContentHash := "content/1", MerkleRoot := "challenge/1",
        ActualHash := "actualhash" }⟩ (by decide) (by decide)).1

/-- **C18, evaluated at the failing input.** Blobber without pending changes, lock
taken: `processWriteMarker` returns a nil root with a nil error and sends no
reference-path request, and `processCommit` then panics on `rootRef.Hash`;
the marker is not signed, no commit request is sent, the deferred `Unlock` and `wg.Done()` run. -/
theorem commit_empty_changes_panics :
    (processWriteMarker demoDeps (demoCommit 200 "") (demoWorld false [])).1 =
      ⟨none, none, 0, none, false⟩ ∧
    (processCommit demoDeps (demoCommit 200 "") (demoWorld false [])).1 = .panicked ∧
    (processCommit demoDeps (demoCommit 200 "") (demoWorld false [])).2.refPathRequests = [] ∧
    (processCommit demoDeps (demoCommit 200 "") (demoWorld false [])).2.commits = [] ∧
    (processCommit demoDeps (demoCommit 200 "") (demoWorld false [])).2.signCalls = 0 ∧
    (processCommit demoDeps (demoCommit 200 "") (demoWorld false [])).2.unlocks = 1 ∧
    (processCommit demoDeps (demoCommit 200 "") (demoWorld false [])).2.wgDone = 1 := by
  decide

/-- **C19, evaluated at the failing input.** One pending change, the blobber
answers the commit request with 500 and body `boom`, or the transport fails:
the callback reports `commit_error: boom` (or the transport error), `HttpDo`
hands it on, and `processCommit` returns nil all the same; `su.Done()` is not
called. -/
theorem commit_failure_returns_nil :
    commitCallback (.response 500 none "boom") = some "commit_error: boom" ∧
    (processCommit demoDeps (demoCommit 500 "boom") (demoWorld false [⟨"/a", 10, "ok"⟩])).1 =
      .returned none ∧
    (processCommit demoDeps (demoCommit 500 "boom")
      (demoWorld false [⟨"/a", 10, "ok"⟩])).2.commits.length = 1 ∧
    (processCommit demoDeps (demoCommit 500 "boom") (demoWorld false [⟨"/a", 10, "ok"⟩])).2.su.done =
      0 ∧
    (processCommit demoDeps
      { demoCommit 200 "" with commitReply := .transportError "connection refused" }
      (demoWorld false [⟨"/a", 10, "ok"⟩])).1 = .returned none ∧
    (processCommit demoDeps (demoCommit 200 "") (demoWorld false [⟨"/a", 10, "ok"⟩])).1 =
      .returned none ∧
    (processCommit demoDeps (demoCommit 200 "") (demoWorld false [⟨"/a", 10, "ok"⟩])).2.su.done =
      1 := by
  decide

theorem wrapInt_add_wrapInt (a b : Int) : wrapInt (wrapInt a + b) = wrapInt (a + b) := by
  unfold wrapInt; omega

theorem applyChanges_ok (deps : Deps) (changes : List AllocationChange) (root : Ref) (size : Int)
    (hsize : wrapInt size = size)
    (h : (applyChanges deps changes root size).2.2.1 = none) :
    applyChanges deps changes root size =
      (applyAll deps changes root, wrapInt (size + sizeSum changes), none, changes) := by
  induction changes generalizing root size with
  | nil => simp [applyChanges, applyAll, sizeSum, hsize]
  | cons c cs ih =>
    unfold applyChanges at h ⊢
    cases hp : deps.processChange c root with
    | mk root1 err =>
      cases err with
      | some e => simp [hp] at h
      | none =>
        simp only [hp] at h ⊢
        have := ih root1 (wrapInt (size + c.Size))
          (by rw [← wrapInt_add_wrapInt]; unfold wrapInt; omega) h
        rw [this]
        simp only [applyAll, List.foldl_cons, hp, sizeSum, List.map_cons, List.sum_cons,
          Prod.mk.injEq, and_true, true_and]
        rw [wrapInt_add_wrapInt, Int.add_assoc]

theorem applyChanges_fail (deps : Deps) (changes : List AllocationChange) (root : Ref) (size : Int)
    (e : String) (h : (applyChanges deps changes root size).2.2.1 = some e) :
    ∃ pre c post, changes = pre ++ c :: post ∧
      (applyChanges deps changes root size).2.2.2 = pre ++ [c] ∧
      (deps.processChange c (applyAll deps pre root)).2 = some e ∧
      ∀ p1 d p2, pre = p1 ++ d :: p2 → (deps.processChange d (applyAll deps p1 root)).2 = none := by
  induction changes generalizing root size with
  | nil => simp [applyChanges] at h
  | cons c cs ih =>
    unfold applyChanges at h ⊢
    cases hp : deps.processChange c root with
    | mk root1 err =>
      cases err with
      | some e1 =>
        simp only [hp] at h ⊢
        refine ⟨[], c, cs, rfl, rfl, ?_, ?_⟩
        · simp only [applyAll, List.foldl_nil, hp]
          exact h
        · intro p1 d p2 hsplit
          simp at hsplit
      | none =>
        simp only [hp] at h ⊢
        obtain ⟨pre, c1, post, h1, h2, h3, h4⟩ := ih root1 (wrapInt (size + c.Size)) h
        refine ⟨c :: pre, c1, post, by rw [h1]; rfl, by rw [h2]; rfl, ?_, ?_⟩
        · simpa only [applyAll, List.foldl_cons, hp] using h3
        · intro p1 d p2 hsplit
          cases p1 with
          | nil =>
            simp only [List.nil_append, List.cons.injEq] at hsplit
            rw [← hsplit.1]
            simp [applyAll, hp]
          | cons a p1 =>
            simp only [List.cons_append, List.cons.injEq] at hsplit
            have := h4 p1 d p2 hsplit.2
            rw [← hsplit.1]
            simpa only [applyAll, List.foldl_cons, hp] using this
theorem applyChanges_all_ok (deps : Deps) (changes : List AllocationChange) (root : Ref)
    (size : Int)
    (h : ∀ pre c post, changes = pre ++ c :: post →
      (deps.processChange c (applyAll deps pre root)).2 = none) :
    (applyChanges deps changes root size).2.2.1 = none := by
  induction changes generalizing root size with
  | nil => rfl
  | cons c cs ih =>
    unfold applyChanges
    have h0 := h [] c cs rfl
    simp only [applyAll, List.foldl_nil] at h0
    cases hp : deps.processChange c root with
    | mk root1 err =>
      rw [hp] at h0
      simp only at h0
      subst h0
      simp only []
      apply ih root1 (wrapInt (size + c.Size))
      intro pre d post hsplit
      have := h (c :: pre) d post (by rw [hsplit]; rfl)
      simpa only [applyAll, List.foldl_cons, hp] using this

theorem applyChanges_first_fail (deps : Deps) (pre : List AllocationChange)
    (c : AllocationChange) (post : List AllocationChange) (root : Ref) (size : Int) (e : String)
    (hpre : ∀ p1 d p2, pre = p1 ++ d :: p2 →
      (deps.processChange d (applyAll deps p1 root)).2 = none)
    (hc : (deps.processChange c (applyAll deps pre root)).2 = some e) :
    (applyChanges deps (pre ++ c :: post) root size).2.2.1 = some e ∧
    (applyChanges deps (pre ++ c :: post) root size).2.2.2 = pre ++ [c] := by
  induction pre generalizing root size with
  | nil =>
    simp only [applyAll, List.foldl_nil] at hc
    simp only [List.nil_append, applyChanges]
    cases hp : deps.processChange c root with
    | mk root1 err =>
      rw [hp] at hc
      simp only at hc
      subst hc
      exact ⟨rfl, rfl⟩
  | cons d pre ih =>
    have h0 := hpre [] d pre rfl
    simp only [applyAll, List.foldl_nil] at h0
    simp only [List.cons_append, applyChanges]
    cases hp : deps.processChange d root with
    | mk root1 err =>
      rw [hp] at h0
      simp only at h0
      subst h0
      simp only []
      have := ih root1 (wrapInt (size + d.Size))
        (by
          intro p1 x p2 hsplit
          have := hpre (d :: p1) x p2 (by rw [hsplit]; rfl)
          simpa only [applyAll, List.foldl_cons, hp] using this)
        (by simpa only [applyAll, List.foldl_cons, hp] using hc)
      exact ⟨this.1, congrArg (List.cons d) this.2⟩

theorem processWriteMarker_loop (deps : Deps) (env : CommitEnv) (w : World)
    (lR : ReferencePathResult) (root0 : Ref)
    (hreq : env.refPathRequestErr = none) (hne : w.sb.commitChanges ≠ [])
    (hfetch : HttpDo env.refPathCtxErr (refPathCallback deps env.refPathReply).1 = none)
    (hlR : (refPathCallback deps env.refPathReply).2 = lR)
    (htree : lR.dirTree = some root0) (hterr : lR.dirTreeErr = none) :
    processWriteMarker deps env w =
      match applyChanges deps w.sb.commitChanges (startRoot deps lR root0) 0 with
      | (root1, size, err, log) =>
        match err with
        | some e =>
          (⟨none, none, 0, some e, false⟩,
            { w with refPathRequests :=
                       w.refPathRequests ++ [w.sb.commitChanges.map AllocationChange.AffectedPath],
                     processed := w.processed ++ log,
                     sb := { w.sb with commitResult := some (ErrorCommitResult e) } })
        | none =>
          (⟨some root1, lR.LatestWM, size, none, false⟩,
            { w with refPathRequests :=
                       w.refPathRequests ++ [w.sb.commitChanges.map AllocationChange.AffectedPath],
                     processed := w.processed ++ log }) := by
  have hlen : ¬ (w.sb.commitChanges.map AllocationChange.AffectedPath).length = 0 := by
    simpa using hne
  unfold processWriteMarker
  simp only [hreq, ne_eq, not_true_eq_false, hlen, or_self, if_false]
  cases hcb : refPathCallback deps env.refPathReply with
  | mk cbErr lR1 =>
    rw [hcb] at hfetch hlR
    simp only at hfetch hlR
    subst hlR
    simp only [hfetch, htree, hterr]
    cases hwm : lR1.LatestWM with
    | none =>
      simp only [startRoot, hwm]
    | some wm =>
      simp only [startRoot, hwm]

/-- **C20.** Once the snapshot has been fetched and decoded, `processWriteMarker`
hands the pending changes to `ProcessChange` in list order, each on the
snapshot left by the changes before it.  If `ProcessChange` succeeds on every
change, all of them were handed over, the root returned is the snapshot after
all changes and the size returned is the (64-bit) sum of `GetSize` over all
changes.  If `ProcessChange` fails with `e` on a change after succeeding on all
the changes before it, the changes up to that one were handed over and none
after it, `processWriteMarker` returns `e` with no root, no marker and size 0,
and `processCommit` returns `e` without signing a marker and without handing
any commit request to the HTTP client. -/
theorem commit_apply_changes (deps : Deps) (env : CommitEnv) (w : World)
    (lR : ReferencePathResult) (root0 : Ref)
    (hlock : env.lockErr = none)
    (hreq : env.refPathRequestErr = none) (hne : w.sb.commitChanges ≠ [])
    (hfetch : HttpDo env.refPathCtxErr (refPathCallback deps env.refPathReply).1 = none)
    (hlR : (refPathCallback deps env.refPathReply).2 = lR)
    (htree : lR.dirTree = some root0) (hterr : lR.dirTreeErr = none) :
    ((∀ pre c post, w.sb.commitChanges = pre ++ c :: post →
        (deps.processChange c (applyAll deps pre (startRoot deps lR root0))).2 = none) →
      (processWriteMarker deps env w).2.processed = w.processed ++ w.sb.commitChanges ∧
      (processWriteMarker deps env w).1 =
        ⟨some (applyAll deps w.sb.commitChanges (startRoot deps lR root0)), lR.LatestWM,
          wrapInt (sizeSum w.sb.commitChanges), none, false⟩ ∧
      (-9223372036854775808 ≤ sizeSum w.sb.commitChanges →
        sizeSum w.sb.commitChanges < 9223372036854775808 →
        (processWriteMarker deps env w).1.size = sizeSum w.sb.commitChanges)) ∧
    (∀ pre c post e, w.sb.commitChanges = pre ++ c :: post →
      (∀ p1 d p2, pre = p1 ++ d :: p2 →
        (deps.processChange d (applyAll deps p1 (startRoot deps lR root0))).2 = none) →
      (deps.processChange c (applyAll deps pre (startRoot deps lR root0))).2 = some e →
        (processWriteMarker deps env w).2.processed = w.processed ++ (pre ++ [c]) ∧
        (processWriteMarker deps env w).1 = ⟨none, none, 0, some e, false⟩ ∧
        (processCommit deps env w).1 = .returned (some e) ∧
        (processCommit deps env w).2.processed = w.processed ++ (pre ++ [c]) ∧
        (processCommit deps env w).2.signCalls = w.signCalls ∧
        (processCommit deps env w).2.commits = w.commits) := by
  have hpw := processWriteMarker_loop deps env w lR root0 hreq hne hfetch hlR htree hterr
  have hpw0 := processWriteMarker_loop deps env { w with sb := { w.sb with locked := true } } lR
    root0 hreq hne hfetch hlR htree hterr
  constructor
  · intro hall
    have hok := applyChanges_all_ok deps w.sb.commitChanges (startRoot deps lR root0) 0 hall
    have := applyChanges_ok deps w.sb.commitChanges (startRoot deps lR root0) 0 (by decide) hok
    rw [this] at hpw
    simp only [Int.zero_add] at hpw
    rw [hpw]
    refine ⟨rfl, rfl, ?_⟩
    intro h1 h2
    exact wrapInt_eq h1 h2
  · intro pre c post e hsplit hpre hc
    obtain ⟨herr, hlog⟩ := applyChanges_first_fail deps pre c post (startRoot deps lR root0) 0 e
      hpre hc
    rw [← hsplit] at herr hlog
    rcases hac : applyChanges deps w.sb.commitChanges (startRoot deps lR root0) 0 with
      ⟨root1, size, err, log⟩
    rw [hac] at herr hlog hpw
    simp only at herr hlog
    subst herr hlog
    have hpw0' := hpw0
    simp only [] at hpw0'
    rw [hac] at hpw0'
    refine ⟨?_, ?_, ?_, ?_, ?_, ?_⟩
    · rw [hpw]
    · rw [hpw]
    · simp only [processCommit, hlock, commitLocked]
      rw [hpw0']
      rfl
    · simp only [processCommit, hlock, commitLocked]
      rw [hpw0']
      rfl
    · simp only [processCommit, hlock, commitLocked]
      rw [hpw0']
      rfl
    · simp only [processCommit, hlock, commitLocked]
      rw [hpw0']
      rfl

/-- Witness for C20: three pending changes of which the second fails. -/
theorem commit_apply_changes_witness :
    (processCommit demoDeps (demoCommit 200 "")
      (demoWorld false [⟨"/a", 10, "ok"⟩, ⟨"/b", 5, "bad"⟩, ⟨"/c", 7, "ok"⟩])).1 =
        .returned (some "cannot apply /b") ∧
    (processCommit demoDeps (demoCommit 200 "")
      (demoWorld false [⟨"/a", 10, "ok"⟩, ⟨"/b", 5, "bad"⟩, ⟨"/c", 7, "ok"⟩])).2.processed =
        [⟨"/a", 10, "ok"⟩, ⟨"/b", 5, "bad"⟩] ∧
    (processCommit demoDeps (demoCommit 200 "")
      (demoWorld false [⟨"/a", 10, "ok"⟩, ⟨"/b", 5, "bad"⟩, ⟨"/c", 7, "ok"⟩])).2.commits =
        (demoWorld false [⟨"/a", 10, "ok"⟩, ⟨"/b", 5, "bad"⟩, ⟨"/c", 7, "ok"⟩]).commits :=
  have h := (commit_apply_changes demoDeps (demoCommit 200 "")
      (demoWorld false [⟨"/a", 10, "ok"⟩, ⟨"/b", 5, "bad"⟩, ⟨"/c", 7, "ok"⟩])
      ⟨none, some ⟨"root:snap", []⟩, none⟩ ⟨"root:snap", []⟩
      rfl rfl (by decide) (by decide) (by decide) rfl rfl).2
      [⟨"/a", 10, "ok"⟩] ⟨"/b", 5, "bad"⟩ [⟨"/c", 7, "ok"⟩] "cannot apply /b" rfl
      (by
        intro p1 d p2 hsplit
        cases p1 with
        | nil =>
          simp only [List.nil_append, List.cons.injEq] at hsplit
          rw [← hsplit.1]
          decide
        | cons x xs => simp at hsplit)
      (by decide)
  ⟨h.2.2.1, h.2.2.2.1, h.2.2.2.2.2⟩

theorem processWriteMarker_frame (deps : Deps) (env : CommitEnv) (w : World) :
    (processWriteMarker deps env w).2.unlocks = w.unlocks ∧
    (processWriteMarker deps env w).2.signCalls = w.signCalls ∧
    (processWriteMarker deps env w).2.commits = w.commits ∧
    (processWriteMarker deps env w).2.wgDone = w.wgDone ∧
    (processWriteMarker deps env w).2.su = w.su ∧
    (processWriteMarker deps env w).2.sb.ID = w.sb.ID ∧
    (processWriteMarker deps env w).2.sb.Baseurl = w.sb.Baseurl := by
  unfold processWriteMarker
  simp only []
  repeat' split
  all_goals exact ⟨rfl, rfl, rfl, rfl, rfl, rfl, rfl⟩

theorem commitLocked_unlocks (deps : Deps) (env : CommitEnv) (w : World) :
    (commitLocked deps env w).2.unlocks = w.unlocks := by
  have h := (processWriteMarker_frame deps env w).1
  unfold commitLocked
  simp only []
  repeat' split
  all_goals exact h
/-- **C22.** In every run of `processCommit` in which `flock.Lock()` succeeded, the
lock is released exactly once, whatever the way out (every answer of the
outside, every behaviour of the collaborators, a panic included), and it is
free afterwards.  When `flock.Lock()` fails, `processCommit` returns that error
without a reference-path request, without handing any change to
`ProcessChange`, without signing and without a commit request, and without
calling `Unlock`. -/
theorem commit_lock_released (deps : Deps) (env : CommitEnv) (w : World) :
    (env.lockErr = none →
      (processCommit deps env w).2.unlocks = w.unlocks + 1 ∧
      (processCommit deps env w).2.sb.locked = false) ∧
    (∀ e, env.lockErr = some e →
      (processCommit deps env w).1 = .returned (some e) ∧
      (processCommit deps env w).2.unlocks = w.unlocks ∧
      (processCommit deps env w).2.refPathRequests = w.refPathRequests ∧
      (processCommit deps env w).2.processed = w.processed ∧
      (processCommit deps env w).2.signCalls = w.signCalls ∧
      (processCommit deps env w).2.commits = w.commits) := by
  constructor
  · intro h
    have hu := commitLocked_unlocks deps env { w with sb := { w.sb with locked := true } }
    simp [processCommit, h, hu]
  · intro e h
    simp [processCommit, h]

/-- Witness for C22: a commit whose submission is answered with 500, and a commit
whose lock cannot be taken. -/
theorem commit_lock_released_witness :
    ((processCommit demoDeps (demoCommit 500 "boom") (demoWorld false [⟨"/a", 10, "ok"⟩])).2.unlocks =
        (demoWorld false [⟨"/a", 10, "ok"⟩]).unlocks + 1 ∧
      (processCommit demoDeps (demoCommit 500 "boom")
        (demoWorld false [⟨"/a", 10, "ok"⟩])).2.sb.locked = false) ∧
    (processCommit demoDeps { demoCommit 200 "" with lockErr := some "locked" }
      (demoWorld false [⟨"/a", 10, "ok"⟩])).1 = .returned (some "locked") :=
  ⟨(commit_lock_released demoDeps (demoCommit 500 "boom")
      (demoWorld false [⟨"/a", 10, "ok"⟩])).1 rfl,
   ((commit_lock_released demoDeps { demoCommit 200 "" with lockErr := some "locked" }
      (demoWorld false [⟨"/a", 10, "ok"⟩])).2 "locked" rfl).1⟩

/-- **C21.** When the snapshot was fetched and decoded and every pending change
applied, the write marker that `processCommit` signs and submits has
`AllocationRoot = hash(rootHash ++ ":" ++ decimal(timestamp))` for the hash of
the snapshot root after all changes and the very timestamp stored in
`Timestamp`; `PreviousAllocationRoot` is the `AllocationRoot` of the latest
marker the blobber returned, or empty when it returned none; `Size` is the
accumulated size of the changes; `AllocationID` and `BlobberID` are those of
the session's allocation and of this blobber; `Signature` is the one `Sign`
produced for it. -/
theorem commit_write_marker (deps : Deps) (env : CommitEnv) (w : World)
    (lR : ReferencePathResult) (root0 : Ref) (signature : String)
    (hlock : env.lockErr = none)
    (hreq : env.refPathRequestErr = none) (hne : w.sb.commitChanges ≠ [])
    (hfetch : HttpDo env.refPathCtxErr (refPathCallback deps env.refPathReply).1 = none)
    (hlR : (refPathCallback deps env.refPathReply).2 = lR)
    (htree : lR.dirTree = some root0) (hterr : lR.dirTreeErr = none)
    (happly : (applyChanges deps w.sb.commitChanges (startRoot deps lR root0) 0).2.2.1 = none)
    (hsign : deps.sign
      { AllocationRoot := deps.hash
          ((applyAll deps w.sb.commitChanges (startRoot deps lR root0)).Hash ++ ":" ++
            toString env.now),
        PreviousAllocationRoot :=
          match lR.LatestWM with
          | some latest => latest.AllocationRoot
          | none => "",
        AllocationID := w.su.allocationID,
        Size := wrapInt (sizeSum w.sb.commitChanges),
        BlobberID := w.sb.ID,
        Timestamp := env.now,
        ClientID := env.clientID,
        Signature := "" } = .ok signature)
    (hmarshal : env.marshalErr = none) (hcreq : env.commitRequestErr = none) :
    (processCommit deps env w).2.commits = w.commits ++
      [{ url := w.sb.Baseurl, tx := w.su.allocationTx, connectionID := w.su.ConnectionID,
         writeMarker :=
          { AllocationRoot := deps.hash
              ((applyAll deps w.sb.commitChanges (startRoot deps lR root0)).Hash ++ ":" ++
                toString env.now),
            PreviousAllocationRoot :=
              match lR.LatestWM with
              | some latest => latest.AllocationRoot
              | none => "",
            AllocationID := w.su.allocationID,
            Size := wrapInt (sizeSum w.sb.commitChanges),
            BlobberID := w.sb.ID,
            Timestamp := env.now,
            ClientID := env.clientID,
            Signature := signature } }] := by
  have hpw := processWriteMarker_loop deps env { w with sb := { w.sb with locked := true } } lR
    root0 hreq hne hfetch hlR htree hterr
  have hok := applyChanges_ok deps w.sb.commitChanges (startRoot deps lR root0) 0 (by decide)
    happly
  rw [hok] at hpw
  simp only [Int.zero_add] at hpw
  simp only [processCommit, hlock, commitLocked]
  rw [hpw]
  simp only [Bool.false_eq_true, if_false, hsign, hmarshal, hcreq]
  cases HttpDo env.commitCtxErr (commitCallback env.commitReply) <;> rfl

/-- Witness for C21: two pending changes, no earlier marker, clock at 1700000000. -/
theorem commit_write_marker_witness :
    (processCommit demoDeps (demoCommit 200 "")
      (demoWorld false [⟨"/a", 10, "ok"⟩, ⟨"/b", 5, "ok"⟩])).2.commits =
      (demoWorld false [⟨"/a", 10, "ok"⟩, ⟨"/b", 5, "ok"⟩]).commits ++
      [{ url := "http://b1", tx := "tx", connectionID := "conn",
         writeMarker :=
          { AllocationRoot := demoDeps.hash
              ((applyAll demoDeps [⟨"/a", 10, "ok"⟩, ⟨"/b", 5, "ok"⟩]
                (startRoot demoDeps ⟨none, some ⟨"root:snap", []⟩, none⟩ ⟨"root:snap", []⟩)).Hash ++
                ":" ++ toString (1700000000 : Int)),
            PreviousAllocationRoot := "",
            AllocationID := "alloc",
            Size := wrapInt (sizeSum [⟨"/a", 10, "ok"⟩, ⟨"/b", 5, "ok"⟩]),
            BlobberID := "b1",
            Timestamp := 1700000000,
            ClientID := "client",
            Signature := "sig:H(root:snap:1700000000)" } }] :=
  commit_write_marker demoDeps (demoCommit 200 "")
    (demoWorld false [⟨"/a", 10, "ok"⟩, ⟨"/b", 5, "ok"⟩])
    ⟨none, some ⟨"root:snap", []⟩, none⟩ ⟨"root:snap", []⟩ "sig:H(root:snap:1700000000)"
    rfl rfl (by decide) (by decide) (by decide) rfl rfl (by decide) rfl rfl rfl

theorem pollLoop_polls_le (v : Nat → Option Transaction × Option TxnError) (rem : Nat) :
    ∀ (r : Nat) (t : Option Transaction) (e : Option TxnError) (s : Nat),
      (pollLoop v rem r t e s).polls ≤ r + rem := by
  induction rem with
  | zero => intro r t e s; simp [pollLoop]
  | succ n ih =>
    intro r t e s
    unfold pollLoop
    split
    · simp
    · next t1 e1 h => have := ih (r + 1) t1 (some e1) (s + 1); omega

theorem pollLoop_first (v : Nat → Option Transaction × Option TxnError) (k : Nat) :
    ∀ (rem r : Nat) (t : Option Transaction) (e : Option TxnError) (s : Nat),
      k < rem → (∀ j, j < k → (v (r + j)).2 ≠ none) → (v (r + k)).2 = none →
      pollLoop v rem r t e s = ⟨(v (r + k)).1, none, r + k + 1, s + k⟩ := by
  induction k with
  | zero =>
    intro rem r t e s hk _ hok
    obtain ⟨n, rfl⟩ : ∃ n, rem = n + 1 := ⟨rem - 1, by omega⟩
    unfold pollLoop
    split
    · next t1 h => simp at hok ⊢; simp [h]
    · next t1 e1 h => simp [h] at hok
  | succ k ih =>
    intro rem r t e s hk hfail hok
    obtain ⟨n, rfl⟩ : ∃ n, rem = n + 1 := ⟨rem - 1, by omega⟩
    unfold pollLoop
    split
    · next t1 h => have := hfail 0 (by omega); simp [h] at this
    · next t1 e1 h =>
      rw [ih n (r + 1) t1 (some e1) (s + 1) (by omega)
        (fun j hj => by have := hfail (j + 1) (by omega); rwa [show r + 1 + j = r + (j + 1) by omega])
        (by rwa [show r + 1 + k = r + (k + 1) by omega])]
      rw [show r + 1 + k = r + (k + 1) by omega, show s + 1 + k = s + (k + 1) by omega]

theorem pollLoop_all_fail (v : Nat → Option Transaction × Option TxnError) (n : Nat) :
    ∀ (r : Nat) (t : Option Transaction) (e : Option TxnError) (s : Nat),
      (∀ j, j < n + 1 → (v (r + j)).2 ≠ none) →
      pollLoop v (n + 1) r t e s =
        ⟨(v (r + n)).1, (v (r + n)).2, r + n + 1, s + n + 1⟩ := by
  induction n with
  | zero =>
    intro r t e s hfail
    unfold pollLoop
    split
    · next t1 h => have := hfail 0 (by omega); simp [h] at this
    · next t1 e1 h => simp [pollLoop, h]
  | succ n ih =>
    intro r t e s hfail
    unfold pollLoop
    split
    · next t1 h => have := hfail 0 (by omega); simp [h] at this
    · next t1 e1 h =>
      rw [ih (r + 1) t1 (some e1) (s + 1)
        (fun j hj => by have := hfail (j + 1) (by omega); rwa [show r + 1 + j = r + (j + 1) by omega])]
      rw [show r + 1 + n = r + (n + 1) by omega, show s + 1 + n + 1 = s + (n + 1) + 1 by omega]

theorem afterPolls_polls {α : Type} (env : TxnEnv α) (nonce : Int) (txn : Transaction)
    (p : PollRun) : (afterPolls env nonce txn p).polls = p.polls := by
  unfold afterPolls
  repeat' split
  all_goals rfl

theorem afterPolls_sleeps {α : Type} (env : TxnEnv α) (nonce : Int) (txn : Transaction)
    (p : PollRun) : (afterPolls env nonce txn p).sleeps = p.sleeps := by
  unfold afterPolls
  repeat' split
  all_goals rfl

theorem txnRun_eq {α : Type} (env : TxnEnv α) (sn : SmartContractTxnData α)
    (value fee : Int) (requestBytes : String) (txn : Transaction)
    (hm : env.marshal sn = .ok requestBytes)
    (hs : env.computeHashAndSign (unsignedTxn env requestBytes value fee) = .ok txn) :
    smartContractTxnValueFee env sn value fee =
      afterPolls env (txnNonce env) txn
        (pollLoop (fun k => env.verify k txn.Hash) env.maxTxnQuery.toNat 0 none none 1) := by
  simp only [smartContractTxnValueFee, hm, hs]

theorem txnRun_polls_le {α : Type} (env : TxnEnv α) (sn : SmartContractTxnData α)
    (value fee : Int) :
    (smartContractTxnValueFee env sn value fee).polls ≤ env.maxTxnQuery.toNat := by
  unfold smartContractTxnValueFee
  split
  · simp
  · split
    · simp
    · rw [afterPolls_polls]
      have := pollLoop_polls_le (fun k => env.verify k ‹Transaction›.Hash)
        env.maxTxnQuery.toNat 0 none none 1
      omega

/-- The run when the poll with index `k` is the first without error. -/
theorem txnRun_first {α : Type} (env : TxnEnv α) (sn : SmartContractTxnData α)
    (value fee : Int) (requestBytes : String) (txn : Transaction) (k : Nat)
    (t : Option Transaction)
    (hm : env.marshal sn = .ok requestBytes)
    (hs : env.computeHashAndSign (unsignedTxn env requestBytes value fee) = .ok txn)
    (hk : k < env.maxTxnQuery.toNat)
    (hfail : ∀ j, j < k → (env.verify j txn.Hash).2 ≠ none)
    (hok : env.verify k txn.Hash = (t, none)) :
    smartContractTxnValueFee env sn value fee =
      afterPolls env (txnNonce env) txn ⟨t, none, k + 1, k + 1⟩ := by
  rw [txnRun_eq env sn value fee requestBytes txn hm hs,
    pollLoop_first (fun k => env.verify k txn.Hash) k env.maxTxnQuery.toNat 0 none none 1 hk
      (by simpa using hfail) (by simp [hok])]
  simp [hok, Nat.add_comm]

/-- The run when all `n + 1` polls fail. -/
theorem txnRun_all_fail {α : Type} (env : TxnEnv α) (sn : SmartContractTxnData α)
    (value fee : Int) (requestBytes : String) (txn : Transaction) (n : Nat)
    (hm : env.marshal sn = .ok requestBytes)
    (hs : env.computeHashAndSign (unsignedTxn env requestBytes value fee) = .ok txn)
    (hM : env.maxTxnQuery.toNat = n + 1)
    (hfail : ∀ j, j < n + 1 → (env.verify j txn.Hash).2 ≠ none) :
    smartContractTxnValueFee env sn value fee =
      ⟨"", "", txnNonce env, (env.verify n txn.Hash).2, [txn], n + 1, n + 2,
        [txn.ClientID]⟩ := by
  rw [txnRun_eq env sn value fee requestBytes txn hm hs, hM,
    pollLoop_all_fail (fun k => env.verify k txn.Hash) n 0 none none 1 (by simpa using hfail)]
  have h := hfail n (by omega)
  obtain ⟨e, he⟩ := Option.ne_none_iff_exists'.mp h
  simp only [afterPolls, he, zero_add, Nat.add_comm 1]

/-- **C23.** In `smartContractTxnValueFee` with maximum `M ≥ 0`: the number of
calls of `VerifyTransaction` never exceeds `M`; when the poll with index `k`
(counted from 0, so attempt `k + 1`) is the first that returns without error,
polling stops there: exactly `k + 1` polls and `k + 1` sleeps were made (one
before the first poll and one after each of the `k` failed polls). With
`M = 3`, failures on the first two attempts and on the third a transaction
whose status is neither fail nor chargeable error, exactly 3 polls are made
and the call returns the transaction's hash and output with a nil error. -/
theorem poll_count {α : Type} (env : TxnEnv α) (sn : SmartContractTxnData α)
    (value fee : Int) :
    (0 ≤ env.maxTxnQuery →
      ((smartContractTxnValueFee env sn value fee).polls : Int) ≤ env.maxTxnQuery) ∧
    (∀ (requestBytes : String) (txn : Transaction) (k : Nat) (t : Option Transaction),
      env.marshal sn = .ok requestBytes →
      env.computeHashAndSign (unsignedTxn env requestBytes value fee) = .ok txn →
      (k : Int) < env.maxTxnQuery →
      (∀ j, j < k → (env.verify j txn.Hash).2 ≠ none) →
      env.verify k txn.Hash = (t, none) →
      (smartContractTxnValueFee env sn value fee).polls = k + 1 ∧
      (smartContractTxnValueFee env sn value fee).sleeps = k + 1) ∧
    (∀ (requestBytes : String) (txn t : Transaction),
      env.marshal sn = .ok requestBytes →
      env.computeHashAndSign (unsignedTxn env requestBytes value fee) = .ok txn →
      env.maxTxnQuery = 3 →
      (env.verify 0 txn.Hash).2 ≠ none →
      (env.verify 1 txn.Hash).2 ≠ none →
      env.verify 2 txn.Hash = (some t, none) →
      t.Status ≠ env.TxnFail → t.Status ≠ env.TxnChargeableError →
      (smartContractTxnValueFee env sn value fee).polls = 3 ∧
      (smartContractTxnValueFee env sn value fee).sleeps = 3 ∧
      (smartContractTxnValueFee env sn value fee).err = none ∧
      (smartContractTxnValueFee env sn value fee).hash = t.Hash ∧
      (smartContractTxnValueFee env sn value fee).out = t.TransactionOutput) := by
  refine ⟨?_, ?_, ?_⟩
  · intro hM
    have := txnRun_polls_le env sn value fee
    omega
  · intro requestBytes txn k t hm hs hk hfail hok
    rw [txnRun_first env sn value fee requestBytes txn k t hm hs (by omega) hfail hok,
      afterPolls_polls, afterPolls_sleeps]
    exact ⟨rfl, rfl⟩
  · intro requestBytes txn t hm hs hM h0 h1 hok hf hc
    rw [txnRun_first env sn value fee requestBytes txn 2 (some t) hm hs (by omega)
      (fun j hj => by
        rcases (show j = 0 ∨ j = 1 by omega) with rfl | rfl
        · exact h0
        · exact h1) hok]
    simp [afterPolls, hf, hc]

/-- **C23, witness.** Maximum 3, two failed polls, then a transaction of
status 1: three polls, three sleeps, nil error. -/
theorem poll_count_witness :
    (smartContractTxnValueFee (demoTxnEnv Unit 3 (twoFailures 1)) demoSn 0 0).polls = 3 ∧
    (smartContractTxnValueFee (demoTxnEnv Unit 3 (twoFailures 1)) demoSn 0 0).sleeps = 3 ∧
    (smartContractTxnValueFee (demoTxnEnv Unit 3 (twoFailures 1)) demoSn 0 0).err = none ∧
    (smartContractTxnValueFee (demoTxnEnv Unit 3 (twoFailures 1)) demoSn 0 0).hash = "h1" ∧
    (smartContractTxnValueFee (demoTxnEnv Unit 3 (twoFailures 1)) demoSn 0 0).out = "out1" :=
  (poll_count (demoTxnEnv Unit 3 (twoFailures 1)) demoSn 0 0).2.2 "request"
    ⟨"h1", "client1", STORAGE_SCADDRESS, "request", 0, 0, 1000, 5, "", 0⟩ (demoTxn 1)
    rfl rfl rfl (by decide) (by decide) rfl (by decide) (by decide)

/-- **C24.** When the poll with index `k` is the first to return without error
and it returns the transaction `t` (the two status constants being different):
with status fail the call returns `(t.Hash, t.TransactionOutput, 0)` and an
error with message `t.TransactionOutput`; with status chargeable error it
returns `(t.Hash, t.TransactionOutput, t.TransactionNonce)` and an error with
message `t.TransactionOutput`; with any other status it returns
`(t.Hash, t.TransactionOutput, t.TransactionNonce)` and a nil error. In all
three cases the output is `t.TransactionOutput`. -/
theorem terminal_states {α : Type} (env : TxnEnv α) (sn : SmartContractTxnData α)
    (value fee : Int) (requestBytes : String) (txn t : Transaction) (k : Nat)
    (hdist : env.TxnFail ≠ env.TxnChargeableError)
    (hm : env.marshal sn = .ok requestBytes)
    (hs : env.computeHashAndSign (unsignedTxn env requestBytes value fee) = .ok txn)
    (hk : (k : Int) < env.maxTxnQuery)
    (hfail : ∀ j, j < k → (env.verify j txn.Hash).2 ≠ none)
    (hok : env.verify k txn.Hash = (some t, none)) :
    (t.Status = env.TxnFail →
      (smartContractTxnValueFee env sn value fee).hash = t.Hash ∧
      (smartContractTxnValueFee env sn value fee).nonce = 0 ∧
      (smartContractTxnValueFee env sn value fee).err = some ⟨"", t.TransactionOutput⟩) ∧
    (t.Status = env.TxnChargeableError →
      (smartContractTxnValueFee env sn value fee).hash = t.Hash ∧
      (smartContractTxnValueFee env sn value fee).nonce = t.TransactionNonce ∧
      (smartContractTxnValueFee env sn value fee).err = some ⟨"", t.TransactionOutput⟩) ∧
    (t.Status ≠ env.TxnFail → t.Status ≠ env.TxnChargeableError →
      (smartContractTxnValueFee env sn value fee).hash = t.Hash ∧
      (smartContractTxnValueFee env sn value fee).nonce = t.TransactionNonce ∧
      (smartContractTxnValueFee env sn value fee).err = none) ∧
    (smartContractTxnValueFee env sn value fee).out = t.TransactionOutput := by
  rw [txnRun_first env sn value fee requestBytes txn k (some t) hm hs (by omega) hfail hok]
  refine ⟨?_, ?_, ?_, ?_⟩
  · intro h; simp [afterPolls, h]
  · intro h
    have : ¬ env.TxnChargeableError = env.TxnFail := fun h2 => hdist h2.symm
    simp [afterPolls, h, this]
  · intro h1 h2; simp [afterPolls, h1, h2]
  · simp only [afterPolls]
    repeat' split
    all_goals rfl

/-- **C24, witness.** Two failed polls, then a transaction of status 2
(chargeable error): the call returns its hash, its nonce 7 and an error with
its output as message. -/
theorem terminal_states_witness :
    (smartContractTxnValueFee (demoTxnEnv Unit 3 (twoFailures 2)) demoSn 0 0).hash = "h1" ∧
    (smartContractTxnValueFee (demoTxnEnv Unit 3 (twoFailures 2)) demoSn 0 0).nonce = 7 ∧
    (smartContractTxnValueFee (demoTxnEnv Unit 3 (twoFailures 2)) demoSn 0 0).err =
      some ⟨"", "out1"⟩ :=
  (terminal_states (demoTxnEnv Unit 3 (twoFailures 2)) demoSn 0 0 "request"
    ⟨"h1", "client1", STORAGE_SCADDRESS, "request", 0, 0, 1000, 5, "", 0⟩ (demoTxn 2) 2
    (by decide) rfl rfl (by decide) (by decide) rfl).2.1 (by decide)
/-- **C25, counterexample.** Maximum 1 and the single poll fails with the error
`not found`: the call returns that error, not the dedicated
`transaction_validation_failed` one. -/
theorem timeout_error_counterexample :
    (smartContractTxnValueFee (demoTxnEnv Unit 1 allFail) demoSn 0 0).polls = 1 ∧
    (smartContractTxnValueFee (demoTxnEnv Unit 1 allFail) demoSn 0 0).err =
      some ⟨"", "not found"⟩ ∧
    (smartContractTxnValueFee (demoTxnEnv Unit 1 allFail) demoSn 0 0).err ≠
      some ⟨"transaction_validation_failed", "Failed to get the transaction confirmation"⟩ := by
  decide

/-- **C25, amended.** Once the request is marshalled and the transaction
signed: when every one of the `M ≥ 1` polls fails, the call returns the error
of the last poll, with empty hash and output and the nonce taken from the
client, after `M` polls; the dedicated `transaction_validation_failed` error is
what it returns when polling ends with neither an error nor a transaction,
that is when `M ≤ 0` (no poll is made) or when the first poll without error
gives no transaction. -/
theorem polls_exhausted_error {α : Type} (env : TxnEnv α) (sn : SmartContractTxnData α)
    (value fee : Int) (requestBytes : String) (txn : Transaction)
    (hm : env.marshal sn = .ok requestBytes)
    (hs : env.computeHashAndSign (unsignedTxn env requestBytes value fee) = .ok txn) :
    (0 < env.maxTxnQuery →
      (∀ j : Nat, (j : Int) < env.maxTxnQuery → (env.verify j txn.Hash).2 ≠ none) →
      (smartContractTxnValueFee env sn value fee).err =
        (env.verify (env.maxTxnQuery.toNat - 1) txn.Hash).2 ∧
      (smartContractTxnValueFee env sn value fee).err ≠ none ∧
      (smartContractTxnValueFee env sn value fee).hash = "" ∧
      (smartContractTxnValueFee env sn value fee).out = "" ∧
      (smartContractTxnValueFee env sn value fee).nonce = txnNonce env ∧
      ((smartContractTxnValueFee env sn value fee).polls : Int) = env.maxTxnQuery) ∧
    (env.maxTxnQuery ≤ 0 →
      (smartContractTxnValueFee env sn value fee).err =
        some ⟨"transaction_validation_failed", "Failed to get the transaction confirmation"⟩ ∧
      (smartContractTxnValueFee env sn value fee).polls = 0) ∧
    (∀ k : Nat, (k : Int) < env.maxTxnQuery →
      (∀ j, j < k → (env.verify j txn.Hash).2 ≠ none) →
      env.verify k txn.Hash = (none, none) →
      (smartContractTxnValueFee env sn value fee).err =
        some ⟨"transaction_validation_failed", "Failed to get the transaction confirmation"⟩) := by
  refine ⟨?_, ?_, ?_⟩
  · intro hM hfail
    obtain ⟨n, hn⟩ : ∃ n, env.maxTxnQuery.toNat = n + 1 :=
      ⟨env.maxTxnQuery.toNat - 1, by omega⟩
    rw [txnRun_all_fail env sn value fee requestBytes txn n hm hs hn
      (fun j hj => hfail j (by omega))]
    refine ⟨?_, hfail n (by omega), rfl, rfl, rfl, ?_⟩
    · simp [hn]
    · show ((n + 1 : Nat) : Int) = env.maxTxnQuery
      omega
  · intro hM
    have h0 : env.maxTxnQuery.toNat = 0 := by omega
    rw [txnRun_eq env sn value fee requestBytes txn hm hs, h0]
    exact ⟨rfl, rfl⟩
  · intro k hk hfail hok
    rw [txnRun_first env sn value fee requestBytes txn k none hm hs (by omega) hfail hok]
    rfl

/-- **C25, witness.** Maximum 3 and all three polls fail with `not found`: the
call returns that error after 3 polls. -/
theorem polls_exhausted_error_witness :
    (smartContractTxnValueFee (demoTxnEnv Unit 3 allFail) demoSn 0 0).err =
      some ⟨"", "not found"⟩ ∧
    ((smartContractTxnValueFee (demoTxnEnv Unit 3 allFail) demoSn 0 0).polls : Int) = 3 :=
  have h := (polls_exhausted_error (demoTxnEnv Unit 3 allFail) demoSn 0 0 "request"
    ⟨"h1", "client1", STORAGE_SCADDRESS, "request", 0, 0, 1000, 5, "", 0⟩ rfl rfl).1
    (by decide) (fun _ _ => by simp [demoTxnEnv, allFail])
  ⟨h.1, h.2.2.2.2.2⟩

/-- **C26, counterexample.** Two failed polls, then a transaction of status 3
(fail): the call returns an error and `Evict` was not called. -/
theorem evict_counterexample :
    (smartContractTxnValueFee (demoTxnEnv Unit 3 (twoFailures 3)) demoSn 0 0).err =
      some ⟨"", "out1"⟩ ∧
    (smartContractTxnValueFee (demoTxnEnv Unit 3 (twoFailures 3)) demoSn 0 0).sent.length = 1 ∧
    (smartContractTxnValueFee (demoTxnEnv Unit 3 (twoFailures 3)) demoSn 0 0).evicts = [] := by
  decide

/-- **C26, amended.** Once the request is marshalled and the transaction
signed: when every one of the `M ≥ 1` polls fails, the call returns a non-nil
error and `Evict` was called exactly once, for the client ID of the
transaction; when a poll returns a transaction (whatever its status, fail and
chargeable error included) `Evict` is not called. In both cases the transaction
was handed to `SendTransactionSync` once. -/
theorem evict_on_poll_failure {α : Type} (env : TxnEnv α) (sn : SmartContractTxnData α)
    (value fee : Int) (requestBytes : String) (txn : Transaction)
    (hm : env.marshal sn = .ok requestBytes)
    (hs : env.computeHashAndSign (unsignedTxn env requestBytes value fee) = .ok txn) :
    (0 < env.maxTxnQuery →
      (∀ j : Nat, (j : Int) < env.maxTxnQuery → (env.verify j txn.Hash).2 ≠ none) →
      (smartContractTxnValueFee env sn value fee).err ≠ none ∧
      (smartContractTxnValueFee env sn value fee).sent = [txn] ∧
      (smartContractTxnValueFee env sn value fee).evicts = [txn.ClientID]) ∧
    (∀ (k : Nat) (t : Transaction), (k : Int) < env.maxTxnQuery →
      (∀ j, j < k → (env.verify j txn.Hash).2 ≠ none) →
      env.verify k txn.Hash = (some t, none) →
      (smartContractTxnValueFee env sn value fee).sent = [txn] ∧
      (smartContractTxnValueFee env sn value fee).evicts = []) := by
  refine ⟨?_, ?_⟩
  · intro hM hfail
    obtain ⟨n, hn⟩ : ∃ n, env.maxTxnQuery.toNat = n + 1 :=
      ⟨env.maxTxnQuery.toNat - 1, by omega⟩
    rw [txnRun_all_fail env sn value fee requestBytes txn n hm hs hn
      (fun j hj => hfail j (by omega))]
    exact ⟨hfail n (by omega), rfl, rfl⟩
  · intro k t hk hfail hok
    rw [txnRun_first env sn value fee requestBytes txn k (some t) hm hs (by omega) hfail hok]
    simp only [afterPolls]
    repeat' split
    all_goals exact ⟨rfl, rfl⟩

/-- **C26, witness.** Maximum 3 and all three polls fail: `Evict` was called
once, for `client1`. -/
theorem evict_on_poll_failure_witness :
    (smartContractTxnValueFee (demoTxnEnv Unit 3 allFail) demoSn 0 0).evicts = ["client1"] :=
  ((evict_on_poll_failure (demoTxnEnv Unit 3 allFail) demoSn 0 0 "request"
    ⟨"h1", "client1", STORAGE_SCADDRESS, "request", 0, 0, 1000, 5, "", 0⟩ rfl rfl).1
    (by decide) (fun _ _ => by simp [demoTxnEnv, allFail])).2.2

/-- **C27, evaluated at the failing input.** Client `client1` with public key
`pk1` creates the allocation named `myalloc`: `CreateAllocation` builds the
request with name `myalloc`, owner `client1` and owner key `pk1`, while
`CreateAllocationWithBlobbers` builds it with name `client1`, owner `pk1` and
owner key `myalloc`. -/
theorem create_allocation_with_blobbers_identity :
    ((CreateAllocation demoAllocEnv "myalloc" 2 1 1024 100 ⟨0, 10⟩ ⟨0, 10⟩ 60 5).built.map
      (fun q => (q.name, q.owner_id, q.owner_public_key))) =
      some ("myalloc", "client1", "pk1") ∧
    ((CreateAllocationWithBlobbers demoAllocEnv "myalloc" 2 1 1024 100 ⟨0, 10⟩ ⟨0, 10⟩ 60 5
      []).built.map (fun q => (q.name, q.owner_id, q.owner_public_key))) =
      some ("client1", "pk1", "myalloc") := by
  decide

/-- The loop of `AllocFilter` on an array made of the elements written so far
(`pre`), the elements passed over (`mid`) and the elements not yet visited
(`suf`). -/
theorem allocFilterLoop_spec (allocID : String) (suf : List AllocationPoolStat) :
    ∀ pre mid : List AllocationPoolStat,
      ((allocFilterLoop allocID suf.length (pre ++ mid).length pre.length
          (pre ++ mid ++ suf)).1.take
        (allocFilterLoop allocID suf.length (pre ++ mid).length pre.length
          (pre ++ mid ++ suf)).2) =
        pre ++ suf.filter (fun p => p.AllocationID = allocID) := by
  induction suf with
  | nil =>
    intro pre mid
    simp [allocFilterLoop]
  | cons x suf ih =>
    intro pre mid
    have hget : (pre ++ mid ++ x :: suf)[(pre ++ mid).length]? = some x := by
      rw [List.getElem?_append_right (Nat.le_refl _)]
      simp
    simp only [List.length_cons, allocFilterLoop, hget]
    by_cases hx : x.AllocationID = allocID
    · rw [if_neg (by simpa using hx)]
      cases mid with
      | nil =>
        have hset : (pre ++ [] ++ x :: suf).set pre.length x = (pre ++ [x]) ++ [] ++ suf := by
          simp
        have := ih (pre ++ [x]) []
        simp only [List.append_nil, List.length_append, List.length_singleton] at this hset ⊢
        rw [hset, this]
        simp [List.filter_cons, hx]
      | cons m ms =>
        have hset : (pre ++ m :: ms ++ x :: suf).set pre.length x =
            (pre ++ [x]) ++ (ms ++ [x]) ++ suf := by
          simp
        have := ih (pre ++ [x]) (ms ++ [x])
        have hlen : (pre ++ m :: ms).length + 1 = (pre ++ [x] ++ (ms ++ [x])).length := by
          simp; omega
        rw [hset, hlen, show pre.length + 1 = (pre ++ [x]).length by simp, this]
        simp [List.filter_cons, hx]
    · rw [if_pos (by simpa using hx)]
      have := ih pre (mid ++ [x])
      have hlen : (pre ++ mid).length + 1 = (pre ++ (mid ++ [x])).length := by
        simp; omega
      rw [hlen, show pre ++ mid ++ x :: suf = pre ++ (mid ++ [x]) ++ suf by simp, this]
      simp [List.filter_cons, hx]

theorem AllocFilter_pools (aps : AllocationPoolStats) (allocID : String)
    (h : allocID ≠ "") :
    AllocFilter aps allocID =
      { aps with Pools := aps.Pools.filter (fun p => p.AllocationID = allocID) } := by
  have := allocFilterLoop_spec allocID aps.Pools [] []
  simp only [List.append_nil, List.nil_append, List.length_nil] at this
  simp only [AllocFilter, if_neg h, this]

/-- **C28.** `AllocFilter(allocID)`: for a non-empty `allocID` the resulting
`Pools` is the sub-list of the original `Pools` whose `AllocationID` equals
`allocID`, in the original order, and `Back` is untouched; for the empty
`allocID` the receiver is left unchanged; filtering a second time with the same
`allocID` changes nothing. -/
theorem alloc_filter (aps : AllocationPoolStats) (allocID : String) :
    (allocID ≠ "" →
      (AllocFilter aps allocID).Pools =
        aps.Pools.filter (fun p => p.AllocationID = allocID) ∧
      (AllocFilter aps allocID).Back = aps.Back) ∧
    (allocID = "" → AllocFilter aps allocID = aps) ∧
    AllocFilter (AllocFilter aps allocID) allocID = AllocFilter aps allocID := by
  refine ⟨?_, ?_, ?_⟩
  · intro h
    rw [AllocFilter_pools aps allocID h]
    exact ⟨rfl, rfl⟩
  · intro h
    simp [AllocFilter, h]
  · by_cases h : allocID = ""
    · simp [AllocFilter, h]
    · rw [AllocFilter_pools _ allocID h, AllocFilter_pools aps allocID h]
      simp [List.filter_filter]

/-- **C28, witness.** Pools of the allocations `a`, `b`, `a`: filtering on `a`
keeps the first and the third, in that order. -/
theorem alloc_filter_witness :
    (AllocFilter ⟨[demoPool "p1" "a", demoPool "p2" "b", demoPool "p3" "a"], none⟩ "a").Pools =
      [demoPool "p1" "a", demoPool "p3" "a"] :=
  ((alloc_filter ⟨[demoPool "p1" "a", demoPool "p2" "b", demoPool "p3" "a"], none⟩ "a").1
    (by decide)).1.trans (by decide)

theorem confirmLoop_found (status : Nat → Int) (rem i : Nat) (res : Int) (sleeps k : Nat)
    (hk1 : i ≤ k) (hk2 : k < i + rem) (hone : status k = 1)
    (hfirst : ∀ j, i ≤ j → j < k → status j ≠ 1) :
    confirmLoop status rem i res sleeps = ⟨1, k + 1, sleeps + (k - i)⟩ := by
  induction rem generalizing i res sleeps with
  | zero => omega
  | succ n ih =>
    unfold confirmLoop
    by_cases hi : status i = 1
    · have hik : i = k := by
        by_contra hne
        exact hfirst i (le_refl i) (by omega) hi
      subst hik
      simp [hi]
    · have hik : i < k := by
        rcases Nat.lt_or_ge i k with h | h
        · exact h
        · have : i = k := by omega
          subst this
          exact absurd hone hi
      rw [if_neg hi, ih (i + 1) (status i) (sleeps + 1) (by omega) (by omega)
        (fun j h1 h2 => hfirst j (by omega) h2)]
      congr 1
      omega

theorem confirmLoop_none (status : Nat → Int) (rem i : Nat) (res : Int) (sleeps : Nat)
    (hnone : ∀ j, i ≤ j → j < i + rem → status j ≠ 1) :
    confirmLoop status rem i res sleeps =
      ⟨if rem = 0 then res else status (i + rem - 1), i + rem, sleeps + rem⟩ := by
  induction rem generalizing i res sleeps with
  | zero => simp [confirmLoop]
  | succ n ih =>
    unfold confirmLoop
    rw [if_neg (hnone i (le_refl i) (by omega)),
      ih (i + 1) (status i) (sleeps + 1) (fun j h1 h2 => hnone j (by omega) (by omega))]
    by_cases hn : n = 0
    · subst hn; simp
    · simp only [hn, if_false, Nat.add_one_ne_zero]
      rw [show i + 1 + n - 1 = i + (n + 1) - 1 by omega, show i + 1 + n = i + (n + 1) by omega,
        show sleeps + 1 + n = sleeps + (n + 1) by omega]

theorem exists_first_one (status : Nat → Int) (n : Nat) (h : ∃ k, k < n ∧ status k = 1) :
    ∃ k, k < n ∧ status k = 1 ∧ ∀ j, j < k → status j ≠ 1 := by
  classical
  have hex : ∃ k, k < n ∧ status k = 1 := h
  refine ⟨Nat.find hex, (Nat.find_spec hex).1, (Nat.find_spec hex).2, ?_⟩
  intro j hj hone
  exact Nat.find_min hex hj ⟨by have := (Nat.find_spec hex).1; omega, hone⟩

/-- **C29.** `ConfirmTransactionStatus` against any sequence of status answers
makes at most `max(times, 0)` checks; when the check with index `k` (counted
from 0) is the first that returns 1 it stops there, with `k + 1` checks made
and `k` sleeps, and returns 1; it returns 1 exactly when one of the first `times` checks returns 1;
otherwise it makes all `times` checks and returns the status of the last one;
with `times ≤ 0` it returns 0 without any check. -/
theorem confirm_transaction_status (status : Nat → Int) (times : Int) :
    (ConfirmTransactionStatus status times).checks ≤ times.toNat ∧
    (∀ k, k < times.toNat → status k = 1 → (∀ j, j < k → status j ≠ 1) →
      ConfirmTransactionStatus status times = ⟨1, k + 1, k⟩) ∧
    ((ConfirmTransactionStatus status times).res = 1 ↔ ∃ k, k < times.toNat ∧ status k = 1) ∧
    ((∀ k, k < times.toNat → status k ≠ 1) → 0 < times →
      ConfirmTransactionStatus status times =
        ⟨status (times.toNat - 1), times.toNat, times.toNat⟩) ∧
    (times ≤ 0 → ConfirmTransactionStatus status times = ⟨0, 0, 0⟩) := by
  have hfound : ∀ k, k < times.toNat → status k = 1 → (∀ j, j < k → status j ≠ 1) →
      ConfirmTransactionStatus status times = ⟨1, k + 1, k⟩ := by
    intro k hk hone hfirst
    have := confirmLoop_found status times.toNat 0 0 0 k (Nat.zero_le k) (by omega) hone
      (fun j _ h2 => hfirst j h2)
    simpa [ConfirmTransactionStatus] using this
  have hnone : (∀ k, k < times.toNat → status k ≠ 1) →
      ConfirmTransactionStatus status times =
        ⟨if times.toNat = 0 then 0 else status (times.toNat - 1), times.toNat, times.toNat⟩ := by
    intro h
    have := confirmLoop_none status times.toNat 0 0 0 (fun j _ h2 => h j (by omega))
    simpa [ConfirmTransactionStatus] using this
  refine ⟨?_, hfound, ?_, ?_, ?_⟩
  · by_cases hex : ∃ k, k < times.toNat ∧ status k = 1
    · obtain ⟨k, h1, h2, h3⟩ := exists_first_one status times.toNat hex
      rw [hfound k h1 h2 h3]
      exact h1
    · rw [hnone (fun k hk hone => hex ⟨k, hk, hone⟩)]
  · constructor
    · intro hres
      by_contra hex
      have hn := hnone (fun k hk hone => hex ⟨k, hk, hone⟩)
      rw [hn] at hres
      simp only at hres
      by_cases ht : times.toNat = 0
      · simp [ht] at hres
      · rw [if_neg ht] at hres
        exact hex ⟨times.toNat - 1, by omega, hres⟩
    · intro hex
      obtain ⟨k, h1, h2, h3⟩ := exists_first_one status times.toNat hex
      rw [hfound k h1 h2 h3]
  · intro h hpos
    rw [hnone h, if_neg (by omega)]
  · intro h
    have ht : times.toNat = 0 := by omega
    rw [hnone (fun k hk => by omega), if_pos ht, ht]

/-- Witness for C29: five tries allowed, the third check is the first to return 1. -/
theorem confirm_transaction_status_witness :
    ConfirmTransactionStatus (fun k => if k = 2 then 1 else 0) 5 = ⟨1, 2 + 1, 2⟩ :=
  (confirm_transaction_status (fun k => if k = 2 then 1 else 0) 5).2.1 2 (by decide) (by decide)
    (by decide)

theorem toUpper_hexDigit (n : Nat) (h : n < 16) :
    toUpperAscii (hexDigit n) ∈ upperHexDigits ∧ fromHexChar (toUpperAscii (hexDigit n)) = some n := by
  interval_cases n <;> decide

theorem ToHex_chars (b : List Nat) :
    ((hexChars b).map toUpperAscii).length = 2 * b.length ∧
      ∀ c ∈ (hexChars b).map toUpperAscii, c ∈ upperHexDigits := by
  induction b with
  | nil => simp [hexChars]
  | cons x xs ih =>
    refine ⟨by simp only [hexChars, List.map_cons, List.length_cons, ih.1]; omega, ?_⟩
    intro c hc
    simp only [hexChars, List.map_cons, List.mem_cons] at hc
    rcases hc with h | h | h
    · rw [h]; exact (toUpper_hexDigit _ (Nat.mod_lt _ (by decide))).1
    · rw [h]; exact (toUpper_hexDigit _ (Nat.mod_lt _ (by decide))).1
    · exact ih.2 c h

theorem hexDecode_ToHex (b : List Nat) (hb : ∀ x ∈ b, x < 256) :
    hexDecode ((hexChars b).map toUpperAscii) = some b := by
  induction b with
  | nil => rfl
  | cons x xs ih =>
    have hx := hb x (List.mem_cons_self _ _)
    have h1 := (toUpper_hexDigit (x / 16 % 16) (Nat.mod_lt _ (by decide))).2
    have h2 := (toUpper_hexDigit (x % 16) (Nat.mod_lt _ (by decide))).2
    simp only [hexChars, List.map_cons, hexDecode, h1, h2,
      ih (fun y hy => hb y (List.mem_cons_of_mem _ hy)), Option.map_some']
    congr 2
    omega

theorem fromHexChar_of_not_digit (c : Char) (h : c ∉ hexDigitChars) : fromHexChar c = none := by
  have hc : c = Char.ofNat c.toNat := (Char.ofNat_toNat c).symm
  unfold fromHexChar
  split
  · rename_i h1
    exfalso; apply h; rw [hc]
    generalize c.toNat = n at h1
    obtain ⟨h3, h4⟩ := h1
    interval_cases n <;> decide
  · split
    · rename_i h1
      exfalso; apply h; rw [hc]
      generalize c.toNat = n at h1
      obtain ⟨h3, h4⟩ := h1
      interval_cases n <;> decide
    · split
      · rename_i h1
        exfalso; apply h; rw [hc]
        generalize c.toNat = n at h1
        obtain ⟨h3, h4⟩ := h1
        interval_cases n <;> decide
      · rfl

theorem hexDecode_some : ∀ (cs : List Char) (bs : List Nat), hexDecode cs = some bs →
    cs.length % 2 = 0 ∧ ∀ c ∈ cs, fromHexChar c ≠ none
  | [], _, _ => by simp
  | [_], _, h => by simp [hexDecode] at h
  | p :: q :: rest, bs, h => by
    unfold hexDecode at h
    cases hp : fromHexChar p with
    | none => simp [hp] at h
    | some a =>
      cases hq : fromHexChar q with
      | none => simp [hp, hq] at h
      | some b =>
        simp only [hp, hq] at h
        obtain ⟨bs1, hbs1, -⟩ := Option.map_eq_some'.mp h
        have ih := hexDecode_some rest bs1 hbs1
        refine ⟨by simp only [List.length_cons]; omega, ?_⟩
        intro c hc
        simp only [List.mem_cons] at hc
        rcases hc with h1 | h1 | h1
        · rw [h1, hp]; simp
        · rw [h1, hq]; simp
        · exact ih.2 c h1

/-- **C30.** Hex round trip.  For every byte slice `b`, `ToHex b` has `2 * len(b)`
characters, all among `0-9` and `A-F`, and `HashStringToBytes (ToHex b)` is
exactly `b`; for every string of odd length or with a character that is no
hexadecimal digit, `HashStringToBytes` returns nil. -/
theorem hex_round_trip (b : List Nat) (s : String) :
    ((ToHex b).data.length = 2 * b.length ∧ ∀ c ∈ (ToHex b).data, c ∈ upperHexDigits) ∧
    ((∀ x ∈ b, x < 256) → HashStringToBytes (ToHex b) = some b) ∧
    (s.data.length % 2 = 1 ∨ (∃ c ∈ s.data, c ∉ hexDigitChars) → HashStringToBytes s = none) := by
  refine ⟨ToHex_chars b, fun hb => hexDecode_ToHex b hb, ?_⟩
  intro h
  cases hd : HashStringToBytes s with
  | none => rfl
  | some bs =>
    exfalso
    have := hexDecode_some s.data bs hd
    rcases h with h | ⟨c, hc, hn⟩
    · omega
    · exact this.2 c hc (fromHexChar_of_not_digit c hn)

/-- Witness for C30: the bytes `[0, 171, 255]` and the odd-length string `ABC`. -/
theorem hex_round_trip_witness :
    HashStringToBytes (ToHex [0, 171, 255]) = some [0, 171, 255] ∧
    HashStringToBytes "ABC" = none :=
  ⟨(hex_round_trip [0, 171, 255] "ABC").2.1 (by decide),
   (hex_round_trip [0, 171, 255] "ABC").2.2 (Or.inl (by decide))⟩

end Gosdk
